import Mathlib

/-!
Verification of `exclude-addresses.py`, a command-line tool that computes the
set difference between a target IP network and a collection of excluded
addresses / subnets.

The program delegates its network arithmetic to CPython's `ipaddress` module
(`/usr/lib/python3.11/ipaddress.py`); the relevant library functions
(`ip_network` parsing, `subnet_of`, `supernet`, `subnets`, `address_exclude`,
`collapse_addresses`, string formatting) are embedded here alongside the
repository's own functions, translated from their sources.

Conventions of the embedding:
* Python's unbounded integers are `Nat` (all values in scope are non-negative).
* Python strings are `List Char`.
* Python exceptions are modelled with `Except String`; a `.error` value marks
  a raised exception that the repository code does not catch at that point.
* Python's bitwise operators on integers are given gas-fuelled structural
  definitions (`py_and`, `py_or`, `py_xor`) so that all definitions reduce in
  the kernel; the gas argument strictly bounds the recursion depth and the
  `py_*_def` equations prove it never runs out.
* Python `set` objects are lists with membership-guarded insertion; iteration
  order of a set, which CPython leaves unspecified, is fixed to insertion
  order here.
-/

/-! ## Python bitwise primitives on unbounded naturals -/

/-- Gas-fuelled bitwise AND. `py_and_aux g n m` halves both arguments,
so any `g > n` is enough gas. -/
def py_and_aux : ℕ → ℕ → ℕ → ℕ
  | 0, _, _ => 0
  | g + 1, n, m =>
    if n = 0 ∨ m = 0 then 0
    else 2 * py_and_aux g (n / 2) (m / 2) + (n % 2) * (m % 2)

/-- Python's `n & m` on non-negative integers. -/
def py_and (n m : ℕ) : ℕ := py_and_aux (n + 1) n m

/-- Gas-fuelled bitwise OR. -/
def py_or_aux : ℕ → ℕ → ℕ → ℕ
  | 0, _, _ => 0
  | g + 1, n, m =>
    if n = 0 then m
    else if m = 0 then n
    else 2 * py_or_aux g (n / 2) (m / 2) + (if n % 2 = 1 ∨ m % 2 = 1 then 1 else 0)

/-- Python's `n | m` on non-negative integers. -/
def py_or (n m : ℕ) : ℕ := py_or_aux (n + 1) n m

/-- Gas-fuelled bitwise XOR. -/
def py_xor_aux : ℕ → ℕ → ℕ → ℕ
  | 0, _, _ => 0
  | g + 1, n, m =>
    if n = 0 then m
    else if m = 0 then n
    else 2 * py_xor_aux g (n / 2) (m / 2) + (if n % 2 = m % 2 then 0 else 1)

/-- Python's `n ^ m` on non-negative integers. -/
def py_xor (n m : ℕ) : ℕ := py_xor_aux (n + 1) n m

theorem py_and_aux_gas (g₁ g₂ n m : ℕ) (h₁ : n < g₁) (h₂ : n < g₂) :
    py_and_aux g₁ n m = py_and_aux g₂ n m := by
  induction n using Nat.strong_induction_on generalizing g₁ g₂ m with
  | _ n ih =>
    match g₁, g₂ with
    | gg₁ + 1, gg₂ + 1 =>
      simp only [py_and_aux]
      by_cases h : n = 0 ∨ m = 0
      · simp [h]
      · simp only [h, if_false]
        have hd : n / 2 < n := Nat.div_lt_self (by omega) (by omega)
        rw [ih (n / 2) hd gg₁ gg₂ (m / 2) (by omega) (by omega)]

theorem py_and_def (n m : ℕ) :
    py_and n m = if n = 0 ∨ m = 0 then 0
      else 2 * py_and (n / 2) (m / 2) + (n % 2) * (m % 2) := by
  by_cases h : n = 0 ∨ m = 0
  · have h0 : py_and n m = 0 := by
      rcases h with h | h <;> simp [py_and, py_and_aux, h]
    simp [h, h0]
  · rw [if_neg h]
    have hd : n / 2 < n := Nat.div_lt_self (by omega) (by omega)
    have h1 : py_and n m = 2 * py_and_aux n (n / 2) (m / 2) + (n % 2) * (m % 2) := by
      simp only [py_and, py_and_aux, h, if_false]
    have h2 : py_and_aux n (n / 2) (m / 2) = py_and (n / 2) (m / 2) :=
      py_and_aux_gas n (n / 2 + 1) (n / 2) (m / 2) (by omega) (by omega)
    rw [h1, h2]

theorem py_or_aux_gas (g₁ g₂ n m : ℕ) (h₁ : n < g₁) (h₂ : n < g₂) :
    py_or_aux g₁ n m = py_or_aux g₂ n m := by
  induction n using Nat.strong_induction_on generalizing g₁ g₂ m with
  | _ n ih =>
    match g₁, g₂ with
    | gg₁ + 1, gg₂ + 1 =>
      simp only [py_or_aux]
      by_cases h : n = 0
      · simp [h]
      · simp only [h, if_false]
        by_cases hm : m = 0
        · simp [hm]
        · simp only [hm, if_false]
          have hd : n / 2 < n := Nat.div_lt_self (by omega) (by omega)
          rw [ih (n / 2) hd gg₁ gg₂ (m / 2) (by omega) (by omega)]

theorem py_or_def (n m : ℕ) :
    py_or n m = if n = 0 then m else if m = 0 then n
      else 2 * py_or (n / 2) (m / 2) + (if n % 2 = 1 ∨ m % 2 = 1 then 1 else 0) := by
  by_cases h : n = 0
  · simp [py_or, py_or_aux, h]
  · by_cases hm : m = 0
    · simp [py_or, py_or_aux, h, hm]
    · rw [if_neg h, if_neg hm]
      have hd : n / 2 < n := Nat.div_lt_self (by omega) (by omega)
      have h1 : py_or n m
          = 2 * py_or_aux n (n / 2) (m / 2) + (if n % 2 = 1 ∨ m % 2 = 1 then 1 else 0) := by
        simp only [py_or, py_or_aux, h, hm, if_false]
      have h2 : py_or_aux n (n / 2) (m / 2) = py_or (n / 2) (m / 2) :=
        py_or_aux_gas n (n / 2 + 1) (n / 2) (m / 2) (by omega) (by omega)
      rw [h1, h2]

theorem py_xor_aux_gas (g₁ g₂ n m : ℕ) (h₁ : n < g₁) (h₂ : n < g₂) :
    py_xor_aux g₁ n m = py_xor_aux g₂ n m := by
  induction n using Nat.strong_induction_on generalizing g₁ g₂ m with
  | _ n ih =>
    match g₁, g₂ with
    | gg₁ + 1, gg₂ + 1 =>
      simp only [py_xor_aux]
      by_cases h : n = 0
      · simp [h]
      · simp only [h, if_false]
        by_cases hm : m = 0
        · simp [hm]
        · simp only [hm, if_false]
          have hd : n / 2 < n := Nat.div_lt_self (by omega) (by omega)
          rw [ih (n / 2) hd gg₁ gg₂ (m / 2) (by omega) (by omega)]

theorem py_xor_def (n m : ℕ) :
    py_xor n m = if n = 0 then m else if m = 0 then n
      else 2 * py_xor (n / 2) (m / 2) + (if n % 2 = m % 2 then 0 else 1) := by
  by_cases h : n = 0
  · simp [py_xor, py_xor_aux, h]
  · by_cases hm : m = 0
    · simp [py_xor, py_xor_aux, h, hm]
    · rw [if_neg h, if_neg hm]
      have hd : n / 2 < n := Nat.div_lt_self (by omega) (by omega)
      have h1 : py_xor n m
          = 2 * py_xor_aux n (n / 2) (m / 2) + (if n % 2 = m % 2 then 0 else 1) := by
        simp only [py_xor, py_xor_aux, h, hm, if_false]
      have h2 : py_xor_aux n (n / 2) (m / 2) = py_xor (n / 2) (m / 2) :=
        py_xor_aux_gas n (n / 2 + 1) (n / 2) (m / 2) (by omega) (by omega)
      rw [h1, h2]

/-- Splitting a remainder by an even modulus: `x % (2k) = 2 * (x/2 % k) + x % 2`. -/
theorem mod_two_mul (x k : ℕ) : x % (2 * k) = 2 * (x / 2 % k) + x % 2 := by
  rcases Nat.eq_zero_or_pos k with hk | hk
  · subst hk
    simp only [Nat.mul_zero, Nat.mod_zero]
    omega
  · have h2 : x / 2 = k * (x / 2 / k) + x / 2 % k := (Nat.div_add_mod (x / 2) k).symm
    have hlt : 2 * (x / 2 % k) + x % 2 < 2 * k := by
      have h1 := Nat.mod_lt (x / 2) hk
      omega
    have hx : x = 2 * (k * (x / 2 / k)) + (2 * (x / 2 % k) + x % 2) := by omega
    have hshape : 2 * (k * (x / 2 / k)) = 2 * k * (x / 2 / k) := by ring
    conv_lhs => rw [hx, hshape]
    rw [Nat.mul_add_mod, Nat.mod_eq_of_lt hlt]

/-- Bitwise AND with a mask `2^a - 2^k` clears the low `k` bits:
for `x < 2^a`, `x & (2^a - 2^k) = x - x % 2^k`. -/
theorem py_and_mask {a : ℕ} : ∀ {k x : ℕ}, k ≤ a → x < 2 ^ a →
    py_and x (2 ^ a - 2 ^ k) = x - x % 2 ^ k := by
  induction a with
  | zero => intro k x hk hx; interval_cases x; simp [py_and, py_and_aux]
  | succ a ih =>
    intro k x hk hx
    match k with
    | 0 =>
      -- mask is all ones below 2^(a+1); AND is the identity on x
      suffices h : ∀ b y, y < 2 ^ b → py_and y (2 ^ b - 1) = y by
        have := h (a + 1) x hx
        simpa [Nat.mod_one] using this
      intro b
      induction b with
      | zero => intro y hy; interval_cases y; simp [py_and, py_and_aux]
      | succ b ihb =>
        intro y hy
        rw [py_and_def]
        by_cases hy0 : y = 0
        · simp [hy0]
        · have hmask : ¬(2 ^ (b + 1) - 1 = 0) := by
            have : 2 ≤ 2 ^ (b + 1) := by
              calc 2 = 2 ^ 1 := rfl
              _ ≤ 2 ^ (b + 1) := Nat.pow_le_pow_right (by omega) (by omega)
            omega
          have hdiv : (2 ^ (b + 1) - 1) / 2 = 2 ^ b - 1 := by
            have : 2 ^ (b + 1) = 2 * 2 ^ b := by rw [Nat.pow_succ]; ring
            omega
          have hmod : (2 ^ (b + 1) - 1) % 2 = 1 := by
            have : 2 ^ (b + 1) = 2 * 2 ^ b := by rw [Nat.pow_succ]; ring
            omega
          simp only [hy0, hmask, or_self, if_false, hdiv, hmod]
          have hy2 : y / 2 < 2 ^ b := by
            have : 2 ^ (b + 1) = 2 * 2 ^ b := by rw [Nat.pow_succ]; ring
            omega
          rw [ihb (y / 2) hy2]
          omega
    | k + 1 =>
      by_cases hka : k + 1 = a + 1
      · -- mask is zero
        have : 2 ^ (a + 1) - 2 ^ (k + 1) = 0 := by rw [hka]; omega
        rw [this, py_and_def]
        have hx' : x % 2 ^ (k + 1) = x := Nat.mod_eq_of_lt (hka ▸ hx)
        simp [hx']
      · have hk' : k ≤ a := by omega
        rw [py_and_def]
        by_cases hx0 : x = 0
        · simp [hx0]
        · have h2a : (2:ℕ) ^ (a + 1) = 2 * 2 ^ a := by rw [Nat.pow_succ]; ring
          have h2k : (2:ℕ) ^ (k + 1) = 2 * 2 ^ k := by rw [Nat.pow_succ]; ring
          have hkk : (2:ℕ) ^ k ≤ 2 ^ a := Nat.pow_le_pow_right (by omega) hk'
          have hmask0 : ¬(2 ^ (a + 1) - 2 ^ (k + 1) = 0) := by
            have : (2:ℕ) ^ (k + 1) < 2 ^ (a + 1) :=
              Nat.pow_lt_pow_right (by omega) (by omega)
            omega
          have hdiv : (2 ^ (a + 1) - 2 ^ (k + 1)) / 2 = 2 ^ a - 2 ^ k := by omega
          have hmod : (2 ^ (a + 1) - 2 ^ (k + 1)) % 2 = 0 := by omega
          simp only [hx0, hmask0, or_self, if_false, hdiv, hmod, Nat.mul_zero, Nat.add_zero]
          have hx2 : x / 2 < 2 ^ a := by omega
          rw [ih hk' hx2]
          have hxsplit : x % 2 ^ (k + 1) = 2 * (x / 2 % 2 ^ k) + x % 2 := by
            rw [h2k, mod_two_mul]
          have : x / 2 % 2 ^ k ≤ x / 2 := Nat.mod_le _ _
          omega

/-- Bitwise OR of an aligned value with a low mask is addition:
`2^k ∣ x`, `y < 2^k` give `x | y = x + y`. -/
theorem py_or_aligned : ∀ {k x y : ℕ}, 2 ^ k ∣ x → y < 2 ^ k → py_or x y = x + y := by
  intro k
  induction k with
  | zero =>
    intro x y _ hy
    interval_cases y
    rw [py_or_def]
    by_cases hx : x = 0 <;> simp [hx]
  | succ k ih =>
    intro x y hx hy
    rw [py_or_def]
    by_cases hx0 : x = 0
    · simp [hx0]
    · by_cases hy0 : y = 0
      · simp [hx0, hy0]
      · rw [if_neg hx0, if_neg hy0]
        have h2k : (2:ℕ) ^ (k + 1) = 2 * 2 ^ k := by rw [Nat.pow_succ]; ring
        obtain ⟨c, hc⟩ := hx
        have hx2 : x = 2 * (2 ^ k * c) := by rw [hc, h2k]; ring
        have hxeven : x % 2 = 0 := by omega
        have hxdvd : 2 ^ k ∣ x / 2 := ⟨c, by omega⟩
        have hy2 : y / 2 < 2 ^ k := by omega
        rw [ih hxdvd hy2]
        have hif : (if x % 2 = 1 ∨ y % 2 = 1 then 1 else 0) = y % 2 := by
          rcases Nat.mod_two_eq_zero_or_one y with h | h <;> simp [hxeven, h]
        rw [hif]
        omega

/-- XOR with an all-ones mask is complement: for `m < 2^a`,
`(2^a - 1) ^ m = m ^ (2^a - 1) = 2^a - 1 - m`. -/
theorem py_xor_allones : ∀ {a m : ℕ}, m < 2 ^ a →
    py_xor (2 ^ a - 1) m = 2 ^ a - 1 - m ∧ py_xor m (2 ^ a - 1) = 2 ^ a - 1 - m := by
  intro a
  induction a with
  | zero =>
    intro m hm
    interval_cases m
    constructor <;> rw [py_xor_def] <;> simp
  | succ a ih =>
    intro m hm
    have h2a : (2:ℕ) ^ (a + 1) = 2 * 2 ^ a := by rw [Nat.pow_succ]; ring
    have hones : 2 ^ (a + 1) - 1 ≠ 0 := by
      have : (2:ℕ) ≤ 2 ^ (a + 1) := by
        calc (2:ℕ) = 2 ^ 1 := rfl
        _ ≤ 2 ^ (a + 1) := Nat.pow_le_pow_right (by omega) (by omega)
      omega
    have hdiv : (2 ^ (a + 1) - 1) / 2 = 2 ^ a - 1 := by omega
    have hmod : (2 ^ (a + 1) - 1) % 2 = 1 := by omega
    have hm2 : m / 2 < 2 ^ a := by omega
    obtain ⟨ih1, ih2⟩ := ih hm2
    constructor
    · rw [py_xor_def]
      by_cases hm0 : m = 0
      · simp [hm0, hones]
      · rw [if_neg hones, if_neg hm0, hdiv, hmod, ih1]
        have hm2le : m / 2 ≤ 2 ^ a - 1 := by omega
        rcases Nat.mod_two_eq_zero_or_one m with h | h <;> simp [h] <;> omega
    · rw [py_xor_def]
      by_cases hm0 : m = 0
      · simp [hm0]
      · rw [if_neg hm0, if_neg hones, hdiv, hmod, ih2]
        have hm2le : m / 2 ≤ 2 ^ a - 1 := by omega
        rcases Nat.mod_two_eq_zero_or_one m with h | h <;> simp [h] <;> omega

/-- `(2^w - 1) / 2^p = 2^(w-p) - 1` for `p ≤ w` (Python `ALL_ONES >> p`). -/
theorem allones_shr {w p : ℕ} (h : p ≤ w) : (2 ^ w - 1) / 2 ^ p = 2 ^ (w - p) - 1 := by
  have hsplit : 2 ^ w = 2 ^ p * 2 ^ (w - p) := by
    rw [← Nat.pow_add]
    congr 1
    omega
  have hp : 0 < 2 ^ p := Nat.pos_pow_of_pos p (by omega)
  have hwp : 0 < 2 ^ (w - p) := Nat.pos_pow_of_pos _ (by omega)
  have : 2 ^ w - 1 = 2 ^ p * (2 ^ (w - p) - 1) + (2 ^ p - 1) := by
    rw [hsplit]
    have := Nat.mul_le_mul_left (2 ^ p) hwp
    rw [Nat.mul_sub_one]
    omega
  rw [this, Nat.mul_add_div hp, Nat.div_eq_of_lt (by omega)]
  omega

/-! ## The network data model (`ipaddress` module)

A CPython `IPv4Network` / `IPv6Network` object is an address-family tag
(encoded by its `_max_prefixlen`: 32 for IPv4, 128 for IPv6) together with a
base address and a prefix length. A value produced by the library always
satisfies `Net.Valid` below. -/

structure Net where
  w : ℕ      -- `_max_prefixlen`: 32 for IPv4, 128 for IPv6
  addr : ℕ   -- `network_address` as an integer
  plen : ℕ   -- `_prefixlen`
deriving DecidableEq

/-- Invariant of every library-constructed network object: the prefix length
is within range, the address fits in `w` bits, and the host bits are zero. -/
def Net.Valid (n : Net) : Prop :=
  n.plen ≤ n.w ∧ n.addr < 2 ^ n.w ∧ 2 ^ (n.w - n.plen) ∣ n.addr

instance (n : Net) : Decidable n.Valid := by unfold Net.Valid; infer_instance

/-- Number of addresses in the block. -/
def Net.size (n : Net) : ℕ := 2 ^ (n.w - n.plen)

/-- `_ALL_ONES`. -/
def allOnes (w : ℕ) : ℕ := 2 ^ w - 1

/-- `_ip_int_from_prefix`: `ALL_ONES ^ (ALL_ONES >> prefixlen)`. -/
def ipIntFromPrefix (w p : ℕ) : ℕ := py_xor (allOnes w) (allOnes w / 2 ^ p)

/-- `int(self.netmask)`. -/
def Net.netmaskInt (n : Net) : ℕ := ipIntFromPrefix n.w n.plen

/-- `int(self.hostmask)`: `netmask ^ ALL_ONES`. -/
def Net.hostmaskInt (n : Net) : ℕ := py_xor n.netmaskInt (allOnes n.w)

/-- `int(self.broadcast_address)`: `network_address | hostmask`. -/
def Net.broadcast (n : Net) : ℕ := py_or n.addr n.hostmaskInt

theorem netmaskInt_eq {n : Net} (h : n.plen ≤ n.w) :
    n.netmaskInt = 2 ^ n.w - 2 ^ (n.w - n.plen) := by
  unfold Net.netmaskInt ipIntFromPrefix allOnes
  rw [allones_shr h]
  have h1 : 2 ^ (n.w - n.plen) - 1 < 2 ^ n.w := by
    have : (2:ℕ) ^ (n.w - n.plen) ≤ 2 ^ n.w := Nat.pow_le_pow_right (by omega) (by omega)
    have : (0:ℕ) < 2 ^ (n.w - n.plen) := Nat.pos_pow_of_pos _ (by omega)
    omega
  have := (py_xor_allones h1).1
  rw [this]
  have : (0:ℕ) < 2 ^ (n.w - n.plen) := Nat.pos_pow_of_pos _ (by omega)
  omega

theorem hostmaskInt_eq {n : Net} (h : n.plen ≤ n.w) :
    n.hostmaskInt = 2 ^ (n.w - n.plen) - 1 := by
  unfold Net.hostmaskInt allOnes
  rw [netmaskInt_eq h]
  have hlt : 2 ^ n.w - 2 ^ (n.w - n.plen) < 2 ^ n.w := by
    have : (0:ℕ) < 2 ^ (n.w - n.plen) := Nat.pos_pow_of_pos _ (by omega)
    have : (0:ℕ) < 2 ^ n.w := Nat.pos_pow_of_pos _ (by omega)
    omega
  have := (py_xor_allones hlt).2
  rw [this]
  have : (2:ℕ) ^ (n.w - n.plen) ≤ 2 ^ n.w := Nat.pow_le_pow_right (by omega) (by omega)
  omega

theorem broadcast_eq {n : Net} (h : n.Valid) : n.broadcast = n.addr + n.size - 1 := by
  obtain ⟨h1, h2, h3⟩ := h
  unfold Net.broadcast
  rw [hostmaskInt_eq h1]
  have hpos : (0:ℕ) < 2 ^ (n.w - n.plen) := Nat.pos_pow_of_pos _ (by omega)
  rw [py_or_aligned h3 (by omega)]
  unfold Net.size
  omega

/-- Membership of an address in a network's range. -/
def Net.mem (n : Net) (x : ℕ) : Prop := n.addr ≤ x ∧ x < n.addr + n.size

instance (n : Net) (x : ℕ) : Decidable (n.mem x) := by unfold Net.mem; infer_instance

theorem size_pos (n : Net) : 0 < n.size := Nat.pos_pow_of_pos _ (by omega)

theorem mem_addr (n : Net) : n.mem n.addr := ⟨le_refl _, by have := size_pos n; omega⟩

theorem mem_broadcast {n : Net} (h : n.Valid) : n.mem n.broadcast := by
  rw [broadcast_eq h]
  have := size_pos n
  exact ⟨by omega, by omega⟩

/-- `_is_subnet_of(a, b)` without the version check (the boolean the
comparison computes once versions are known to agree):
`b.network_address <= a.network_address and b.broadcast_address >= a.broadcast_address`. -/
def subnetOfBool (a b : Net) : Bool :=
  decide (b.addr ≤ a.addr) && decide (a.broadcast ≤ b.broadcast)

/-- `_is_subnet_of(a, b)` including its version check (raises `TypeError`
when the families differ). -/
def is_subnet_of (a b : Net) : Except String Bool :=
  if a.w ≠ b.w then .error "not of the same version"
  else .ok (subnetOfBool a b)

theorem is_subnet_of_ok {a b : Net} (h : a.w = b.w) :
    is_subnet_of a b = .ok (subnetOfBool a b) := by
  unfold is_subnet_of
  simp [h]

/-- For valid networks the boolean subnet test is exactly range inclusion. -/
theorem subnetOfBool_iff {a b : Net} (ha : a.Valid) (hb : b.Valid) :
    subnetOfBool a b = true ↔ (∀ x, a.mem x → b.mem x) := by
  unfold subnetOfBool
  rw [Bool.and_eq_true, decide_eq_true_iff, decide_eq_true_iff,
    broadcast_eq ha, broadcast_eq hb]
  have hsa := size_pos a
  have hsb := size_pos b
  constructor
  · rintro ⟨h1, h2⟩ x ⟨hx1, hx2⟩
    exact ⟨by omega, by omega⟩
  · intro h
    have h1 := h a.addr (mem_addr a)
    have h2 := h (a.addr + a.size - 1) ⟨by omega, by omega⟩
    unfold Net.mem at h1 h2
    constructor <;> omega

/-- Key alignment fact: if two aligned power-of-two intervals intersect, the
one with the smaller size is contained in the other. -/
theorem aligned_subset {i j x y t : ℕ} (hij : i ≤ j) (hx : 2 ^ i ∣ x) (hy : 2 ^ j ∣ y)
    (ht1 : x ≤ t) (ht2 : t < x + 2 ^ i) (ht3 : y ≤ t) (ht4 : t < y + 2 ^ j) :
    y ≤ x ∧ x + 2 ^ i ≤ y + 2 ^ j := by
  have hdvd : (2:ℕ) ^ i ∣ 2 ^ j := pow_dvd_pow 2 hij
  have hyi : 2 ^ i ∣ y := dvd_trans hdvd hy
  have hpos : (0:ℕ) < 2 ^ i := Nat.pos_pow_of_pos _ (by omega)
  obtain ⟨cx, hcx⟩ := hx
  obtain ⟨cy, hcy⟩ := hyi
  obtain ⟨d, hd⟩ := hdvd
  -- y ≤ x: otherwise y, a multiple of 2^i above x, is at least x + 2^i > t
  have hyx : y ≤ x := by
    by_contra hlt
    push_neg at hlt
    have hc : cx + 1 ≤ cy := by
      by_contra hcc
      push_neg at hcc
      have h6 : 2 ^ i * cy ≤ 2 ^ i * cx := mul_le_mul_left' (by omega) _
      omega
    have h7 : 2 ^ i * (cx + 1) ≤ 2 ^ i * cy := mul_le_mul_left' hc _
    rw [Nat.mul_succ] at h7
    omega
  refine ⟨hyx, ?_⟩
  -- x + 2^i ≤ y + 2^j: x - y is a multiple of 2^i strictly below 2^j
  have hcxy : cy ≤ cx := by
    by_contra hcc
    push_neg at hcc
    have h6 : 2 ^ i * (cx + 1) ≤ 2 ^ i * cy := mul_le_mul_left' (by omega) _
    rw [Nat.mul_succ] at h6
    omega
  have hsub : 2 ^ i * (cx - cy) + 2 ^ i * cy = 2 ^ i * cx := by
    rw [← Nat.mul_add]
    congr 1
    omega
  have hlt2 : 2 ^ i * (cx - cy) < 2 ^ i * d := by omega
  have hcd : cx - cy < d := Nat.lt_of_mul_lt_mul_left hlt2
  have hfin : 2 ^ i * (cx - cy + 1) ≤ 2 ^ i * d := mul_le_mul_left' (by omega) _
  rw [Nat.mul_succ] at hfin
  omega

/-- Two valid blocks that share an address are comparable: one contains the other. -/
theorem mem_comparable {a b : Net} (ha : a.Valid) (hb : b.Valid) {t : ℕ}
    (hta : a.mem t) (htb : b.mem t) :
    (∀ x, a.mem x → b.mem x) ∨ (∀ x, b.mem x → a.mem x) := by
  obtain ⟨ha1, ha2, ha3⟩ := ha
  obtain ⟨hb1, hb2, hb3⟩ := hb
  obtain ⟨hta1, hta2⟩ := hta
  obtain ⟨htb1, htb2⟩ := htb
  rcases le_total (a.w - a.plen) (b.w - b.plen) with hij | hij
  · left
    have := aligned_subset hij ha3 hb3 hta1 hta2 htb1 htb2
    intro x hx
    unfold Net.mem Net.size at *
    constructor <;> omega
  · right
    have := aligned_subset hij hb3 ha3 htb1 htb2 hta1 hta2
    intro x hx
    unfold Net.mem Net.size at *
    constructor <;> omega

/-- `supernet(prefixlen_diff=1)`: returns `self` when the prefix length is 0,
otherwise masks the address with `netmask << 1` and shortens the prefix. -/
def Net.supernet (n : Net) : Net :=
  if n.plen = 0 then n
  else ⟨n.w, py_and n.addr (n.netmaskInt * 2), n.plen - 1⟩

theorem supernet_w (n : Net) : n.supernet.w = n.w := by
  unfold Net.supernet
  by_cases h : n.plen = 0 <;> simp [h]

theorem supernet_plen {n : Net} (h : n.plen ≠ 0) : n.supernet.plen = n.plen - 1 := by
  unfold Net.supernet
  simp [h]

/-- A value aligned to `2^k` sits at offset `0` or `2^k` inside its `2^(k+1)` block. -/
theorem aligned_mod_double {k z : ℕ} (h : 2 ^ k ∣ z) :
    z % 2 ^ (k + 1) = 0 ∨ z % 2 ^ (k + 1) = 2 ^ k := by
  obtain ⟨c, hc⟩ := h
  have hsplit : z = 2 ^ (k + 1) * (c / 2) + 2 ^ k * (c % 2) := by
    have hc2 : c = 2 * (c / 2) + c % 2 := by omega
    calc z = 2 ^ k * (2 * (c / 2) + c % 2) := by rw [hc, ← hc2]
    _ = 2 ^ (k + 1) * (c / 2) + 2 ^ k * (c % 2) := by rw [Nat.pow_succ]; ring
  have hr : 2 ^ k * (c % 2) < 2 ^ (k + 1) := by
    have h1 : c % 2 ≤ 1 := by omega
    have h2 : 2 ^ k * (c % 2) ≤ 2 ^ k * 1 := mul_le_mul_left' h1 _
    have h3 : (2:ℕ) ^ k < 2 ^ (k + 1) := Nat.pow_lt_pow_right (by omega) (by omega)
    omega
  rw [hsplit, Nat.mul_add_mod, Nat.mod_eq_of_lt hr]
  rcases Nat.mod_two_eq_zero_or_one c with h | h <;> simp [h]

theorem supernet_addr {n : Net} (hv : n.Valid) (hp : n.plen ≠ 0) :
    n.supernet.addr = n.addr - n.addr % 2 ^ (n.w - n.plen + 1) := by
  obtain ⟨h1, h2, h3⟩ := hv
  unfold Net.supernet
  rw [if_neg hp]
  show py_and n.addr (n.netmaskInt * 2) = _
  rw [netmaskInt_eq h1]
  have hmask : (2 ^ n.w - 2 ^ (n.w - n.plen)) * 2 = 2 ^ (n.w + 1) - 2 ^ (n.w - n.plen + 1) := by
    have ha : (2:ℕ) ^ (n.w + 1) = 2 ^ n.w * 2 := by rw [Nat.pow_succ]
    have hb : (2:ℕ) ^ (n.w - n.plen + 1) = 2 ^ (n.w - n.plen) * 2 := by rw [Nat.pow_succ]
    have hc : (2:ℕ) ^ (n.w - n.plen) ≤ 2 ^ n.w := Nat.pow_le_pow_right (by omega) (by omega)
    omega
  rw [hmask, py_and_mask (by omega) (by
    have : (2:ℕ) ^ n.w < 2 ^ (n.w + 1) := Nat.pow_lt_pow_right (by omega) (by omega)
    omega)]

/-- The parent block contains the child block. -/
theorem mem_supernet {n : Net} (hv : n.Valid) : ∀ x, n.mem x → n.supernet.mem x := by
  intro x hx
  by_cases hp : n.plen = 0
  · unfold Net.supernet
    rw [if_pos hp]
    exact hx
  · obtain ⟨h1, h2, h3⟩ := hv
    obtain ⟨hx1, hx2⟩ := hx
    have haddr := supernet_addr ⟨h1, h2, h3⟩ hp
    have hmod := aligned_mod_double h3
    have hplen := supernet_plen hp
    have hw := supernet_w n
    have hsize : n.supernet.size = 2 ^ (n.w - n.plen + 1) := by
      unfold Net.size
      rw [hplen, hw]
      congr 1
      omega
    unfold Net.mem at *
    unfold Net.size at hx2
    rw [haddr, hsize]
    have hle : n.addr % 2 ^ (n.w - n.plen + 1) ≤ n.addr := Nat.mod_le _ _
    rcases hmod with h | h <;> rw [h] <;> constructor <;> omega

theorem supernet_valid {n : Net} (hv : n.Valid) : n.supernet.Valid := by
  by_cases hp : n.plen = 0
  · unfold Net.supernet
    rw [if_pos hp]
    exact hv
  · obtain ⟨h1, h2, h3⟩ := hv
    have haddr := supernet_addr ⟨h1, h2, h3⟩ hp
    have hplen := supernet_plen hp
    have hw := supernet_w n
    have hmod := aligned_mod_double h3
    refine ⟨?_, ?_, ?_⟩
    · rw [hplen, hw]; omega
    · rw [hw, haddr]; omega
    · rw [hw, hplen, haddr]
      have hk : n.w - (n.plen - 1) = n.w - n.plen + 1 := by omega
      rw [hk]
      obtain ⟨c, hc⟩ := h3
      rcases hmod with h | h
      · rw [h]
        have : n.addr - 0 = n.addr := by omega
        rw [this]
        have : n.addr % 2 ^ (n.w - n.plen + 1) = 0 := h
        exact Nat.dvd_of_mod_eq_zero (by omega)
      · rw [h]
        have hd : n.addr % 2 ^ (n.w - n.plen + 1) = 2 ^ (n.w - n.plen) := h
        have := Nat.div_add_mod n.addr (2 ^ (n.w - n.plen + 1))
        refine ⟨n.addr / 2 ^ (n.w - n.plen + 1), ?_⟩
        omega

/-- A child's base address is its parent's or the parent's plus half the parent. -/
theorem child_addr {n : Net} (hv : n.Valid) (hp : n.plen ≠ 0) :
    n.addr = n.supernet.addr ∨ n.addr = n.supernet.addr + 2 ^ (n.w - n.plen) := by
  have haddr := supernet_addr hv hp
  have hmod := aligned_mod_double hv.2.2
  have hle : n.addr % 2 ^ (n.w - n.plen + 1) ≤ n.addr := Nat.mod_le _ _
  rcases hmod with h | h
  · left; omega
  · right; omega

/-- Two distinct blocks with the same `supernet` are exactly the two halves of
that supernet: their ranges partition it. -/
theorem siblings_union {a b : Net} (ha : a.Valid) (hb : b.Valid) (hne : a ≠ b)
    (hsup : a.supernet = b.supernet) :
    ∀ x, a.supernet.mem x ↔ (a.mem x ∨ b.mem x) := by
  by_cases hpa : a.plen = 0
  · -- supernet a = a, so b's range is inside a's
    have hsa : a.supernet = a := by unfold Net.supernet; rw [if_pos hpa]
    intro x
    rw [hsa]
    constructor
    · intro hx; exact Or.inl hx
    · rintro (hx | hx)
      · exact hx
      · have := mem_supernet hb x hx
        rw [← hsup, hsa] at this
        exact this
  · by_cases hpb : b.plen = 0
    · have hsb : b.supernet = b := by unfold Net.supernet; rw [if_pos hpb]
      intro x
      rw [hsup, hsb]
      constructor
      · intro hx; exact Or.inr hx
      · rintro (hx | hx)
        · have := mem_supernet ha x hx
          rw [hsup, hsb] at this
          exact this
        · exact hx
    · -- both are proper children of the common parent
      have hw : a.w = b.w := by
        have h1 := supernet_w a
        have h2 := supernet_w b
        rw [hsup] at h1
        omega
      have hplen : a.plen = b.plen := by
        have h1 := supernet_plen hpa
        have h2 := supernet_plen hpb
        rw [hsup] at h1
        omega
      have hca := child_addr ha hpa
      have hcb := child_addr hb hpb
      have haddr : a.addr ≠ b.addr := by
        intro hcontra
        apply hne
        cases a
        cases b
        simp only at hw hplen hcontra
        simp [hw, hplen, hcontra]
      have hsz : a.size = b.size := by
        unfold Net.size
        rw [hw, hplen]
      have hssize : a.supernet.size = 2 * a.size := by
        unfold Net.size
        rw [supernet_w, supernet_plen hpa]
        have hh : a.w - (a.plen - 1) = (a.w - a.plen) + 1 := by
          have := ha.1
          omega
        rw [hh, Nat.pow_succ]
        ring
      rw [← hsup] at hcb
      intro x
      unfold Net.mem
      rw [hssize]
      unfold Net.size at *
      rw [← hw, ← hplen] at hcb
      rcases hca with hca | hca <;> rcases hcb with hcb | hcb <;> omega

/-- `subnets(prefixlen_diff=1)` for `plen < w` yields exactly two halves:
`range(start, end, step)` with `end - start = 2 * step` produces `start` and
`start + step`, each with the prefix lengthened by one. -/
def Net.subnetsPair (n : Net) : Net × Net :=
  let step := (n.hostmaskInt + 1) / 2
  (⟨n.w, n.addr, n.plen + 1⟩, ⟨n.w, n.addr + step, n.plen + 1⟩)

theorem subnetsPair_step {n : Net} (h : n.plen < n.w) :
    (n.hostmaskInt + 1) / 2 = 2 ^ (n.w - (n.plen + 1)) := by
  rw [hostmaskInt_eq (by omega)]
  have hpos : (0:ℕ) < 2 ^ (n.w - n.plen) := Nat.pos_pow_of_pos _ (by omega)
  have hsucc : n.w - n.plen = (n.w - (n.plen + 1)) + 1 := by omega
  rw [hsucc, Nat.pow_succ]
  omega

theorem mem_def {n : Net} {x : ℕ} :
    n.mem x ↔ n.addr ≤ x ∧ x < n.addr + 2 ^ (n.w - n.plen) := Iff.rfl

theorem subnetsPair_eq {n : Net} (h : n.plen < n.w) :
    n.subnetsPair = (⟨n.w, n.addr, n.plen + 1⟩,
      ⟨n.w, n.addr + 2 ^ (n.w - (n.plen + 1)), n.plen + 1⟩) := by
  unfold Net.subnetsPair
  rw [subnetsPair_step h]

/-- The next multiple of an aligned block size stays within the address space. -/
theorem aligned_next_le {n : Net} (hv : n.Valid) : n.addr + n.size ≤ 2 ^ n.w := by
  obtain ⟨h1, h2, h3⟩ := hv
  obtain ⟨c, hc⟩ := h3
  by_contra hcon
  push_neg at hcon
  have hd : n.size ∣ 2 ^ n.w := pow_dvd_pow 2 (by omega)
  obtain ⟨d, hdd⟩ := hd
  have hcd : c < d := by
    by_contra hcc
    push_neg at hcc
    have := mul_le_mul_left' hcc n.size
    unfold Net.size at *
    omega
  have : n.size * (c + 1) ≤ n.size * d := mul_le_mul_left' (by omega) _
  rw [Nat.mul_succ] at this
  unfold Net.size at *
  omega

/-- The two subnets of a valid non-host block are valid halves that partition it. -/
theorem subnetsPair_partition {n : Net} (hv : n.Valid) (h : n.plen < n.w) :
    (n.subnetsPair.1.Valid ∧ n.subnetsPair.2.Valid
      ∧ n.subnetsPair.1.w = n.w ∧ n.subnetsPair.2.w = n.w
      ∧ n.subnetsPair.1.plen = n.plen + 1 ∧ n.subnetsPair.2.plen = n.plen + 1)
    ∧ (∀ x, n.mem x ↔ (n.subnetsPair.1.mem x ∨ n.subnetsPair.2.mem x))
    ∧ (∀ x, ¬(n.subnetsPair.1.mem x ∧ n.subnetsPair.2.mem x)) := by
  obtain ⟨h1, h2, h3⟩ := hv
  have hnext := aligned_next_le ⟨h1, h2, h3⟩
  rw [subnetsPair_eq h]
  have hsucc : n.w - n.plen = (n.w - (n.plen + 1)) + 1 := by omega
  have hsz : 2 ^ (n.w - n.plen) = 2 * 2 ^ (n.w - (n.plen + 1)) := by
    rw [hsucc, Nat.pow_succ]
    ring
  have hdvd2 : 2 ^ (n.w - (n.plen + 1)) ∣ n.addr := by
    refine dvd_trans ?_ h3
    exact pow_dvd_pow 2 (by omega)
  unfold Net.size at hnext
  refine ⟨⟨⟨by dsimp; omega, by dsimp; exact h2, by dsimp; omega ⟩,
    ⟨by dsimp; omega, by dsimp; omega, ?_⟩, rfl, rfl, rfl, rfl⟩, ?_, ?_⟩
  · show 2 ^ (n.w - (n.plen + 1)) ∣ n.addr + 2 ^ (n.w - (n.plen + 1))
    have hd : n.w - (n.plen + 1) = n.w - (n.plen + 1) := rfl
    exact Dvd.dvd.add hdvd2 dvd_rfl
  · intro x
    rw [mem_def, mem_def, mem_def]
    dsimp
    constructor
    · intro hx
      by_cases hc : x < n.addr + 2 ^ (n.w - (n.plen + 1))
      · exact Or.inl ⟨hx.1, by omega⟩
      · exact Or.inr ⟨by omega, by omega⟩
    · rintro (hx | hx) <;> constructor <;> omega
  · intro x
    rw [mem_def, mem_def]
    dsimp
    omega


/-! ## Ordering of networks and addresses (`__lt__` of the `ipaddress` classes) -/

/-- `_BaseNetwork.__lt__` (between same-version networks): compare the network
address, then the netmask. -/
def netLtBool (a b : Net) : Bool :=
  if a.addr ≠ b.addr then decide (a.addr < b.addr)
  else if a.netmaskInt ≠ b.netmaskInt then decide (a.netmaskInt < b.netmaskInt)
  else false

/-- The (total, transitive) order `sorted` produces: `a` may precede `b`
unless `b < a`. -/
def NetLE (a b : Net) : Prop := ¬(netLtBool b a = true)

instance : DecidableRel NetLE := by unfold NetLE; infer_instance

theorem netLtBool_iff {a b : Net} : netLtBool a b = true ↔
    (a.addr < b.addr ∨ (a.addr = b.addr ∧ a.netmaskInt < b.netmaskInt)) := by
  unfold netLtBool
  split_ifs with h1 h2
  · simp only [decide_eq_true_eq]
    omega
  · simp only [decide_eq_true_eq]
    omega
  · simp only [Bool.false_eq_true, false_iff]
    omega

theorem NetLE_iff {a b : Net} : NetLE a b ↔
    (a.addr < b.addr ∨ (a.addr = b.addr ∧ a.netmaskInt ≤ b.netmaskInt)) := by
  unfold NetLE
  rw [netLtBool_iff]
  constructor
  · intro h
    push_neg at h
    omega
  · intro h hcon
    omega

instance : IsTotal Net NetLE := by
  constructor
  intro a b
  rw [NetLE_iff, NetLE_iff]
  omega

instance : IsTrans Net NetLE := by
  constructor
  intro a b c hab hbc
  rw [NetLE_iff] at *
  omega

/-- `sorted(...)` on a list of networks. CPython's sort consults only `__lt__`
(which on same-family networks is the strict part of `NetLE`); insertion sort
with `NetLE` computes the same ascending reordering. -/
def sortNets (l : List Net) : List Net := List.insertionSort NetLE l

/-- An `IPv4Address` / `IPv6Address` value: family tag plus integer value. -/
structure Addr where
  w : ℕ
  val : ℕ
deriving DecidableEq

/-- `_BaseAddress.__lt__` compares `_ip`; `AddrLE` is the derived sort order. -/
def AddrLE (a b : Addr) : Prop := ¬(b.val < a.val)

instance : DecidableRel AddrLE := by unfold AddrLE; infer_instance

instance : IsTotal Addr AddrLE := by
  constructor
  intro a b
  unfold AddrLE
  omega

instance : IsTrans Addr AddrLE := by
  constructor
  intro a b c hab hbc
  unfold AddrLE at *
  omega

def sortAddrs (l : List Addr) : List Addr := List.insertionSort AddrLE l

/-- Iterating a CPython `set` built from a list: duplicates dropped, first
occurrence kept (iteration order fixed to insertion order in this model). -/
def dedupKeepFirstAux {α : Type} [DecidableEq α] (seen : List α) : List α → List α
  | [] => []
  | a :: rest =>
    if a ∈ seen then dedupKeepFirstAux seen rest
    else a :: dedupKeepFirstAux (seen ++ [a]) rest

def dedupKeepFirst {α : Type} [DecidableEq α] (l : List α) : List α :=
  dedupKeepFirstAux [] l

theorem mem_dedupKeepFirstAux {α : Type} [DecidableEq α] (seen : List α) (l : List α)
    (x : α) : x ∈ dedupKeepFirstAux seen l ↔ (x ∈ l ∧ x ∉ seen) := by
  induction l generalizing seen with
  | nil => simp [dedupKeepFirstAux]
  | cons a rest ih =>
    unfold dedupKeepFirstAux
    by_cases h : a ∈ seen
    · rw [if_pos h, ih]
      simp only [List.mem_cons]
      constructor
      · rintro ⟨h1, h2⟩; exact ⟨Or.inr h1, h2⟩
      · rintro ⟨h1 | h1, h2⟩
        · subst h1; exact absurd h h2
        · exact ⟨h1, h2⟩
    · rw [if_neg h]
      simp only [List.mem_cons, ih]
      constructor
      · rintro (h1 | ⟨h1, h2⟩)
        · subst h1; exact ⟨Or.inl rfl, h⟩
        · simp only [List.mem_append, List.mem_singleton] at h2
          push_neg at h2
          exact ⟨Or.inr h1, h2.1⟩
      · rintro ⟨h1 | h1, h2⟩
        · exact Or.inl h1
        · by_cases hax : x = a
          · exact Or.inl hax
          · refine Or.inr ⟨h1, ?_⟩
            simp only [List.mem_append, List.mem_singleton]
            push_neg
            exact ⟨h2, hax⟩

theorem mem_dedupKeepFirst {α : Type} [DecidableEq α] (l : List α) (x : α) :
    x ∈ dedupKeepFirst l ↔ x ∈ l := by
  unfold dedupKeepFirst
  rw [mem_dedupKeepFirstAux]
  simp

theorem nodup_dedupKeepFirstAux {α : Type} [DecidableEq α] (seen : List α) (l : List α) :
    (dedupKeepFirstAux seen l).Nodup := by
  induction l generalizing seen with
  | nil => simp [dedupKeepFirstAux]
  | cons a rest ih =>
    unfold dedupKeepFirstAux
    by_cases h : a ∈ seen
    · rw [if_pos h]; exact ih seen
    · rw [if_neg h]
      refine List.Nodup.cons ?_ (ih (seen ++ [a]))
      intro hmem
      rw [mem_dedupKeepFirstAux] at hmem
      exact hmem.2 (by simp)

theorem nodup_dedupKeepFirst {α : Type} [DecidableEq α] (l : List α) :
    (dedupKeepFirst l).Nodup := nodup_dedupKeepFirstAux [] l

/-- `set.add`. -/
def addIfNew {α : Type} [DecidableEq α] (l : List α) (x : α) : List α :=
  if x ∈ l then l else l ++ [x]

/-! ## `collapse_addresses` and its helpers -/

/-- Gas-fuelled `int.bit_length()`. -/
def bit_length_aux : ℕ → ℕ → ℕ
  | 0, _ => 0
  | g + 1, n => if n = 0 then 0 else bit_length_aux g (n / 2) + 1

def bit_length (n : ℕ) : ℕ := bit_length_aux (n + 1) n

theorem bit_length_aux_gas (g₁ g₂ n : ℕ) (h₁ : n < g₁) (h₂ : n < g₂) :
    bit_length_aux g₁ n = bit_length_aux g₂ n := by
  induction n using Nat.strong_induction_on generalizing g₁ g₂ with
  | _ n ih =>
    match g₁, g₂ with
    | gg₁ + 1, gg₂ + 1 =>
      simp only [bit_length_aux]
      by_cases h : n = 0
      · simp [h]
      · simp only [h, if_false]
        have hd : n / 2 < n := Nat.div_lt_self (by omega) (by omega)
        rw [ih (n / 2) hd gg₁ gg₂ (by omega) (by omega)]

theorem bit_length_def (n : ℕ) :
    bit_length n = if n = 0 then 0 else bit_length (n / 2) + 1 := by
  by_cases h : n = 0
  · simp [bit_length, bit_length_aux, h]
  · rw [if_neg h]
    have h1 : bit_length n = bit_length_aux n (n / 2) + 1 := by
      simp only [bit_length, bit_length_aux, h, if_false]
    have h2 : bit_length_aux n (n / 2) = bit_length (n / 2) :=
      bit_length_aux_gas n (n / 2 + 1) (n / 2)
        (Nat.lt_of_lt_of_le (Nat.div_lt_self (by omega) (by omega)) (by omega)) (by omega)
    rw [h1, h2]

theorem bit_length_pos {n : ℕ} (h : 0 < n) : 0 < bit_length n := by
  rw [bit_length_def, if_neg (by omega)]
  omega

theorem bit_length_pow2_sub_one (t : ℕ) : bit_length (2 ^ t - 1) = t := by
  induction t with
  | zero => simp [bit_length, bit_length_aux]
  | succ t ih =>
    have h2 : (2:ℕ) ^ (t + 1) = 2 * 2 ^ t := by rw [Nat.pow_succ]; ring
    have hpos : (0:ℕ) < 2 ^ t := Nat.pos_pow_of_pos _ (by omega)
    rw [bit_length_def]
    have hne : 2 ^ (t + 1) - 1 ≠ 0 := by omega
    rw [if_neg hne]
    have hdiv : (2 ^ (t + 1) - 1) / 2 = 2 ^ t - 1 := by omega
    rw [hdiv, ih]

theorem bit_length_lower {n : ℕ} (h : 0 < n) : 2 ^ (bit_length n - 1) ≤ n := by
  induction n using Nat.strong_induction_on with
  | _ n ih =>
    rw [bit_length_def, if_neg (by omega)]
    by_cases h1 : n = 1
    · subst h1
      simp [bit_length, bit_length_aux]
    · have hd2 : 0 < n / 2 := by omega
      have hbl := bit_length_pos hd2
      have := ih (n / 2) (Nat.div_lt_self (by omega) (by omega)) hd2
      have hstep : 2 ^ (bit_length (n / 2) + 1 - 1) = 2 * 2 ^ (bit_length (n / 2) - 1) := by
        have : bit_length (n / 2) + 1 - 1 = (bit_length (n / 2) - 1) + 1 := by omega
        rw [this, Nat.pow_succ]
        ring
    
      rw [hstep]
      omega

theorem py_and_le_left : ∀ x y : ℕ, py_and x y ≤ x := by
  intro x
  induction x using Nat.strong_induction_on with
  | _ x ih =>
    intro y
    rw [py_and_def]
    by_cases h : x = 0 ∨ y = 0
    · simp [h]
    · rw [if_neg h]
      have hd : x / 2 < x := Nat.div_lt_self (by omega) (by omega)
      have := ih (x / 2) hd (y / 2)
      have hm : x % 2 * (y % 2) ≤ x % 2 := by
        have : y % 2 ≤ 1 := by omega
        have := Nat.mul_le_mul_left (x % 2) this
        omega
      omega

theorem py_and_self (x : ℕ) : py_and x x = x := by
  induction x using Nat.strong_induction_on with
  | _ x ih =>
    rw [py_and_def]
    by_cases h : x = 0
    · simp [h]
    · rw [if_neg (by omega)]
      have hd : x / 2 < x := Nat.div_lt_self (by omega) (by omega)
      rw [ih (x / 2) hd]
      have : x % 2 * (x % 2) = x % 2 := by
        rcases Nat.mod_two_eq_zero_or_one x with h | h <;> rw [h]
      omega

/-- For positive `n`, `(n-1) - ((n-1) & n)` (the value of Python's
`~n & (n-1)`) is an all-ones mask `2^t - 1` with `2^t ∣ n`. -/
theorem trailing_mask : ∀ n : ℕ, 0 < n →
    ∃ t, (n - 1) - py_and (n - 1) n = 2 ^ t - 1 ∧ 2 ^ t ∣ n := by
  intro n
  induction n using Nat.strong_induction_on with
  | _ n ih =>
    intro hn
    rcases Nat.even_or_odd n with he | ho
    · -- n = 2m with m > 0
      obtain ⟨m, hm⟩ := he
      have hm' : n = 2 * m := by omega
      have hmpos : 0 < m := by omega
      obtain ⟨t, ht1, ht2⟩ := ih m (by omega) hmpos
      have hand : py_and (n - 1) n = 2 * py_and (m - 1) m := by
        rw [py_and_def]
        have h1 : ¬(n - 1 = 0 ∨ n = 0) := by omega
        rw [if_neg h1]
        have h2 : (n - 1) / 2 = m - 1 := by omega
        have h3 : n / 2 = m := by omega
        have h4 : (n - 1) % 2 = 1 := by omega
        have h5 : n % 2 = 0 := by omega
        rw [h2, h3, h4, h5]
        omega
      have hle := py_and_le_left (m - 1) m
      refine ⟨t + 1, ?_, ?_⟩
      · rw [hand]
        have hpt : (0:ℕ) < 2 ^ t := Nat.pos_pow_of_pos _ (by omega)
        have h2t : (2:ℕ) ^ (t + 1) = 2 * 2 ^ t := by rw [Nat.pow_succ]; ring
        omega
      · obtain ⟨c, hc⟩ := ht2
        exact ⟨c, by rw [hm', hc, Nat.pow_succ]; ring⟩
    · -- n odd: the AND keeps all of n - 1
      have hand : py_and (n - 1) n = n - 1 := by
        obtain ⟨m, hm⟩ := ho
        rcases Nat.eq_zero_or_pos m with hm0 | hmpos
        · subst hm0
          have : n = 1 := by omega
          rw [this]
          simp [py_and, py_and_aux]
        · rw [py_and_def]
          have h1 : ¬(n - 1 = 0 ∨ n = 0) := by omega
          rw [if_neg h1]
          have h2 : (n - 1) / 2 = m := by omega
          have h3 : n / 2 = m := by omega
          have h4 : (n - 1) % 2 = 0 := by omega
          rw [h2, h3, h4, py_and_self]
          omega
      exact ⟨0, by omega, by simp⟩

/-- `_count_righthand_zero_bits(number, bits)`; Python's `~number & (number-1)`
is rendered as `(number-1) - ((number-1) & number)`, which agrees with the
two's-complement value for every positive `number`. -/
def count_righthand_zero_bits (number bits : ℕ) : ℕ :=
  if number = 0 then bits
  else min bits (bit_length ((number - 1) - py_and (number - 1) number))

/-- The counted bits always divide the number. -/
theorem count_righthand_dvd {number bits : ℕ} (h : 0 < number) :
    2 ^ count_righthand_zero_bits number bits ∣ number := by
  unfold count_righthand_zero_bits
  rw [if_neg (by omega)]
  obtain ⟨t, ht1, ht2⟩ := trailing_mask number h
  rw [ht1, bit_length_pow2_sub_one]
  exact dvd_trans (pow_dvd_pow 2 (by omega)) ht2

/-! ### The merge dictionary of `_collapse_addresses_internal` -/

def dict_get (d : List (Net × Net)) (k : Net) : Option Net :=
  match d.find? (fun kv => kv.1 == k) with
  | some kv => some kv.2
  | none => none

def dict_set (d : List (Net × Net)) (k v : Net) : List (Net × Net) := d ++ [(k, v)]

def dict_del (d : List (Net × Net)) (k : Net) : List (Net × Net) :=
  d.eraseP (fun kv => kv.1 == k)

/-- Weight function bounding the number of iterations of the merge loop. -/
def merge_weight (stack : List Net) (d : List (Net × Net)) : ℕ :=
  (stack.map (fun n => 2 * n.plen + 2)).sum + (d.map (fun kv => 2 * kv.2.plen + 1)).sum

/-- The `while to_merge:` loop of `_collapse_addresses_internal`. The stack
holds the reversed `to_merge` list (`pop()` takes the Python list's last
element). The gas strictly exceeds `merge_weight`, which drops at every
iteration, so the 0 case is never taken. -/
def merge_loop_aux : ℕ → List Net → List (Net × Net) → List (Net × Net)
  | 0, _, d => d
  | _ + 1, [], d => d
  | g + 1, net :: rest, d =>
    match dict_get d net.supernet with
    | none => merge_loop_aux g rest (dict_set d net.supernet net)
    | some existing =>
      if existing = net then merge_loop_aux g rest d
      else merge_loop_aux g (net.supernet :: rest) (dict_del d net.supernet)

def merge_loop (l : List Net) : List (Net × Net) :=
  merge_loop_aux (merge_weight l.reverse [] + 1) l.reverse []

/-- The final `sorted(...)` sweep of `_collapse_addresses_internal`, skipping
networks subsumed by the last yielded one. -/
def skip_subsumed : Option Net → List Net → List Net
  | _, [] => []
  | none, net :: rest => net :: skip_subsumed (some net) rest
  | some last, net :: rest =>
    if net.broadcast ≤ last.broadcast then skip_subsumed (some last) rest
    else net :: skip_subsumed (some net) rest

/-- `_collapse_addresses_internal`. -/
def collapse_addresses_internal (addresses : List Net) : List Net :=
  skip_subsumed none (sortNets ((merge_loop addresses).map (fun kv => kv.2)))

/-- The first loop of `collapse_addresses`: split full-length networks into
plain addresses (`ips`) and the rest (`nets`), with the consecutive-element
version checks of the source. Only network objects occur in this repository,
so the `_BaseAddress` branch is not modelled. Accumulators are kept reversed. -/
def split_ips_nets : List Net → List Addr → List Net → Except String (List Addr × List Net)
  | [], ips, nets => .ok (ips.reverse, nets.reverse)
  | ip :: rest, ips, nets =>
    if ip.plen = ip.w then
      match ips with
      | prev :: _ =>
        if prev.w ≠ ip.w then .error "not of the same version"
        else split_ips_nets rest (⟨ip.w, ip.addr⟩ :: ips) nets
      | [] => split_ips_nets rest [⟨ip.w, ip.addr⟩] nets
    else
      match nets with
      | prev :: _ =>
        if prev.w ≠ ip.w then .error "not of the same version"
        else split_ips_nets rest ips (ip :: nets)
      | [] => split_ips_nets rest ips (ip :: nets)

/-- `_find_address_range` on a non-empty list (the caller guards `if ips:`;
the empty case yields nothing). -/
def find_range_go (first last : Addr) : List Addr → List (Addr × Addr)
  | [] => [(first, last)]
  | ip :: rest =>
    if ip.val ≠ last.val + 1 then (first, last) :: find_range_go ip ip rest
    else find_range_go first ip rest

def find_address_range : List Addr → List (Addr × Addr)
  | [] => []
  | a :: rest => find_range_go a a rest

/-- `summarize_address_range(first, last)` over one address family of width
`w`. The `while first <= last` guard is the `0`-gas / non-positive-range
result; the gas `last + 1 - first` strictly dominates the iteration count
because `first` grows by at least one each round. -/
def summarize_aux : ℕ → ℕ → ℕ → ℕ → List Net
  | 0, _, _, _ => []
  | g + 1, w, first, last =>
    if first ≤ last then
      let nbits := min (count_righthand_zero_bits first w) (bit_length (last - first + 1) - 1)
      let net : Net := ⟨w, first, w - nbits⟩
      if first + 2 ^ nbits - 1 = allOnes w then [net]
      else net :: summarize_aux g w (first + 2 ^ nbits) last
    else []

def summarize_address_range (w first last : ℕ) : List Net :=
  summarize_aux (last + 1 - first) w first last

def concatMap {α β : Type} (f : α → List β) : List α → List β
  | [] => []
  | a :: rest => f a ++ concatMap f rest

/-- `collapse_addresses` (for lists of network objects, as used here). -/
def collapse_addresses (addresses : List Net) : Except String (List Net) := do
  let (ips, nets) ← split_ips_nets addresses [] []
  let ipsSorted := sortAddrs (dedupKeepFirst ips)
  let addrs := concatMap
    (fun fl => summarize_address_range fl.1.w fl.1.val fl.2.val) (find_address_range ipsSorted)
  .ok (collapse_addresses_internal (addrs ++ nets))

/-! ## `address_exclude` -/

/-- The `while s1 != other and s2 != other` loop of `address_exclude`,
including its trailing `if/elif/else`. `s1, s2 = x.subnets()` unpacking fails
(a `ValueError`) when `x` is a full-length network, and the
`AssertionError` branch is kept as an error. The gas strictly exceeds
`w - plen`, which shrinks every iteration, so the 0 case is never taken. -/
def address_exclude_loop : ℕ → Net → Net → Net → Except String (List Net)
  | 0, _, _, _ => .error "loop limit exceeded"
  | g + 1, other, s1, s2 =>
    if s1 = other then .ok [s2]
    else if s2 = other then .ok [s1]
    else do
      let sub1 ← is_subnet_of other s1
      if sub1 then
        if s1.w ≤ s1.plen then .error "subnets unpacking failed"
        else
          let p := s1.subnetsPair
          (fun l => s2 :: l) <$> address_exclude_loop g other p.1 p.2
      else do
        let sub2 ← is_subnet_of other s2
        if sub2 then
          if s2.w ≤ s2.plen then .error "subnets unpacking failed"
          else
            let p := s2.subnetsPair
            (fun l => s1 :: l) <$> address_exclude_loop g other p.1 p.2
        else .error "AssertionError: error performing exclusion"

/-- `self.address_exclude(other)`, run eagerly (the repository immediately
drains the generator with `networks.extend(...)`). The reconstruction
`other.__class__(...)` of the source is the identity in this model (scope
identifiers are not modelled). -/
def address_exclude (self other : Net) : Except String (List Net) :=
  if self.w ≠ other.w then .error "not of the same version"
  else do
    let sub ← is_subnet_of other self
    if sub = false then .error "not contained"
    else if other = self then .ok []
    else if self.w ≤ self.plen then .error "subnets unpacking failed"
    else
      let p := self.subnetsPair
      address_exclude_loop (self.w + 1) other p.1 p.2

/-! ## The repository's engine: `exclude_addresses` -/

/-- `exclude_addresses(target_network, addresses_to_exclude)` from
`src/exclude-addresses.py`. -/
def exclude_addresses (target_network : Net) (addresses_to_exclude : List Net) :
    Except String (List Net) := do
  let collapsed ← collapse_addresses addresses_to_exclude
  let sortedExcl := sortNets collapsed
  -- Process addresses.
  let networks ← sortedExcl.foldlM (fun (acc : List Net) address => do
      let sub ← is_subnet_of address target_network
      if sub then do
        let blocks ← address_exclude target_network address
        pure (acc ++ blocks)
      else pure acc) ([] : List Net)
  let networks := sortNets (dedupKeepFirst networks)
  -- Post-process resulting network list.
  let networks_to_remove ← networks.foldlM (fun (acc : List Net) network =>
      sortedExcl.foldlM (fun (acc2 : List Net) address => do
        let s1 ← is_subnet_of address network
        if s1 then pure (acc2 ++ [network])
        else do
          let s2 ← is_subnet_of network address
          if s2 then pure (acc2 ++ [network]) else pure acc2) acc) ([] : List Net)
  let networks := networks_to_remove.foldl
      (fun (nets : List Net) network => if network ∈ nets then nets.erase network else nets)
      networks
  collapse_addresses networks

deriving instance DecidableEq for Except

/-! ## Python string primitives (strings as `List Char`)

Only ASCII text is relevant to the claims; Python's definitions of
whitespace and of `str.isdigit` extend to further Unicode characters, which
are not modelled. -/

/-- Characters `str.split()` / `str.strip()` treat as whitespace (ASCII part). -/
def py_isspace (c : Char) : Bool :=
  c = ' ' || c = '\t' || c = '\n' || c = '\x0b' || c = '\x0c' || c = '\r'

/-- `str.strip()`. -/
def py_strip (l : List Char) : List Char :=
  ((l.dropWhile py_isspace).reverse.dropWhile py_isspace).reverse

/-- `str.split(c)` for a single-character separator: keeps empty pieces. -/
def splitOnChar (c : Char) : List Char → List (List Char)
  | [] => [[]]
  | x :: rest =>
    if x = c then [] :: splitOnChar c rest
    else
      match splitOnChar c rest with
      | h :: t => (x :: h) :: t
      | [] => [[x]]

/-- `str.split()` with no argument: split on whitespace runs, no empties. -/
def splitWsAux : List Char → List Char → List (List Char)
  | acc, [] => if acc = [] then [] else [acc.reverse]
  | acc, c :: rest =>
    if py_isspace c then
      if acc = [] then splitWsAux [] rest else acc.reverse :: splitWsAux [] rest
    else splitWsAux (c :: acc) rest

def splitWs (l : List Char) : List (List Char) := splitWsAux [] l

/-- `str.partition(c)` for a single-character separator: pieces before and
after the first occurrence, plus whether it occurred. -/
def partitionChar (c : Char) : List Char → (List Char × Bool × List Char)
  | [] => ([], false, [])
  | x :: rest =>
    if x = c then ([], true, rest)
    else
      let r := partitionChar c rest
      (x :: r.1, r.2.1, r.2.2)

/-- `'sep'.join(pieces)`. -/
def joinSep (sep : List Char) : List (List Char) → List Char
  | [] => []
  | [x] => x
  | x :: rest => x ++ sep ++ joinSep sep rest

/-- ASCII decimal digit (`isascii() and isdigit()` restricted to ASCII). -/
def isAsciiDigit (c : Char) : Bool := decide ('0' ≤ c) && decide (c ≤ '9')

def digitVal (c : Char) : ℕ := c.toNat - '0'.toNat

def decimalVal (l : List Char) : ℕ := l.foldl (fun acc c => 10 * acc + digitVal c) 0

/-- Membership in `_HEX_DIGITS = frozenset('0123456789ABCDEFabcdef')`. -/
def isHexDigitPy (c : Char) : Bool :=
  isAsciiDigit c || (decide ('a' ≤ c) && decide (c ≤ 'f'))
    || (decide ('A' ≤ c) && decide (c ≤ 'F'))

def hexVal (c : Char) : ℕ :=
  if isAsciiDigit c then digitVal c
  else if decide ('a' ≤ c) && decide (c ≤ 'f') then c.toNat - 'a'.toNat + 10
  else c.toNat - 'A'.toNat + 10

def hexDigitChar (n : ℕ) : Char := if n < 10 then Char.ofNat (48 + n) else Char.ofNat (87 + n)

/-- `'%x' % n` (lowercase hex, no leading zeros, `0` for zero). -/
def toHexAux : ℕ → ℕ → List Char
  | 0, _ => []
  | g + 1, n => if n < 16 then [hexDigitChar n] else toHexAux g (n / 16) ++ [hexDigitChar (n % 16)]

def toHex (n : ℕ) : List Char := toHexAux (n + 1) n

/-- `str(n)` for a natural number. -/
def natToDecAux : ℕ → ℕ → List Char
  | 0, _ => []
  | g + 1, n =>
    if n < 10 then [Char.ofNat (48 + n)]
    else natToDecAux g (n / 10) ++ [Char.ofNat (48 + n % 10)]

def natToDec (n : ℕ) : List Char := natToDecAux (n + 1) n

/-! ## Parsing (`IPv4Address` / `IPv6Address` / `ip_network`) -/

/-- `_BaseV4._parse_octet`. -/
def parse_octet (s : List Char) : Option ℕ :=
  if s = [] then none
  else if ¬ s.all isAsciiDigit then none
  else if s.length > 3 then none
  else if s ≠ ['0'] ∧ s.head? = some '0' then none
  else
    let v := decimalVal s
    if v > 255 then none else some v

/-- `_BaseV4._ip_int_from_string`. -/
def v4_int_from_string (s : List Char) : Option ℕ :=
  if s = [] then none
  else
    let octets := splitOnChar '.' s
    if octets.length ≠ 4 then none
    else
      match octets.mapM parse_octet with
      | some vals => some (vals.foldl (fun acc v => 256 * acc + v) 0)
      | none => none

/-- `IPv4Address(str)`. -/
def parse_ipv4_address (s : List Char) : Option ℕ :=
  if s.contains '/' then none
  else v4_int_from_string s

/-- `_IPAddressBase._prefix_from_prefix_string` (note: `"".isdigit()` is
false, and leading zeros are accepted here). -/
def prefix_from_prefix_string (maxPrefixlen : ℕ) (s : List Char) : Option ℕ :=
  if ¬(s ≠ [] ∧ s.all isAsciiDigit) then none
  else
    let p := decimalVal s
    if p ≤ maxPrefixlen then some p else none

/-- `_IPAddressBase._prefix_from_ip_int`: netmask pattern `1*0*`. -/
def prefix_from_ip_int (maxPrefixlen ipInt : ℕ) : Option ℕ :=
  let trailingZeroes := count_righthand_zero_bits ipInt maxPrefixlen
  let prefixlen := maxPrefixlen - trailingZeroes
  let leadingOnes := ipInt / 2 ^ trailingZeroes
  let allOnesP := 2 ^ prefixlen - 1
  if leadingOnes ≠ allOnesP then none else some prefixlen

/-- `_IPAddressBase._prefix_from_ip_string` (IPv4 netmask or hostmask form). -/
def v4_prefix_from_ip_string (s : List Char) : Option ℕ :=
  match v4_int_from_string s with
  | none => none
  | some ipInt =>
    match prefix_from_ip_int 32 ipInt with
    | some p => some p
    | none => prefix_from_ip_int 32 (py_xor ipInt (allOnes 32))

/-- `_BaseV4._make_netmask` for string arguments. -/
def v4_make_netmask (s : List Char) : Option ℕ :=
  match prefix_from_prefix_string 32 s with
  | some p => some p
  | none => v4_prefix_from_ip_string s

/-- Exceptions of network parsing: `.caught` stands for
`AddressValueError` / `NetmaskValueError` (caught by `ip_network`, which then
tries the next family), `.hostBits` for the strict-mode `ValueError`
(`'has host bits set'`), which `ip_network` does not catch. -/
inductive ParseErr
  | caught
  | hostBits
deriving DecidableEq

/-- `IPv4Network(str, strict=True)`. -/
def parse_ipv4_network (s : List Char) : Except ParseErr Net :=
  match splitOnChar '/' s with
  | [a] =>
    match parse_ipv4_address a with
    | none => .error .caught
    | some ip =>
      if py_and ip (ipIntFromPrefix 32 32) ≠ ip then .error .hostBits
      else .ok ⟨32, ip, 32⟩
  | [a, m] =>
    match parse_ipv4_address a with
    | none => .error .caught
    | some ip =>
      match v4_make_netmask m with
      | none => .error .caught
      | some p =>
        if py_and ip (ipIntFromPrefix 32 p) ≠ ip then .error .hostBits
        else .ok ⟨32, ip, p⟩
  | _ => .error .caught

/-- `_BaseV6._parse_hextet` (an empty part passes the character check but
fails `int('', 16)`). -/
def parse_hextet (s : List Char) : Option ℕ :=
  if ¬ s.all isHexDigitPy then none
  else if s.length > 4 then none
  else if s = [] then none
  else some (s.foldl (fun acc c => 16 * acc + hexVal c) 0)

/-- Fold a run of hextets into the accumulator (`ip_int << 16 | hextet`). -/
def foldHextets (parts : List (List Char)) (acc : ℕ) : Option ℕ :=
  match parts with
  | [] => some acc
  | p :: rest =>
    match parse_hextet p with
    | none => none
    | some v => foldHextets rest (acc * 65536 + v)

/-- The IPv4-suffix conversion step of `_BaseV6._ip_int_from_string`
(`if '.' in parts[-1]: ...`). -/
def v6_convert_v4_suffix (parts : List (List Char)) : Option (List (List Char)) :=
  match parts.getLast? with
  | some lastP =>
    if lastP.contains '.' then
      match parse_ipv4_address lastP with
      | none => none
      | some v4 =>
        some (parts.dropLast
          ++ [toHex (py_and (v4 / 2 ^ 16) 65535), toHex (py_and v4 65535)])
    else some parts
  | none => none

/-- The hextet-assembly part of `_BaseV6._ip_int_from_string`: locate the
`::` skip position, validate the endpoints, and fold the hextets. -/
def v6_assemble (parts : List (List Char)) : Option ℕ :=
  if parts.length > 9 then none
  else
    let empties := (List.range parts.length).filter
      (fun i => 0 < i ∧ i + 1 < parts.length ∧ parts.getD i ['x'] = [])
    match empties with
    | [] =>
      if parts.length ≠ 8 then none
      else if parts.head? = some [] then none
      else if parts.getLast? = some [] then none
      else foldHextets parts 0
    | [i] =>
      let hi0 := i
      let lo0 := parts.length - i - 1
      if parts.head? = some [] ∧ hi0 - 1 ≠ 0 then none
      else if parts.getLast? = some [] ∧ lo0 - 1 ≠ 0 then none
      else
        let hi := if parts.head? = some [] then hi0 - 1 else hi0
        let lo := if parts.getLast? = some [] then lo0 - 1 else lo0
        if 8 - (hi + lo) < 1 ∨ 8 ≤ hi + lo then none
        else
          match foldHextets (parts.take hi) 0 with
          | none => none
          | some hiVal =>
            foldHextets (parts.drop (parts.length - lo))
              (hiVal * 2 ^ (16 * (8 - (hi + lo))))
    | _ => none

/-- `_BaseV6._ip_int_from_string`. -/
def v6_int_from_string (s : List Char) : Option ℕ :=
  if s = [] then none
  else
    let parts := splitOnChar ':' s
    if parts.length < 3 then none
    else
      match v6_convert_v4_suffix parts with
      | none => none
      | some parts => v6_assemble parts

/-- `IPv6Address._split_scope_id`: returns the address part, validating (and
then discarding) any zone identifier. -/
def split_scope_id (s : List Char) : Option (List Char) :=
  let r := partitionChar '%' s
  if r.2.1 = false then some s
  else if r.2.2 = [] ∨ r.2.2.contains '%' then none
  else some r.1

/-- `IPv6Address(str)` (scope identifiers accepted and dropped). -/
def parse_ipv6_address (s : List Char) : Option ℕ :=
  if s.contains '/' then none
  else
    match split_scope_id s with
    | none => none
    | some addrPart => v6_int_from_string addrPart

/-- `_BaseV6._make_netmask` for string arguments (prefix-length form only). -/
def v6_make_netmask (s : List Char) : Option ℕ := prefix_from_prefix_string 128 s

/-- `IPv6Network(str, strict=True)`. -/
def parse_ipv6_network (s : List Char) : Except ParseErr Net :=
  match splitOnChar '/' s with
  | [a] =>
    match parse_ipv6_address a with
    | none => .error .caught
    | some ip =>
      if py_and ip (ipIntFromPrefix 128 128) ≠ ip then .error .hostBits
      else .ok ⟨128, ip, 128⟩
  | [a, m] =>
    match parse_ipv6_address a with
    | none => .error .caught
    | some ip =>
      match v6_make_netmask m with
      | none => .error .caught
      | some p =>
        if py_and ip (ipIntFromPrefix 128 p) ≠ ip then .error .hostBits
        else .ok ⟨128, ip, p⟩
  | _ => .error .caught

/-- `ip_network(str)` (strict): try IPv4, then IPv6; only
`AddressValueError` / `NetmaskValueError` lead to the second attempt, a
host-bits `ValueError` propagates directly. Either way an exception makes the
repository's validity check answer `False`, hence the `Option`. -/
def ip_network_parse (s : List Char) : Option Net :=
  match parse_ipv4_network s with
  | .ok n => some n
  | .error .hostBits => none
  | .error .caught =>
    match parse_ipv6_network s with
    | .ok n => some n
    | .error _ => none

/-- `ip_address(str)`. -/
def ip_address_parse (s : List Char) : Option Addr :=
  match parse_ipv4_address s with
  | some v => some ⟨32, v⟩
  | none =>
    match parse_ipv6_address s with
    | some v => some ⟨128, v⟩
    | none => none

/-! ## The repository's validation helpers -/

/-- `is_string_a_valid_ip_address`. -/
def is_string_a_valid_ip_address (item : List Char) : Bool := (ip_address_parse item).isSome

/-- `is_string_a_valid_ip_network` with its default `strict=False` (this
repository-level flag is unrelated to `ip_network`'s own `strict`, which is
left at its default `True`). -/
def is_string_a_valid_ip_network (item : List Char) : Bool := (ip_network_parse item).isSome

/-- `is_string_a_valid_ip_network(item, strict=True)`. -/
def is_string_a_valid_ip_network_strict (item : List Char) : Bool :=
  is_string_a_valid_ip_network item && !(is_string_a_valid_ip_address item)

/-! ## Output formatting (`__str__` of network objects) -/

def v4_string_from_ip_int (ip : ℕ) : List Char :=
  joinSep ['.'] [natToDec (ip / 2 ^ 24 % 256), natToDec (ip / 2 ^ 16 % 256),
    natToDec (ip / 2 ^ 8 % 256), natToDec (ip % 256)]

/-- The scan of `_compress_hextets`: position and length of the first longest
run of `'0'` hextets (Python keeps `-1`/`0` sentinels; the start value is
only consumed when the best length exceeds 1). -/
def compress_scan (hextets : List (List Char)) : ℕ × ℕ :=
  let z := (List.range hextets.length).zip hextets
  let res := z.foldl (fun (st : ℕ × ℕ × Option ℕ × ℕ) (p : ℕ × List Char) =>
    let bs := st.1
    let bl := st.2.1
    let ds := st.2.2.1
    let dl := st.2.2.2
    if p.2 = ['0'] then
      let dl' := dl + 1
      let ds' := match ds with
        | none => some p.1
        | some s => some s
      if dl' > bl then (ds'.getD 0, dl', ds', dl') else (bs, bl, ds', dl')
    else (bs, bl, none, 0)) (0, 0, none, 0)
  (res.1, res.2.1)

/-- `_BaseV6._compress_hextets`. -/
def compress_hextets (hextets : List (List Char)) : List (List Char) :=
  let scan := compress_scan hextets
  let bs := scan.1
  let bl := scan.2
  if bl > 1 then
    let bend := bs + bl
    let h1 := if bend = hextets.length then hextets ++ [[]] else hextets
    let h2 := h1.take bs ++ [[]] ++ h1.drop bend
    if bs = 0 then [] :: h2 else h2
  else hextets

/-- `_BaseV6._string_from_ip_int`: the sliced `'%032x'` rendering reparsed
per hextet is the same as formatting each 16-bit group. -/
def v6_string_from_ip_int (ip : ℕ) : List Char :=
  let hextets := (List.range 8).map (fun i => toHex (ip / 2 ^ (16 * (7 - i)) % 65536))
  joinSep [':'] (compress_hextets hextets)

/-- `str(network)`: `'%s/%d' % (network_address, prefixlen)`. -/
def net_to_string (n : Net) : List Char :=
  (if n.w = 32 then v4_string_from_ip_int n.addr else v6_string_from_ip_int n.addr)
    ++ '/' :: natToDec n.plen

/-! ## `process_args` and `main` -/

/-- An element of `irr_addrs`: the single-token path stores the parsed
network object, the token loop stores the raw string. -/
inductive ErrItem
  | net (n : Net)
  | str (s : List Char)
deriving DecidableEq

def err_item_str : ErrItem → List Char
  | .net n => net_to_string n
  | .str s => s

/-- The four sets built by `process_args`
(`addr_objs, inv_addrs, mis_addrs, irr_addrs`). -/
structure Classified where
  addr_objs : List Net
  inv_addrs : List (List Char)
  mis_addrs : List Net
  irr_addrs : List ErrItem
deriving DecidableEq

inductive ProcResult
  | fatal (code : ℕ) (msg : List Char)
  | done (c : Classified)
deriving DecidableEq

/-- Outcome of the per-token classification (`for a in addrs:` body,
lines 148-160 of `src/exclude-addresses.py`). -/
inductive TokenClass
  | invalid
  | mismatched (n : Net)
  | irrelevant
  | accepted (n : Net)
deriving DecidableEq

/-- The loop body: `is_string_a_valid_ip_network(a, strict=False)` guards
`ip_network(a)`, so the two parse attempts collapse into one match.
`isinstance(net_a, type(target_net))` is the family comparison, and
`net_a.subnet_of(target_net)` never sees mismatched families. -/
def classify_token (target_net : Net) (a : List Char) : TokenClass :=
  match ip_network_parse a with
  | none => .invalid
  | some net_a =>
    if net_a.w ≠ target_net.w then .mismatched net_a
    else if subnetOfBool net_a target_net = false then .irrelevant
    else .accepted net_a

def classify_tokens (target_net : Net) (toks : List (List Char)) : Classified :=
  toks.foldl (fun c a =>
    match classify_token target_net a with
    | .invalid => ⟨c.addr_objs, addIfNew c.inv_addrs a, c.mis_addrs, c.irr_addrs⟩
    | .mismatched n => ⟨c.addr_objs, c.inv_addrs, addIfNew c.mis_addrs n, c.irr_addrs⟩
    | .irrelevant => ⟨c.addr_objs, c.inv_addrs, c.mis_addrs, addIfNew c.irr_addrs (.str a)⟩
    | .accepted n => ⟨addIfNew c.addr_objs n, c.inv_addrs, c.mis_addrs, c.irr_addrs⟩)
    ⟨[], [], [], []⟩

/-- `set(a.strip() for a in addr_list if a.strip() != '')`. -/
def token_set (pieces : List (List Char)) : List (List Char) :=
  dedupKeepFirst ((pieces.map py_strip).filter (fun a => a ≠ []))

/-- `process_args(target_net, addrs_str)`. In the single-token branch the
source tests `supernet_of` only to add the network to `irr_addrs` in both
arms, so the two arms are merged here. -/
def process_args (target_net : Net) (addrs_str : List Char) : ProcResult :=
  match ip_network_parse addrs_str with
  | some net_a =>
    if net_a.w ≠ target_net.w then .done ⟨[], [], [net_a], []⟩
    else if subnetOfBool net_a target_net = false then .done ⟨[], [], [], [.net net_a]⟩
    else .done ⟨[net_a], [], [], []⟩
  | none =>
    if addrs_str.contains ',' then
      .done (classify_tokens target_net (token_set (splitOnChar ',' addrs_str)))
    else if ¬ addrs_str.contains ' ' then
      .fatal 2 (addrs_str ++ (" is not a valid ip network.".toList))
    else
      .done (classify_tokens target_net (token_set (splitWs addrs_str)))

def category_line (label : List Char) (items : List (List Char)) : List (List Char) :=
  if items.length > 0 then
    [label ++ (if items.length > 1 then "es".toList else []) ++ (": ".toList)
      ++ joinSep [' '] items]
  else []

/-- The message assembled by `print_errors_and_exit`. -/
def print_errors_message (inv : List (List Char)) (mis : List Net) (irr : List ErrItem) :
    List Char :=
  py_strip (joinSep ['\n']
    (category_line ("invalid address".toList) inv
      ++ category_line ("misfitting address".toList) (mis.map net_to_string)
      ++ category_line ("irrelevant address".toList) (irr.map err_item_str)))

/-- Observable outcome of a run of `main`: the exit code, what was printed to
stdout and what to stderr (`none` when nothing was printed on that stream). -/
structure MainResult where
  exitCode : ℕ
  stdout : Option (List Char)
  stderr : Option (List Char)
deriving DecidableEq

/-- `die(code, message)`: a falsy (empty) message prints nothing; otherwise
stderr for non-zero codes, stdout for code 0. -/
def die_result (code : ℕ) (msg : List Char) : MainResult :=
  if msg = [] then ⟨code, none, none⟩
  else if code ≠ 0 then ⟨code, none, some msg⟩
  else ⟨code, some msg, none⟩

def missing_addresses_message : List Char :=
  ("Missing addresses argument. It must be a comma or whitespace separated "
    ++ "addresses of hosts and/or networks to be excluded.").toList

/-- `main()` from parsed arguments onward: `validate_args`, `process_args`,
the error gate, the engine, and the result printing. An `.error` value is an
uncaught exception escaping `main` (which the totality theorems rule out for
the reachable calls). -/
def run_main (network : List Char) (addresses : Option (List Char))
    (separator pfx sfx : List Char) (ignore : Bool) : Except String MainResult :=
  match ip_network_parse network with
  | none => .ok (die_result 1 (network ++ (" is not a valid ip network.".toList)))
  | some target_net =>
    match addresses with
    | none => .ok (die_result 2 missing_addresses_message)
    | some s0 =>
      if s0 = [] then .ok (die_result 2 missing_addresses_message)
      else
        let addrs_str := py_strip s0
        match process_args target_net addrs_str with
        | .fatal code msg => .ok (die_result code msg)
        | .done c =>
          if ¬ ignore ∧ (c.inv_addrs ≠ [] ∨ c.mis_addrs ≠ [] ∨ c.irr_addrs ≠ []) then
            .ok (die_result 2 (print_errors_message c.inv_addrs c.mis_addrs c.irr_addrs))
          else do
            let result0 ← exclude_addresses target_net c.addr_objs
            let result_nets := sortNets result0
            if result_nets.length = 0 then .ok (die_result 0 (net_to_string target_net))
            else
              .ok (die_result 0 (py_strip (joinSep separator
                (result_nets.map (fun n => pfx ++ net_to_string n ++ sfx)))))

/-! ## Concrete networks used in the example-based claims -/

set_option maxRecDepth 100000

/-- `192.168.0.0/24`. -/
def T24 : Net := ⟨32, 3232235520, 24⟩

/-- `10.0.0.0/8`. -/
def T8 : Net := ⟨32, 167772160, 8⟩

/-- `10.1.0.0/16`. -/
def E16 : Net := ⟨32, 167837696, 16⟩

/-- The block sequence claimed by the specification for
`10.0.0.0/8` minus `10.1.0.0/16`. -/
def spec_c5_list : List Net :=
  [⟨32, 167772160, 9⟩, ⟨32, 176160768, 10⟩, ⟨32, 171966464, 11⟩, ⟨32, 169869312, 11⟩,
   ⟨32, 168820736, 12⟩, ⟨32, 168296448, 13⟩, ⟨32, 168034304, 14⟩, ⟨32, 167903232, 15⟩,
   ⟨32, 167772160, 16⟩]

/-- The block sequence the engine actually returns for
`10.0.0.0/8` minus `10.1.0.0/16`: ascending by (address, prefix). -/
def engine_c5_list : List Net :=
  [⟨32, 167772160, 16⟩, ⟨32, 167903232, 15⟩, ⟨32, 168034304, 14⟩, ⟨32, 168296448, 13⟩,
   ⟨32, 168820736, 12⟩, ⟨32, 169869312, 11⟩, ⟨32, 171966464, 10⟩, ⟨32, 176160768, 9⟩]

/-- C2 counterexample: the claim says `exclude_addresses(T, {})` returns
`[T]`; at the concrete target `192.168.0.0/24` it returns the empty
sequence, not the single-element sequence. -/
theorem c2_counterexample : ¬(exclude_addresses T24 [] = .ok [T24]) := by decide

/-- C2 (amended): for every target network `T`, `exclude_addresses(T, {})`
returns the empty sequence `[]` — the single-element result `[T]` the
specification promises is produced only later, by `main`'s
empty-result fallback. -/
theorem c2_empty_exclusions : ∀ T : Net, exclude_addresses T [] = .ok [] := fun _ => rfl

/-- C5 counterexample: on target `10.0.0.0/8` with exclusion `10.1.0.0/16`
the engine's result differs from the sequence claimed in the specification
(which lists nine blocks, contains `10.0.0.0/9` — a block that still
overlaps the exclusion — and `10.128.0.0/10` instead of `10.128.0.0/9`). -/
theorem c5_counterexample :
    exclude_addresses T8 [E16] = .ok engine_c5_list ∧ engine_c5_list ≠ spec_c5_list := by
  constructor
  · decide
  · decide

/-- C5 (amended): for target `10.0.0.0/8` with single exclusion
`10.1.0.0/16` the engine returns exactly
`[10.0.0.0/16, 10.2.0.0/15, 10.4.0.0/14, 10.8.0.0/13, 10.16.0.0/12,
10.32.0.0/11, 10.64.0.0/10, 10.128.0.0/9]` (ascending by address), and
`main` prints exactly these blocks. -/
theorem c5_engine_result :
    exclude_addresses T8 [E16] = .ok engine_c5_list
    ∧ run_main ("10.0.0.0/8".toList) (some ("10.1.0.0/16".toList)) ['\n'] [] [] false
      = .ok ⟨0, some (("10.0.0.0/16\n10.2.0.0/15\n10.4.0.0/14\n10.8.0.0/13\n"
          ++ "10.16.0.0/12\n10.32.0.0/11\n10.64.0.0/10\n10.128.0.0/9").toList), none⟩ := by
  constructor
  · decide
  · decide

/-- C9 counterexample: with target `192.168.0.0/24`, addresses `10.0.0.1`
and `--ignore` unset, the program exits with code 2 but the message is
`irrelevant address: 10.0.0.1/32` (the parsed `/32` network is reported),
not the claimed `irrelevant address: 10.0.0.1`. -/
theorem c9_counterexample :
    run_main ("192.168.0.0/24".toList) (some ("10.0.0.1".toList)) ['\n'] [] [] false
      = .ok ⟨2, none, some ("irrelevant address: 10.0.0.1/32".toList)⟩
    ∧ ("irrelevant address: 10.0.0.1/32".toList : List Char)
      ≠ ("irrelevant address: 10.0.0.1".toList : List Char) := by
  constructor
  · decide
  · decide

/-- C9 (amended): with target `192.168.0.0/24`, addresses `10.0.0.1` and
`--ignore` unset, the token parses to the host network `10.0.0.1/32`, is
classified irrelevant, and the program exits with code 2 printing exactly
`irrelevant address: 10.0.0.1/32` to stderr. -/
theorem c9_behavior :
    process_args T24 ("10.0.0.1".toList)
      = .done ⟨[], [], [], [.net ⟨32, 167772161, 32⟩]⟩
    ∧ run_main ("192.168.0.0/24".toList) (some ("10.0.0.1".toList)) ['\n'] [] [] false
      = .ok ⟨2, none, some ("irrelevant address: 10.0.0.1/32".toList)⟩ := by
  constructor
  · decide
  · decide

/-! ## Claims about argument splitting and classification -/

theorem mem_token_set (pieces : List (List Char)) (tok : List Char) :
    tok ∈ token_set pieces ↔ (tok ≠ [] ∧ ∃ p ∈ pieces, py_strip p = tok) := by
  unfold token_set
  rw [mem_dedupKeepFirst, List.mem_filter, List.mem_map]
  constructor
  · rintro ⟨⟨p, hp, rfl⟩, hne⟩
    refine ⟨by simpa using hne, p, hp, rfl⟩
  · rintro ⟨hne, p, hp, rfl⟩
    exact ⟨⟨p, hp, rfl⟩, by simpa using hne⟩

/-- The multi-token string `1.2.3.4<TAB>5.6.7.8`. -/
def tab_string : List Char := "1.2.3.4\t5.6.7.8".toList

/-- C8 counterexample: a multi-item addresses string separated by a tab
contains whitespace but no comma and no space character; the claim says it
is split on whitespace, but the program signals the fatal parse error
(exit code 2) instead — delimiter detection tests for the space character
`' '`, not for whitespace. -/
theorem c8_counterexample :
    ip_network_parse tab_string = none
    ∧ tab_string.contains ',' = false
    ∧ tab_string.any py_isspace = true
    ∧ process_args T8 tab_string = .fatal 2 (tab_string ++ (" is not a valid ip network.".toList)) := by
  refine ⟨by decide, by decide, by decide, by decide⟩

/-- C8 (amended): for every addresses string that does not parse as a single
network: if it contains a comma it is split on commas; otherwise, if it
contains a space character `' '` (not arbitrary whitespace) it is split on
whitespace runs; otherwise the program signals the fatal parse error with
exit code 2. Tokens are trimmed, and tokens empty after trimming are
dropped silently. -/
theorem c8_delimiters :
    (∀ (t : Net) (s : List Char), ip_network_parse s = none →
      (s.contains ',' = true →
        process_args t s = .done (classify_tokens t (token_set (splitOnChar ',' s))))
      ∧ (s.contains ',' = false → s.contains ' ' = false →
        process_args t s = .fatal 2 (s ++ (" is not a valid ip network.".toList)))
      ∧ (s.contains ',' = false → s.contains ' ' = true →
        process_args t s = .done (classify_tokens t (token_set (splitWs s)))))
    ∧ (∀ (pieces : List (List Char)) (tok : List Char),
        tok ∈ token_set pieces ↔ (tok ≠ [] ∧ ∃ p ∈ pieces, py_strip p = tok)) := by
  constructor
  · intro t s hparse
    refine ⟨?_, ?_, ?_⟩
    · intro hc
      have hc' : ',' ∈ s := by simpa using hc
      simp [process_args, hparse, hc']
    · intro hc hsp
      have hc' : ¬(',' ∈ s) := by simpa using hc
      have hsp' : ¬(' ' ∈ s) := by simpa using hsp
      simp [process_args, hparse, hc', hsp']
    · intro hc hsp
      have hc' : ¬(',' ∈ s) := by simpa using hc
      have hsp' : ' ' ∈ s := by simpa using hsp
      simp [process_args, hparse, hc', hsp']
  · exact mem_token_set

/-- C8 witness: the fatal branch of the amended claim at the concrete tab
input. -/
theorem c8_witness :
    process_args T8 tab_string = .fatal 2 (tab_string ++ (" is not a valid ip network.".toList)) :=
  (c8_delimiters.1 T8 tab_string (by decide)).2.1 (by decide) (by decide)

/-- C4 counterexample: the token `192.168.0.0/24` parses as a network equal
to the target `192.168.0.0/24` — not a strict subnet — yet classification
places it in `accepted` (both in the single-token path of `process_args`
and in the per-token rule), not in `irrelevant` as the claim requires. -/
theorem c4_counterexample :
    ip_network_parse ("192.168.0.0/24".toList) = some T24
    ∧ process_args T24 ("192.168.0.0/24".toList) = .done ⟨[T24], [], [], []⟩
    ∧ classify_token T24 ("192.168.0.0/24".toList) = .accepted T24 := by
  refine ⟨by decide, by decide, by decide⟩

/-- C4 (amended): a token that parses as a network `n` of the target's
family is accepted exactly when `n.subnet_of(target)` holds — a non-strict
test, so a token equal to the target is accepted; it is classified
irrelevant exactly when the subnet test fails (supernets of the target and
disjoint networks). This holds for the per-token rule and for the
single-token path of `process_args`. -/
theorem c4_classification :
    ∀ (t : Net) (a : List Char) (n : Net), ip_network_parse a = some n → n.w = t.w →
      (classify_token t a = .accepted n ↔ subnetOfBool n t = true)
      ∧ (classify_token t a = .irrelevant ↔ subnetOfBool n t = false)
      ∧ (process_args t a = .done ⟨[n], [], [], []⟩ ↔ subnetOfBool n t = true)
      ∧ (process_args t a = .done ⟨[], [], [], [.net n]⟩ ↔ subnetOfBool n t = false) := by
  intro t a n hparse hw
  by_cases hs : subnetOfBool n t = true
  · simp [classify_token, process_args, hparse, hw, hs]
  · have hs' : subnetOfBool n t = false := by
      cases h : subnetOfBool n t
      · rfl
      · exact absurd h hs
    simp [classify_token, process_args, hparse, hw, hs']

/-- C4 witness: the exclusion `10.1.0.0/16` against target `10.0.0.0/8` is
a subnet of the target and is accepted. -/
theorem c4_witness : classify_token T8 ("10.1.0.0/16".toList) = .accepted E16 :=
  ((c4_classification T8 ("10.1.0.0/16".toList) E16 (by decide) (by decide)).1).mpr (by decide)

/-! ## A bare host address parses as a full-length network (claim C7) -/

theorem splitOnChar_of_not_contains {c : Char} : ∀ {l : List Char},
    l.contains c = false → splitOnChar c l = [l] := by
  intro l
  induction l with
  | nil => intro h; rfl
  | cons x rest ih =>
    intro h
    have hx : ¬(x = c) := by
      intro hcontra
      subst hcontra
      simp at h
    have hrest : rest.contains c = false := by
      by_cases hr : rest.contains c = true
      · exfalso
        have : (x :: rest).contains c = true := by
          simp at hr ⊢
          exact Or.inr hr
        rw [this] at h
        cases h
      · cases hrc : rest.contains c
        · rfl
        · exact absurd hrc hr
    unfold splitOnChar
    rw [if_neg hx, ih hrest]

theorem py_and_allones {a y : ℕ} (h : y < 2 ^ a) : py_and y (2 ^ a - 1) = y := by
  have := py_and_mask (Nat.zero_le a) h
  simpa [Nat.mod_one] using this

theorem ipIntFromPrefix_full (w : ℕ) : ipIntFromPrefix w w = 2 ^ w - 1 := by
  unfold ipIntFromPrefix allOnes
  have hdiv : (2 ^ w - 1) / 2 ^ w = 0 :=
    Nat.div_eq_of_lt (by have := Nat.pos_pow_of_pos w (show 0 < 2 by omega); omega)
  rw [hdiv, py_xor_def]
  by_cases h : 2 ^ w - 1 = 0 <;> simp [h]

theorem mapM_option_length {α β : Type} (f : α → Option β) :
    ∀ (l : List α) (r : List β), l.mapM f = some r → r.length = l.length := by
  intro l
  induction l with
  | nil =>
    intro r h
    simp only [List.mapM_nil, pure] at h
    cases h
    rfl
  | cons a rest ih =>
    intro r h
    rw [List.mapM_cons] at h
    cases hfa : f a with
    | none => rw [hfa] at h; cases h
    | some b =>
      rw [hfa] at h
      cases hrest : rest.mapM f with
      | none => rw [hrest] at h; cases h
      | some bs =>
        rw [hrest] at h
        have h' : some (b :: bs) = some r := h
        cases h'
        simp [ih bs hrest]

theorem mapM_option_mem {α β : Type} (f : α → Option β) :
    ∀ (l : List α) (r : List β), l.mapM f = some r →
      ∀ b ∈ r, ∃ a ∈ l, f a = some b := by
  intro l
  induction l with
  | nil =>
    intro r h
    simp only [List.mapM_nil, pure] at h
    cases h
    intro b hb
    cases hb
  | cons a rest ih =>
    intro r h
    rw [List.mapM_cons] at h
    cases hfa : f a with
    | none => rw [hfa] at h; cases h
    | some b0 =>
      rw [hfa] at h
      cases hrest : rest.mapM f with
      | none => rw [hrest] at h; cases h
      | some bs =>
        rw [hrest] at h
        have h' : some (b0 :: bs) = some r := h
        cases h'
        intro b hb
        rcases List.mem_cons.mp hb with hb | hb
        · exact ⟨a, List.mem_cons_self _ _, hb ▸ hfa⟩
        · obtain ⟨a', ha', hfa'⟩ := ih bs hrest b hb
          exact ⟨a', List.mem_cons_of_mem _ ha', hfa'⟩

theorem parse_octet_le {s : List Char} {v : ℕ} (h : parse_octet s = some v) : v ≤ 255 := by
  unfold parse_octet at h
  split_ifs at h
  simp_all
  omega

theorem v4_int_lt {s : List Char} {v : ℕ} (h : v4_int_from_string s = some v) :
    v < 2 ^ 32 := by
  unfold v4_int_from_string at h
  by_cases h1 : s = []
  · rw [if_pos h1] at h
    cases h
  · rw [if_neg h1] at h
    dsimp only at h
    by_cases h2 : (splitOnChar '.' s).length ≠ 4
    · rw [if_pos h2] at h
      cases h
    · rw [if_neg h2] at h
      cases hm : (splitOnChar '.' s).mapM parse_octet with
      | none => rw [hm] at h; cases h
      | some vals =>
        rw [hm] at h
        have hlen : vals.length = 4 := by
          rw [mapM_option_length _ _ _ hm]
          omega
        have hmem := mapM_option_mem _ _ _ hm
        rcases vals with _ | ⟨a, _ | ⟨b, _ | ⟨c, _ | ⟨d, _ | ⟨e, tl⟩⟩⟩⟩⟩ <;> simp_all
        have ha : a ≤ 255 := by
          obtain ⟨oa, _, hoa⟩ := hmem.1
          exact parse_octet_le hoa
        have hb : b ≤ 255 := by
          obtain ⟨ob, _, hob⟩ := hmem.2.1
          exact parse_octet_le hob
        have hc : c ≤ 255 := by
          obtain ⟨oc, _, hoc⟩ := hmem.2.2.1
          exact parse_octet_le hoc
        have hd : d ≤ 255 := by
          obtain ⟨od, _, hod⟩ := hmem.2.2.2
          exact parse_octet_le hod
        subst h
        simp [List.foldl]
        omega

theorem hexVal_lt {c : Char} (h : isHexDigitPy c = true) : hexVal c < 16 := by
  unfold isHexDigitPy at h
  rw [Bool.or_eq_true, Bool.or_eq_true] at h
  unfold hexVal
  by_cases hd : isAsciiDigit c = true
  · rw [if_pos hd]
    unfold isAsciiDigit at hd
    rw [Bool.and_eq_true, decide_eq_true_iff, decide_eq_true_iff] at hd
    have h1 : 48 ≤ c.toNat := by have := hd.1; rw [Char.le_def] at this; exact this
    have h2 : c.toNat ≤ 57 := by have := hd.2; rw [Char.le_def] at this; exact this
    show c.toNat - 48 < 16
    omega
  · rw [if_neg hd]
    by_cases hl : (decide ('a' ≤ c) && decide (c ≤ 'f')) = true
    · rw [if_pos hl]
      rw [Bool.and_eq_true, decide_eq_true_iff, decide_eq_true_iff] at hl
      have h1 : 97 ≤ c.toNat := by have := hl.1; rw [Char.le_def] at this; exact this
      have h2 : c.toNat ≤ 102 := by have := hl.2; rw [Char.le_def] at this; exact this
      show c.toNat - 97 + 10 < 16
      omega
    · rw [if_neg hl]
      have hu : (decide ('A' ≤ c) && decide (c ≤ 'F')) = true := by
        rcases h with (h | h) | h
        · exact absurd h hd
        · exact absurd h hl
        · exact h
      rw [Bool.and_eq_true, decide_eq_true_iff, decide_eq_true_iff] at hu
      have h1 : 65 ≤ c.toNat := by have := hu.1; rw [Char.le_def] at this; exact this
      have h2 : c.toNat ≤ 70 := by have := hu.2; rw [Char.le_def] at this; exact this
      show c.toNat - 65 + 10 < 16
      omega

theorem hex_fold_lt : ∀ (s : List Char) (acc : ℕ), (∀ c ∈ s, hexVal c < 16) →
    s.foldl (fun a c => 16 * a + hexVal c) acc < (acc + 1) * 16 ^ s.length := by
  intro s
  induction s with
  | nil => intro acc _; simp
  | cons c rest ih =>
    intro acc hall
    have hc : hexVal c < 16 := hall c (List.mem_cons_self _ _)
    have hrest : ∀ x ∈ rest, hexVal x < 16 := fun x hx => hall x (List.mem_cons_of_mem _ hx)
    have h1 := ih (16 * acc + hexVal c) hrest
    have h2 : (16 * acc + hexVal c + 1) * 16 ^ rest.length ≤ (acc + 1) * 16 ^ (c :: rest).length := by
      have hstep : 16 * acc + hexVal c + 1 ≤ 16 * (acc + 1) := by omega
      calc (16 * acc + hexVal c + 1) * 16 ^ rest.length
          ≤ (16 * (acc + 1)) * 16 ^ rest.length := Nat.mul_le_mul_right _ hstep
      _ = (acc + 1) * 16 ^ (c :: rest).length := by
          rw [List.length_cons, Nat.pow_succ]
          ring
    calc List.foldl (fun a c => 16 * a + hexVal c) acc (c :: rest)
        = List.foldl (fun a c => 16 * a + hexVal c) (16 * acc + hexVal c) rest := rfl
    _ < (16 * acc + hexVal c + 1) * 16 ^ rest.length := h1
    _ ≤ (acc + 1) * 16 ^ (c :: rest).length := h2

theorem parse_hextet_lt {s : List Char} {v : ℕ} (h : parse_hextet s = some v) : v < 65536 := by
  unfold parse_hextet at h
  split_ifs at h with h1 h2 h3
  rw [Option.some_inj] at h
  push_neg at h1
  have hall : ∀ c ∈ s, hexVal c < 16 := by
    intro c hc
    apply hexVal_lt
    have := List.all_eq_true.mp h1 c hc
    simpa using this
  have hb := hex_fold_lt s 0 hall
  have hlen : 16 ^ s.length ≤ 16 ^ 4 := Nat.pow_le_pow_right (by omega) (by omega)
  subst h
  have : (16:ℕ) ^ 4 = 65536 := by norm_num
  omega

theorem foldHextets_lt : ∀ (parts : List (List Char)) (acc r : ℕ),
    foldHextets parts acc = some r → r < (acc + 1) * 2 ^ (16 * parts.length) := by
  intro parts
  induction parts with
  | nil =>
    intro acc r h
    unfold foldHextets at h
    rw [Option.some_inj] at h
    subst h
    simp
  | cons p rest ih =>
    intro acc r h
    unfold foldHextets at h
    cases hp : parse_hextet p with
    | none => rw [hp] at h; cases h
    | some hv =>
      rw [hp] at h
      have hhv := parse_hextet_lt hp
      have h1 := ih (acc * 65536 + hv) r h
      have h2 : (acc * 65536 + hv + 1) * 2 ^ (16 * rest.length)
          ≤ (acc + 1) * 2 ^ (16 * (p :: rest).length) := by
        have hstep : acc * 65536 + hv + 1 ≤ (acc + 1) * 65536 := by omega
        calc (acc * 65536 + hv + 1) * 2 ^ (16 * rest.length)
            ≤ ((acc + 1) * 65536) * 2 ^ (16 * rest.length) := Nat.mul_le_mul_right _ hstep
        _ = (acc + 1) * 2 ^ (16 * (p :: rest).length) := by
            rw [List.length_cons]
            have hre : 16 * (rest.length + 1) = 16 * rest.length + 16 := by ring
            rw [hre, Nat.pow_add]
            norm_num
            ring
      exact lt_of_lt_of_le h1 h2

theorem v6_tail_lt (parts : List (List Char)) (hi lo v : ℕ)
    (hhi : hi ≤ parts.length) (hlo : lo ≤ parts.length) (hsum : hi + lo < 8)
    (h : (match foldHextets (parts.take hi) 0 with
          | none => none
          | some hiVal => foldHextets (parts.drop (parts.length - lo))
              (hiVal * 2 ^ (16 * (8 - (hi + lo))))) = some v) : v < 2 ^ 128 := by
  cases hfh : foldHextets (parts.take hi) 0 with
  | none => rw [hfh] at h; cases h
  | some hiVal =>
    rw [hfh] at h
    have hb1 := foldHextets_lt _ _ _ hfh
    have htake : (parts.take hi).length = hi := by
      rw [List.length_take]
      omega
    rw [htake] at hb1
    have hb2 := foldHextets_lt _ _ _ h
    have hdrop : (parts.drop (parts.length - lo)).length = lo := by
      rw [List.length_drop]
      omega
    rw [hdrop] at hb2
    have hacc : hiVal * 2 ^ (16 * (8 - (hi + lo))) + 1
        ≤ 2 ^ (16 * (hi + (8 - (hi + lo)))) := by
      have hp : (0:ℕ) < 2 ^ (16 * (8 - (hi + lo))) := Nat.pos_pow_of_pos _ (by omega)
      have h3 : hiVal + 1 ≤ 2 ^ (16 * hi) := by omega
      have h4 : (hiVal + 1) * 2 ^ (16 * (8 - (hi + lo)))
          ≤ 2 ^ (16 * hi) * 2 ^ (16 * (8 - (hi + lo))) := Nat.mul_le_mul_right _ h3
      rw [← Nat.pow_add] at h4
      have h5 : 16 * hi + 16 * (8 - (hi + lo)) = 16 * (hi + (8 - (hi + lo))) := by ring
      rw [h5] at h4
      have hexp : (hiVal + 1) * 2 ^ (16 * (8 - (hi + lo)))
          = hiVal * 2 ^ (16 * (8 - (hi + lo))) + 2 ^ (16 * (8 - (hi + lo))) := by ring
      omega
    have hfin : (hiVal * 2 ^ (16 * (8 - (hi + lo))) + 1) * 2 ^ (16 * lo)
        ≤ 2 ^ (16 * (hi + (8 - (hi + lo)))) * 2 ^ (16 * lo) :=
      Nat.mul_le_mul_right _ hacc
    rw [← Nat.pow_add] at hfin
    have h6 : 16 * (hi + (8 - (hi + lo))) + 16 * lo = 16 * 8 := by omega
    rw [h6] at hfin
    have h7 : (2:ℕ) ^ (16 * 8) = 2 ^ 128 := by norm_num
    omega

theorem v6_assemble_lt {parts : List (List Char)} {v : ℕ}
    (h : v6_assemble parts = some v) : v < 2 ^ 128 := by
  unfold v6_assemble at h
  by_cases h9 : parts.length > 9
  · rw [if_pos h9] at h; cases h
  rw [if_neg h9] at h
  dsimp only at h
  cases hemp : (List.range parts.length).filter
      (fun i => 0 < i ∧ i + 1 < parts.length ∧ parts.getD i ['x'] = []) with
  | nil =>
    rw [hemp] at h
    by_cases hl8 : parts.length ≠ 8
    · rw [if_pos hl8] at h; cases h
    rw [if_neg hl8] at h
    split_ifs at h
    have hv := foldHextets_lt parts 0 v h
    push_neg at hl8
    rw [hl8] at hv
    calc v < (0 + 1) * 2 ^ (16 * 8) := hv
    _ = 2 ^ 128 := by norm_num
  | cons i rest =>
    cases rest with
    | cons j rest2 => rw [hemp] at h; cases h
    | nil =>
      rw [hemp] at h
      dsimp only at h
      have hi_mem : i ∈ (List.range parts.length).filter
          (fun i => 0 < i ∧ i + 1 < parts.length ∧ parts.getD i ['x'] = []) := by
        rw [hemp]; exact List.mem_cons_self _ _
      rw [List.mem_filter] at hi_mem
      have hi_lt : 0 < i ∧ i + 1 < parts.length := by
        have := hi_mem.2
        simp only [decide_eq_true_eq] at this
        exact ⟨this.1, this.2.1⟩
      by_cases hc1 : parts.head? = some [] ∧ i - 1 ≠ 0
      · rw [if_pos hc1] at h; cases h
      rw [if_neg hc1] at h
      by_cases hc2 : parts.getLast? = some [] ∧ parts.length - i - 1 - 1 ≠ 0
      · rw [if_pos hc2] at h; cases h
      rw [if_neg hc2] at h
      set hi := if parts.head? = some [] then i - 1 else i with hhi
      set lo := if parts.getLast? = some [] then parts.length - i - 1 - 1
        else parts.length - i - 1 with hlo
      by_cases hc3 : 8 - (hi + lo) < 1 ∨ 8 ≤ hi + lo
      · rw [if_pos hc3] at h; cases h
      rw [if_neg hc3] at h
      refine v6_tail_lt parts hi lo v ?_ ?_ ?_ h
      · rw [hhi]; split_ifs <;> omega
      · rw [hlo]; split_ifs <;> omega
      · push_neg at hc3; omega

theorem v6_int_lt {s : List Char} {v : ℕ} (h : v6_int_from_string s = some v) :
    v < 2 ^ 128 := by
  unfold v6_int_from_string at h
  by_cases h1 : s = []
  · rw [if_pos h1] at h; cases h
  rw [if_neg h1] at h
  dsimp only at h
  by_cases h2 : (splitOnChar ':' s).length < 3
  · rw [if_pos h2] at h; cases h
  rw [if_neg h2] at h
  cases hcv : v6_convert_v4_suffix (splitOnChar ':' s) with
  | none => rw [hcv] at h; cases h
  | some parts2 =>
    rw [hcv] at h
    exact v6_assemble_lt h

theorem parse_ipv4_address_elim {a : List Char} {v : ℕ}
    (h : parse_ipv4_address a = some v) :
    a.contains '/' = false ∧ v4_int_from_string a = some v := by
  unfold parse_ipv4_address at h
  by_cases hc : a.contains '/' = true
  · rw [if_pos hc] at h; cases h
  · rw [if_neg hc] at h
    exact ⟨by simpa using hc, h⟩

theorem parse_ipv6_address_elim {a : List Char} {v : ℕ}
    (h : parse_ipv6_address a = some v) :
    a.contains '/' = false ∧ v < 2 ^ 128 := by
  unfold parse_ipv6_address at h
  by_cases hc : a.contains '/' = true
  · rw [if_pos hc] at h; cases h
  · rw [if_neg hc] at h
    refine ⟨by simpa using hc, ?_⟩
    cases hs : split_scope_id a with
    | none => rw [hs] at h; cases h
    | some ap => rw [hs] at h; exact v6_int_lt h

theorem bare_v4_network {a : List Char} {v : ℕ}
    (h : parse_ipv4_address a = some v) :
    parse_ipv4_network a = .ok ⟨32, v, 32⟩ := by
  obtain ⟨hslash, hv4⟩ := parse_ipv4_address_elim h
  have hlt : v < 2 ^ 32 := v4_int_lt hv4
  unfold parse_ipv4_network
  rw [splitOnChar_of_not_contains hslash]
  dsimp only
  rw [h]
  dsimp only
  rw [ipIntFromPrefix_full, py_and_allones hlt]
  simp

theorem bare_v6_network {a : List Char} {v : ℕ}
    (h : parse_ipv6_address a = some v) :
    parse_ipv6_network a = .ok ⟨128, v, 128⟩ := by
  have hlt : v < 2 ^ 128 := (parse_ipv6_address_elim h).2
  have hslash : a.contains '/' = false := (parse_ipv6_address_elim h).1
  unfold parse_ipv6_network
  rw [splitOnChar_of_not_contains hslash]
  dsimp only
  rw [h]
  dsimp only
  rw [ipIntFromPrefix_full, py_and_allones hlt]
  simp

/-- A string accepted by `ip_address` is also accepted by `ip_network`,
yielding the full-length (`/32` or `/128`) network on the same integer. -/
theorem address_implies_network {a : List Char} {ad : Addr}
    (h : ip_address_parse a = some ad) :
    ip_network_parse a = some ⟨ad.w, ad.val, ad.w⟩ := by
  unfold ip_address_parse at h
  cases h4 : parse_ipv4_address a with
  | some v =>
    rw [h4] at h
    dsimp only at h
    cases h
    unfold ip_network_parse
    rw [bare_v4_network h4]
  | none =>
    rw [h4] at h
    dsimp only at h
    cases h6 : parse_ipv6_address a with
    | none => rw [h6] at h; cases h
    | some v =>
      rw [h6] at h
      dsimp only at h
      cases h
      have hslash : a.contains '/' = false := (parse_ipv6_address_elim h6).1
      have h4net : parse_ipv4_network a = .error .caught := by
        unfold parse_ipv4_network
        rw [splitOnChar_of_not_contains hslash]
        dsimp only
        rw [h4]
      unfold ip_network_parse
      rw [h4net]
      dsimp only
      rw [bare_v6_network h6]

/-- C7: a token is classified invalid exactly when it parses neither as a
network nor as a bare host address; a token that parses as a bare host
address is treated as the full-length `/32` (IPv4) or `/128` (IPv6) network
on that address and goes through the remaining classification rules instead
of being rejected. -/
theorem c7_classification (T : Net) (a : List Char) :
    (classify_token T a = .invalid ↔
      ip_network_parse a = none ∧ ip_address_parse a = none)
    ∧ (∀ ad : Addr, ip_address_parse a = some ad →
        ip_network_parse a = some ⟨ad.w, ad.val, ad.w⟩ ∧
        classify_token T a ≠ .invalid) := by
  constructor
  · constructor
    · intro hinv
      cases hp : ip_network_parse a with
      | none =>
        refine ⟨rfl, ?_⟩
        cases hap : ip_address_parse a with
        | none => rfl
        | some ad =>
          have := address_implies_network hap
          rw [hp] at this
          cases this
      | some n =>
        unfold classify_token at hinv
        rw [hp] at hinv
        dsimp only at hinv
        split_ifs at hinv <;> cases hinv
    · intro hpair
      unfold classify_token
      rw [hpair.1]
  · intro ad had
    have hnet := address_implies_network had
    refine ⟨hnet, ?_⟩
    unfold classify_token
    rw [hnet]
    dsimp only
    split_ifs <;> simp

/-- C7 witness: `10.0.0.1` is a bare host address; it is treated as the
network `10.0.0.1/32` and not classified invalid against `192.168.0.0/24`. -/
theorem c7_witness :
    ip_network_parse ("10.0.0.1".toList) = some ⟨32, 167772161, 32⟩ ∧
    classify_token T24 ("10.0.0.1".toList) ≠ TokenClass.invalid :=
  (c7_classification T24 ("10.0.0.1".toList)).2 ⟨32, 167772161⟩ (by decide)

/-! ## Full exclusion: the engine applied to its own target (claim C3) -/

theorem ok_bind {α β : Type} (x : α) (f : α → Except String β) :
    (do
      let y ← Except.ok x
      f y) = f x := rfl

theorem summarize_single (w v : ℕ) : summarize_address_range w v v = [⟨w, v, w⟩] := by
  unfold summarize_address_range
  rw [show v + 1 - v = 1 from by omega]
  unfold summarize_aux
  rw [if_pos (le_refl v)]
  have hnb : min (count_righthand_zero_bits v w) (bit_length (v - v + 1) - 1) = 0 := by
    rw [show v - v + 1 = 1 from by omega]
    rw [show bit_length 1 = 1 from by decide]
    simp
  rw [hnb]
  simp only [pow_zero, Nat.sub_zero, Nat.add_sub_cancel]
  by_cases hv : v = allOnes w
  · rw [if_pos hv]
  · rw [if_neg hv]
    rfl

theorem merge_loop_aux_single (g : ℕ) (n : Net) :
    merge_loop_aux (g + 2) [n] [] = [(n.supernet, n)] := by
  show merge_loop_aux (g + 1 + 1) [n] [] = _
  simp only [merge_loop_aux, dict_get, List.find?_nil, dict_set, List.nil_append]

theorem merge_loop_single (n : Net) : merge_loop [n] = [(n.supernet, n)] := by
  unfold merge_loop
  rw [show ([n].reverse : List Net) = [n] from rfl]
  rw [show merge_weight [n] [] + 1 = (2 * n.plen + 1) + 2 from by
    unfold merge_weight
    simp only [List.map_cons, List.map_nil, List.sum_cons, List.sum_nil]
    omega]
  exact merge_loop_aux_single _ n

theorem collapse_internal_single (n : Net) : collapse_addresses_internal [n] = [n] := by
  unfold collapse_addresses_internal
  rw [merge_loop_single]
  rfl

theorem collapse_single (n : Net) : collapse_addresses [n] = .ok [n] := by
  obtain ⟨w, a, p⟩ := n
  unfold collapse_addresses
  by_cases hp : p = w
  · subst hp
    have hsplit : split_ips_nets [(⟨p, a, p⟩ : Net)] [] [] = .ok ([⟨p, a⟩], []) := by
      unfold split_ips_nets
      rw [if_pos (show ((⟨p, a, p⟩ : Net).plen = (⟨p, a, p⟩ : Net).w) from rfl)]
      rfl
    rw [hsplit, ok_bind]
    have hdedup : dedupKeepFirst [(⟨p, a⟩ : Addr)] = [⟨p, a⟩] := by
      unfold dedupKeepFirst dedupKeepFirstAux
      rw [if_neg (List.not_mem_nil _)]
      rfl
    dsimp only
    rw [hdedup]
    show Except.ok (collapse_addresses_internal
      (summarize_address_range p a a ++ [] ++ [])) = Except.ok [(⟨p, a, p⟩ : Net)]
    rw [summarize_single]
    simp only [List.append_nil]
    rw [collapse_internal_single]
  · have hsplit : split_ips_nets [(⟨w, a, p⟩ : Net)] [] [] = .ok ([], [⟨w, a, p⟩]) := by
      unfold split_ips_nets
      rw [if_neg (show ¬((⟨w, a, p⟩ : Net).plen = (⟨w, a, p⟩ : Net).w) from hp)]
      rfl
    rw [hsplit, ok_bind]
    show Except.ok (collapse_addresses_internal (([] : List Net) ++ [⟨w, a, p⟩]))
      = Except.ok [(⟨w, a, p⟩ : Net)]
    rw [List.nil_append, collapse_internal_single]

theorem subnetOfBool_refl (n : Net) : subnetOfBool n n = true := by
  unfold subnetOfBool
  simp

theorem address_exclude_self (n : Net) : address_exclude n n = .ok [] := by
  unfold address_exclude
  rw [if_neg (show ¬(n.w ≠ n.w) from by simp)]
  rw [is_subnet_of_ok rfl, ok_bind]
  dsimp only
  rw [subnetOfBool_refl]
  rw [if_neg (show ¬(true = false) from by simp)]
  rw [if_pos rfl]

/-- Excluding the target network from itself always yields the empty block
sequence: `address_exclude` of a network with itself is the empty iterator. -/
theorem exclude_addresses_self (T : Net) : exclude_addresses T [T] = .ok [] := by
  unfold exclude_addresses
  rw [collapse_single, ok_bind]
  dsimp only
  rw [show sortNets [T] = [T] from rfl]
  rw [List.foldlM_cons]
  rw [is_subnet_of_ok rfl, ok_bind]
  rw [subnetOfBool_refl]
  rw [if_pos rfl]
  rw [address_exclude_self, ok_bind]
  rw [List.nil_append]
  simp only [show (pure [] : Except String (List Net)) = Except.ok [] from rfl, ok_bind,
    List.foldlM_nil]
  rfl

/-- C3 counterexample: the claim promises empty output (nothing printed) on
full exclusion; the run with `addresses` equal to the target does not end
with silent success — `main`'s empty-result fallback prints the target. -/
theorem c3_counterexample :
    ¬(run_main ("192.168.0.0/24".toList) (some ("192.168.0.0/24".toList))
        ['\n'] [] [] false = .ok (die_result 0 [])) := by decide

/-- C3 (amended): for every target network `T`, `exclude_addresses T [T]`
yields the empty sequence; the program then exits with code 0, but prints the
target network (the empty-result fallback), not empty output. -/
theorem c3_full_exclusion :
    (∀ T : Net, exclude_addresses T [T] = .ok [])
    ∧ run_main ("192.168.0.0/24".toList) (some ("192.168.0.0/24".toList))
        ['\n'] [] [] false
      = .ok (die_result 0 ("192.168.0.0/24".toList)) := by
  refine ⟨exclude_addresses_self, ?_⟩
  decide

/-! ## Range inclusion between valid networks -/

theorem exists_mem_cons {α : Type} (p : α → Prop) (a : α) (l : List α) :
    (∃ n ∈ a :: l, p n) ↔ p a ∨ ∃ n ∈ l, p n := by
  constructor
  · rintro ⟨n, hn, hp⟩
    rcases List.mem_cons.mp hn with h | h
    · exact Or.inl (h ▸ hp)
    · exact Or.inr ⟨n, h, hp⟩
  · rintro (h | ⟨n, hn, hp⟩)
    · exact ⟨a, List.mem_cons_self _ _, h⟩
    · exact ⟨n, List.mem_cons_of_mem _ hn, hp⟩

theorem subset_size_le {a b : Net} (hincl : ∀ x, a.mem x → b.mem x) : a.size ≤ b.size := by
  have hpa := size_pos a
  have h1 := hincl a.addr (mem_addr a)
  have h2 := hincl (a.addr + a.size - 1) ⟨by omega, by omega⟩
  unfold Net.mem at h1 h2
  omega

theorem subset_plen_le {a b : Net} (ha : a.Valid) (hb : b.Valid) (hw : a.w = b.w)
    (hincl : ∀ x, a.mem x → b.mem x) : b.plen ≤ a.plen := by
  have hsz := subset_size_le hincl
  unfold Net.size at hsz
  have hexp : a.w - a.plen ≤ b.w - b.plen :=
    (Nat.pow_le_pow_iff_right (by omega)).mp hsz
  have := ha.1
  have := hb.1
  omega

theorem subset_antisymm_net {a b : Net} (hw : a.w = b.w)
    (hincl : ∀ x, a.mem x → b.mem x) (hp : b.plen = a.plen) : a = b := by
  have hpa := size_pos a
  have hsz : a.size = b.size := by
    unfold Net.size
    rw [hw, hp]
  have h1 := hincl a.addr (mem_addr a)
  have h2 := hincl (a.addr + a.size - 1) ⟨by omega, by omega⟩
  unfold Net.mem at h1 h2
  have haddr : a.addr = b.addr := by omega
  cases a
  cases b
  simp only [Net.mk.injEq] at hw hp haddr ⊢
  exact ⟨hw, haddr, hp.symm⟩

theorem strict_subnet_plen {a b : Net} (ha : a.Valid) (hb : b.Valid) (hw : a.w = b.w)
    (hincl : ∀ x, a.mem x → b.mem x) (hne : a ≠ b) : b.plen < a.plen := by
  have hle := subset_plen_le ha hb hw hincl
  rcases Nat.lt_or_ge b.plen a.plen with h | h
  · exact h
  · exact absurd (subset_antisymm_net hw hincl (by omega)) hne

/-! ## Correctness of `address_exclude` -/

theorem address_exclude_loop_spec :
    ∀ (g : ℕ) (other C : Net), other.Valid → C.Valid → other.w = C.w → C.plen < C.w →
    (∀ x, other.mem x → C.mem x) → other ≠ C → C.w - C.plen ≤ g →
    ∃ r, address_exclude_loop g other C.subnetsPair.1 C.subnetsPair.2 = .ok r
      ∧ (∀ n ∈ r, n.Valid ∧ n.w = C.w)
      ∧ (∀ x, (∃ n ∈ r, n.mem x) ↔ (C.mem x ∧ ¬ other.mem x)) := by
  intro g
  induction g with
  | zero =>
    intro other C _ _ _ hlt _ _ hg
    omega
  | succ g ih =>
    intro other C ho hC hw hlt hincl hne hg
    obtain ⟨⟨hv1, hv2, hw1, hw2, hp1, hp2⟩, hpart, hdisj⟩ := subnetsPair_partition hC hlt
    set s1 := C.subnetsPair.1 with hs1
    set s2 := C.subnetsPair.2 with hs2
    by_cases hA : s1 = other
    · refine ⟨[s2], ?_, ?_, ?_⟩
      · simp only [address_exclude_loop]
        rw [if_pos hA]
      · intro n hn
        rw [List.mem_singleton] at hn
        subst hn
        exact ⟨hv2, hw2⟩
      · intro x
        rw [show (∃ n ∈ [s2], n.mem x) ↔ s2.mem x by
          simp only [List.mem_singleton, exists_eq_left]]
        rw [← hA]
        have hp := hpart x
        have hd := hdisj x
        constructor
        · intro h
          exact ⟨hp.mpr (Or.inr h), fun hx1 => hd ⟨hx1, h⟩⟩
        · intro h
          rcases hp.mp h.1 with h1 | h2
          · exact absurd h1 h.2
          · exact h2
    · by_cases hB : s2 = other
      · refine ⟨[s1], ?_, ?_, ?_⟩
        · simp only [address_exclude_loop]
          rw [if_neg hA, if_pos hB]
        · intro n hn
          rw [List.mem_singleton] at hn
          subst hn
          exact ⟨hv1, hw1⟩
        · intro x
          rw [show (∃ n ∈ [s1], n.mem x) ↔ s1.mem x by
            simp only [List.mem_singleton, exists_eq_left]]
          rw [← hB]
          have hp := hpart x
          have hd := hdisj x
          constructor
          · intro h
            exact ⟨hp.mpr (Or.inl h), fun hx2 => hd ⟨h, hx2⟩⟩
          · intro h
            rcases hp.mp h.1 with h1 | h2
            · exact h1
            · exact absurd h2 h.2
      · have hws1 : other.w = s1.w := by rw [hw, hw1]
        have hws2 : other.w = s2.w := by rw [hw, hw2]
        have hplenC : C.plen < other.plen := strict_subnet_plen ho hC hw hincl hne
        cases hb1 : subnetOfBool other s1 with
        | true =>
          have hincl1 : ∀ x, other.mem x → s1.mem x := (subnetOfBool_iff ho hv1).mp hb1
          have hne1 : other ≠ s1 := fun h => hA h.symm
          have hplen1 : s1.plen < other.plen :=
            strict_subnet_plen ho hv1 hws1 hincl1 hne1
          have hfull : ¬(s1.w ≤ s1.plen) := by
            have := ho.1
            omega
          obtain ⟨r', heq', hval', hcov'⟩ := ih other s1 ho hv1 hws1 (by omega) hincl1 hne1
            (by omega)
          refine ⟨s2 :: r', ?_, ?_, ?_⟩
          · simp only [address_exclude_loop]
            rw [if_neg hA, if_neg hB]
            rw [is_subnet_of_ok hws1, ok_bind, hb1, if_pos rfl, if_neg hfull]
            rw [heq']
            rfl
          · intro n hn
            rcases List.mem_cons.mp hn with h | h
            · subst h
              exact ⟨hv2, hw2⟩
            · obtain ⟨hv, hww⟩ := hval' n h
              exact ⟨hv, by rw [hww, hw1]⟩
          · intro x
            rw [exists_mem_cons, hcov' x]
            have hp := hpart x
            have hd := hdisj x
            have hi1 := hincl1 x
            constructor
            · rintro (h | ⟨hs, hno⟩)
              · exact ⟨hp.mpr (Or.inr h), fun hox => hd ⟨hi1 hox, h⟩⟩
              · exact ⟨hp.mpr (Or.inl hs), hno⟩
            · rintro ⟨hc, hno⟩
              rcases hp.mp hc with h1 | h2
              · exact Or.inr ⟨h1, hno⟩
              · exact Or.inl h2
        | false =>
          have hb2 : subnetOfBool other s2 = true := by
            have hct : C.mem other.addr := hincl other.addr (mem_addr other)
            rcases hpart other.addr |>.mp hct with h1t | h2t
            · rcases mem_comparable ho hv1 (mem_addr other) h1t with hsub | hsup
              · rw [(subnetOfBool_iff ho hv1).mpr hsub] at hb1
                cases hb1
              · exfalso
                have hple : other.plen ≤ s1.plen :=
                  subset_plen_le hv1 ho hws1.symm hsup
                exact hA (subset_antisymm_net hws1.symm hsup (by omega))
            · rcases mem_comparable ho hv2 (mem_addr other) h2t with hsub | hsup
              · exact (subnetOfBool_iff ho hv2).mpr hsub
              · exfalso
                have hple : other.plen ≤ s2.plen :=
                  subset_plen_le hv2 ho hws2.symm hsup
                exact hB (subset_antisymm_net hws2.symm hsup (by omega))
          have hincl2 : ∀ x, other.mem x → s2.mem x := (subnetOfBool_iff ho hv2).mp hb2
          have hne2 : other ≠ s2 := fun h => hB h.symm
          have hplen2 : s2.plen < other.plen :=
            strict_subnet_plen ho hv2 hws2 hincl2 hne2
          have hfull : ¬(s2.w ≤ s2.plen) := by
            have := ho.1
            omega
          obtain ⟨r', heq', hval', hcov'⟩ := ih other s2 ho hv2 hws2 (by omega) hincl2 hne2
            (by omega)
          refine ⟨s1 :: r', ?_, ?_, ?_⟩
          · simp only [address_exclude_loop]
            rw [if_neg hA, if_neg hB]
            rw [is_subnet_of_ok hws1, ok_bind, hb1]
            rw [if_neg (show ¬(false = true) from by simp)]
            rw [is_subnet_of_ok hws2, ok_bind, hb2, if_pos rfl, if_neg hfull]
            rw [heq']
            rfl
          · intro n hn
            rcases List.mem_cons.mp hn with h | h
            · subst h
              exact ⟨hv1, hw1⟩
            · obtain ⟨hv, hww⟩ := hval' n h
              exact ⟨hv, by rw [hww, hw2]⟩
          · intro x
            rw [exists_mem_cons, hcov' x]
            have hp := hpart x
            have hd := hdisj x
            have hi2 := hincl2 x
            constructor
            · rintro (h | ⟨hs, hno⟩)
              · exact ⟨hp.mpr (Or.inl h), fun hox => hd ⟨h, hi2 hox⟩⟩
              · exact ⟨hp.mpr (Or.inr hs), hno⟩
            · rintro ⟨hc, hno⟩
              rcases hp.mp hc with h1 | h2
              · exact Or.inl h1
              · exact Or.inr ⟨h2, hno⟩

/-- `address_exclude` on a valid subnet of a valid target returns normally,
and the returned blocks cover exactly the target minus the exclusion. -/
theorem address_exclude_spec {T other : Net} (hT : T.Valid) (ho : other.Valid)
    (hw : other.w = T.w) (hsub : subnetOfBool other T = true) :
    ∃ r, address_exclude T other = .ok r
      ∧ (∀ n ∈ r, n.Valid ∧ n.w = T.w)
      ∧ (∀ x, (∃ n ∈ r, n.mem x) ↔ (T.mem x ∧ ¬ other.mem x)) := by
  by_cases hne : other = T
  · subst hne
    refine ⟨[], address_exclude_self other, ?_, ?_⟩
    · intro n hn
      cases hn
    · intro x
      constructor
      · rintro ⟨n, hn, _⟩
        cases hn
      · rintro ⟨h1, h2⟩
        exact absurd h1 h2
  · have hincl : ∀ x, other.mem x → T.mem x := (subnetOfBool_iff ho hT).mp hsub
    have hplen : T.plen < other.plen := strict_subnet_plen ho hT hw hincl hne
    have hlt : T.plen < T.w := by
      have := ho.1
      omega
    obtain ⟨r, heq, hval, hcov⟩ :=
      address_exclude_loop_spec (T.w + 1) other T ho hT hw hlt hincl hne (by omega)
    refine ⟨r, ?_, hval, hcov⟩
    unfold address_exclude
    rw [if_neg (show ¬(T.w ≠ other.w) from by omega)]
    rw [is_subnet_of_ok hw, ok_bind, hsub]
    rw [if_neg (show ¬(true = false) from by simp)]
    rw [if_neg hne]
    rw [if_neg (show ¬(T.w ≤ T.plen) from by omega)]
    exact heq

/-! ## Correctness of `collapse_addresses` -/

theorem mem_full_length {n : Net} (hp : n.plen = n.w) :
    ∀ x, n.mem x ↔ x = n.addr := by
  intro x
  rw [mem_def]
  rw [show n.w - n.plen = 0 from by omega, pow_zero]
  omega

theorem split_ips_nets_spec (W : ℕ) :
    ∀ (l : List Net) (ips : List Addr) (nets : List Net),
    (∀ n ∈ l, n.Valid ∧ n.w = W) →
    (∀ a ∈ ips, a.w = W ∧ a.val < 2 ^ W) →
    (∀ n ∈ nets, n.Valid ∧ n.w = W) →
    ∃ p, split_ips_nets l ips nets = .ok p
      ∧ (∀ a ∈ p.1, a.w = W ∧ a.val < 2 ^ W)
      ∧ (∀ n ∈ p.2, n.Valid ∧ n.w = W)
      ∧ (∀ x, ((∃ a ∈ p.1, a.val = x) ∨ (∃ n ∈ p.2, n.mem x))
          ↔ ((∃ n ∈ l, n.mem x) ∨ (∃ a ∈ ips, a.val = x) ∨ (∃ n ∈ nets, n.mem x))) := by
  intro l
  induction l with
  | nil =>
    intro ips nets _ hips hnets
    refine ⟨(ips.reverse, nets.reverse), rfl, ?_, ?_, ?_⟩
    · intro a ha
      exact hips a (List.mem_reverse.mp ha)
    · intro n hn
      exact hnets n (List.mem_reverse.mp hn)
    · intro x
      simp only [List.mem_reverse, List.not_mem_nil, false_and, exists_false, false_or]
  | cons ip rest ihl =>
    intro ips nets hl hips hnets
    obtain ⟨hipv, hipw⟩ := hl ip (List.mem_cons_self _ _)
    have hrest : ∀ n ∈ rest, n.Valid ∧ n.w = W := fun n hn => hl n (List.mem_cons_of_mem _ hn)
    by_cases hfl : ip.plen = ip.w
    · have hmem : ∀ x, ip.mem x ↔ x = ip.addr := mem_full_length hfl
      have hnewip : ∀ a ∈ (⟨ip.w, ip.addr⟩ : Addr) :: ips, a.w = W ∧ a.val < 2 ^ W := by
        intro a ha
        rcases List.mem_cons.mp ha with h | h
        · subst h
          refine ⟨hipw, ?_⟩
          have := hipv.2.1
          rw [hipw] at this
          exact this
        · exact hips a h
      cases ips with
      | nil =>
        obtain ⟨p, heq, h1, h2, h3⟩ := ihl [⟨ip.w, ip.addr⟩] nets
          hrest (by simpa using hnewip) hnets
        refine ⟨p, ?_, h1, h2, ?_⟩
        · show split_ips_nets (ip :: rest) [] nets = .ok p
          simp only [split_ips_nets]
          rw [if_pos hfl]
          exact heq
        · intro x
          rw [h3 x]
          simp only [exists_mem_cons, List.not_mem_nil, false_and, exists_false, or_false]
          have hbridge : ((⟨ip.w, ip.addr⟩ : Addr).val = x) ↔ ip.mem x := by
            rw [hmem x]
            show ip.addr = x ↔ x = ip.addr
            omega
          rw [hbridge]
          generalize (∃ n ∈ rest, Net.mem n x) = A
          generalize (∃ n ∈ nets, Net.mem n x) = C
          tauto
      | cons prev ipsRest =>
        have hprev := hips prev (List.mem_cons_self _ _)
        obtain ⟨p, heq, h1, h2, h3⟩ := ihl (⟨ip.w, ip.addr⟩ :: prev :: ipsRest) nets
          hrest hnewip hnets
        refine ⟨p, ?_, h1, h2, ?_⟩
        · show split_ips_nets (ip :: rest) (prev :: ipsRest) nets = .ok p
          simp only [split_ips_nets]
          rw [if_pos hfl]
          rw [if_neg (show ¬(prev.w ≠ ip.w) from by omega)]
          exact heq
        · intro x
          rw [h3 x]
          simp only [exists_mem_cons, List.not_mem_nil, false_and, exists_false, or_false]
          have hbridge : ((⟨ip.w, ip.addr⟩ : Addr).val = x) ↔ ip.mem x := by
            rw [hmem x]
            show ip.addr = x ↔ x = ip.addr
            omega
          rw [hbridge]
          generalize (∃ n ∈ rest, Net.mem n x) = A
          generalize (∃ a ∈ ipsRest, Addr.val a = x) = B
          generalize (∃ n ∈ nets, Net.mem n x) = C
          tauto
    · have hnewnet : ∀ n ∈ ip :: nets, n.Valid ∧ n.w = W := by
        intro n hn
        rcases List.mem_cons.mp hn with h | h
        · subst h
          exact ⟨hipv, hipw⟩
        · exact hnets n h
      cases nets with
      | nil =>
        obtain ⟨p, heq, h1, h2, h3⟩ := ihl ips [ip] hrest hips (by simpa using hnewnet)
        refine ⟨p, ?_, h1, h2, ?_⟩
        · show split_ips_nets (ip :: rest) ips [] = .ok p
          simp only [split_ips_nets]
          rw [if_neg hfl]
          exact heq
        · intro x
          rw [h3 x]
          simp only [exists_mem_cons, List.not_mem_nil, false_and, exists_false, or_false]
          generalize (∃ n ∈ rest, Net.mem n x) = A
          generalize (∃ a ∈ ips, Addr.val a = x) = B
          tauto
      | cons prev netsRest =>
        have hprev := hnets prev (List.mem_cons_self _ _)
        obtain ⟨p, heq, h1, h2, h3⟩ := ihl ips (ip :: prev :: netsRest) hrest hips hnewnet
        refine ⟨p, ?_, h1, h2, ?_⟩
        · show split_ips_nets (ip :: rest) ips (prev :: netsRest) = .ok p
          simp only [split_ips_nets]
          rw [if_neg hfl]
          rw [if_neg (show ¬(prev.w ≠ ip.w) from by omega)]
          exact heq
        · intro x
          rw [h3 x]
          simp only [exists_mem_cons, List.not_mem_nil, false_and, exists_false, or_false]
          generalize (∃ n ∈ rest, Net.mem n x) = A
          generalize (∃ a ∈ ips, Addr.val a = x) = B
          generalize (∃ n ∈ netsRest, Net.mem n x) = C
          tauto

theorem find_range_go_spec (W : ℕ) (Q : ℕ → Prop) :
    ∀ (rest : List Addr) (first last : Addr),
    first.w = W → last.w = W →
    first.val ≤ last.val →
    (∀ x, first.val ≤ x → x ≤ last.val → Q x) →
    (∀ a ∈ rest, a.w = W ∧ Q a.val) →
    (∀ pr ∈ find_range_go first last rest,
       pr.1.w = W ∧ pr.2.w = W ∧ pr.1.val ≤ pr.2.val
       ∧ (∀ x, pr.1.val ≤ x → x ≤ pr.2.val → Q x))
    ∧ (∀ x, (∃ pr ∈ find_range_go first last rest, pr.1.val ≤ x ∧ x ≤ pr.2.val)
        ↔ ((first.val ≤ x ∧ x ≤ last.val) ∨ (∃ a ∈ rest, a.val = x))) := by
  intro rest
  induction rest with
  | nil =>
    intro first last hfw hlw hfl hcov _
    constructor
    · intro pr hpr
      rw [show find_range_go first last [] = [(first, last)] from rfl,
        List.mem_singleton] at hpr
      subst hpr
      exact ⟨hfw, hlw, hfl, hcov⟩
    · intro x
      rw [show find_range_go first last [] = [(first, last)] from rfl]
      simp only [List.mem_singleton, exists_eq_left, List.not_mem_nil, false_and,
        exists_false, or_false]
  | cons ip rest2 ih =>
    intro first last hfw hlw hfl hcov hrest
    obtain ⟨hipw, hipq⟩ := hrest ip (List.mem_cons_self _ _)
    have hrest2 : ∀ a ∈ rest2, a.w = W ∧ Q a.val :=
      fun a ha => hrest a (List.mem_cons_of_mem _ ha)
    by_cases hc : ip.val ≠ last.val + 1
    · have hg : find_range_go first last (ip :: rest2)
          = (first, last) :: find_range_go ip ip rest2 := by
        simp only [find_range_go]
        rw [if_pos hc]
      obtain ⟨ih1, ih2⟩ := ih ip ip hipw hipw (le_refl _)
        (fun x h1 h2 => by
          have hx : x = ip.val := by omega
          rw [hx]
          exact hipq) hrest2
      constructor
      · intro pr hpr
        rw [hg] at hpr
        rcases List.mem_cons.mp hpr with h | h
        · subst h
          exact ⟨hfw, hlw, hfl, hcov⟩
        · exact ih1 pr h
      · intro x
        rw [hg]
        simp only [exists_mem_cons]
        rw [ih2 x]
        have hb : (ip.val ≤ x ∧ x ≤ ip.val) ↔ (Addr.val ip = x) := by omega
        rw [hb]
    · push_neg at hc
      have hg : find_range_go first last (ip :: rest2) = find_range_go first ip rest2 := by
        simp only [find_range_go]
        rw [if_neg (by omega)]
      obtain ⟨ih1, ih2⟩ := ih first ip hfw hipw (by omega)
        (fun x h1 h2 => by
          rcases Nat.lt_or_ge x (last.val + 1) with h | h
          · exact hcov x h1 (by omega)
          · have hx : x = ip.val := by omega
            rw [hx]
            exact hipq) hrest2
      constructor
      · intro pr hpr
        rw [hg] at hpr
        exact ih1 pr hpr
      · intro x
        rw [hg, ih2 x]
        simp only [exists_mem_cons]
        constructor
        · rintro (⟨ha, hb2⟩ | h)
          · rcases Nat.lt_or_ge x ip.val with hx | hx
            · exact Or.inl ⟨ha, by omega⟩
            · exact Or.inr (Or.inl (by omega))
          · exact Or.inr (Or.inr h)
        · rintro (⟨ha, hb2⟩ | h | h)
          · exact Or.inl ⟨ha, by omega⟩
          · exact Or.inl ⟨by omega, by omega⟩
          · exact Or.inr h

theorem count_righthand_le (number bits : ℕ) :
    count_righthand_zero_bits number bits ≤ bits := by
  unfold count_righthand_zero_bits
  split_ifs
  · exact le_refl bits
  · exact min_le_left _ _

theorem summarize_aux_spec :
    ∀ (g W first last : ℕ), last < 2 ^ W → last + 1 - first ≤ g →
    (∀ n ∈ summarize_aux g W first last, n.Valid ∧ n.w = W)
    ∧ (∀ x, (∃ n ∈ summarize_aux g W first last, n.mem x) ↔ (first ≤ x ∧ x ≤ last)) := by
  intro g
  induction g with
  | zero =>
    intro W first last hlt hg
    constructor
    · intro n hn
      cases hn
    · intro x
      constructor
      · rintro ⟨n, hn, _⟩
        cases hn
      · rintro ⟨h1, h2⟩
        omega
  | succ g ih =>
    intro W first last hlt hg
    by_cases hfl : first ≤ last
    case neg =>
      have hz : summarize_aux (g + 1) W first last = [] := by
        unfold summarize_aux
        rw [if_neg hfl]
      rw [hz]
      constructor
      · intro n hn
        cases hn
      · intro x
        constructor
        · rintro ⟨n, hn, _⟩
          cases hn
        · rintro ⟨h1, h2⟩
          omega
    case pos =>
      have hunf : summarize_aux (g + 1) W first last
          = (if first
                + 2 ^ min (count_righthand_zero_bits first W)
                    (bit_length (last - first + 1) - 1) - 1 = allOnes W
             then [⟨W, first,
                W - min (count_righthand_zero_bits first W)
                  (bit_length (last - first + 1) - 1)⟩]
             else ⟨W, first,
                W - min (count_righthand_zero_bits first W)
                  (bit_length (last - first + 1) - 1)⟩
              :: summarize_aux g W
                (first + 2 ^ min (count_righthand_zero_bits first W)
                  (bit_length (last - first + 1) - 1)) last) := by
        simp only [summarize_aux]
        rw [if_pos hfl]
      rw [hunf]
      set nbits := min (count_righthand_zero_bits first W)
        (bit_length (last - first + 1) - 1) with hnb
      have hd3 : nbits ≤ W :=
        le_trans (min_le_left _ _) (count_righthand_le first W)
      have hd1 : 2 ^ nbits ∣ first := by
        rcases Nat.eq_zero_or_pos first with h0 | hpos
        · rw [h0]
          exact dvd_zero _
        · exact dvd_trans (pow_dvd_pow 2 (min_le_left _ _)) (count_righthand_dvd hpos)
      have hd2 : 2 ^ nbits ≤ last - first + 1 := by
        have hmpos : 0 < last - first + 1 := by omega
        have hbl := bit_length_lower hmpos
        calc 2 ^ nbits ≤ 2 ^ (bit_length (last - first + 1) - 1) :=
          Nat.pow_le_pow_right (by omega) (min_le_right _ _)
        _ ≤ last - first + 1 := hbl
      have hp2 : 0 < 2 ^ nbits := Nat.pos_pow_of_pos _ (by omega)
      have hval : (⟨W, first, W - nbits⟩ : Net).Valid := by
        refine ⟨by dsimp; omega, by dsimp; omega, ?_⟩
        show 2 ^ (W - (W - nbits)) ∣ first
        rw [show W - (W - nbits) = nbits from by omega]
        exact hd1
      have hcover : ∀ x, (⟨W, first, W - nbits⟩ : Net).mem x
          ↔ (first ≤ x ∧ x < first + 2 ^ nbits) := by
        intro x
        rw [mem_def]
        dsimp
        rw [show W - (W - nbits) = nbits from by omega]
      by_cases hstop : first + 2 ^ nbits - 1 = allOnes W
      · rw [if_pos hstop]
        have hlast : last = first + 2 ^ nbits - 1 := by
          unfold allOnes at hstop
          omega
        constructor
        · intro n hn
          rw [List.mem_singleton] at hn
          subst hn
          exact ⟨hval, rfl⟩
        · intro x
          simp only [List.mem_singleton, exists_eq_left]
          rw [hcover x]
          omega
      · obtain ⟨ihv, ihc⟩ := ih W (first + 2 ^ nbits) last hlt (by omega)
        rw [if_neg hstop]
        constructor
        · intro n hn
          rcases List.mem_cons.mp hn with h | h
          · subst h
            exact ⟨hval, rfl⟩
          · exact ihv n h
        · intro x
          rw [exists_mem_cons, hcover x, ihc x]
          omega

theorem exists_mem_append {α : Type} (p : α → Prop) (l1 l2 : List α) :
    (∃ a ∈ l1 ++ l2, p a) ↔ (∃ a ∈ l1, p a) ∨ (∃ a ∈ l2, p a) := by
  constructor
  · rintro ⟨a, ha, hp⟩
    rcases List.mem_append.mp ha with h | h
    · exact Or.inl ⟨a, h, hp⟩
    · exact Or.inr ⟨a, h, hp⟩
  · rintro (⟨a, ha, hp⟩ | ⟨a, ha, hp⟩)
    · exact ⟨a, List.mem_append_left _ ha, hp⟩
    · exact ⟨a, List.mem_append_right _ ha, hp⟩

theorem exists_mem_perm {α : Type} (p : α → Prop) {l1 l2 : List α} (h : l1.Perm l2) :
    (∃ a ∈ l1, p a) ↔ (∃ a ∈ l2, p a) := by
  constructor <;> rintro ⟨a, ha, hp⟩
  · exact ⟨a, h.mem_iff.mp ha, hp⟩
  · exact ⟨a, h.mem_iff.mpr ha, hp⟩

theorem dict_get_perm : ∀ {d : List (Net × Net)} {k v : Net},
    dict_get d k = some v → d.Perm ((k, v) :: dict_del d k) := by
  intro d
  induction d with
  | nil =>
    intro k v h
    unfold dict_get at h
    cases h
  | cons kv rest ihd =>
    intro k v h
    by_cases hk : kv.1 == k
    · have hfind : (kv :: rest).find? (fun p => p.1 == k) = some kv :=
        List.find?_cons_of_pos _ hk
      unfold dict_get at h
      rw [hfind] at h
      have hv : v = kv.2 := by
        cases h
        rfl
      have hkv : kv = (k, v) := by
        have hk1 : kv.1 = k := by
          rw [beq_iff_eq] at hk
          exact hk
        cases kv
        simp only at hk1 hv
        rw [hk1, hv]
      have hdel : dict_del (kv :: rest) k = rest := by
        unfold dict_del
        exact List.eraseP_cons_of_pos hk
      rw [hdel, ← hkv]
    · have hfind : (kv :: rest).find? (fun p => p.1 == k) = rest.find? (fun p => p.1 == k) :=
        List.find?_cons_of_neg _ hk
      unfold dict_get at h
      rw [hfind] at h
      have h' : dict_get rest k = some v := by
        unfold dict_get
        exact h
      have hdel : dict_del (kv :: rest) k = kv :: dict_del rest k := by
        unfold dict_del
        exact List.eraseP_cons_of_neg hk
      rw [hdel]
      exact List.Perm.trans (List.Perm.cons kv (ihd h')) (List.Perm.swap (k, v) kv _)

theorem supernet_plen_le (n : Net) : n.supernet.plen ≤ n.plen := by
  unfold Net.supernet
  split_ifs
  · exact le_refl _
  · dsimp
    omega

theorem merge_loop_aux_spec (W : ℕ) :
    ∀ (g : ℕ) (stack : List Net) (d : List (Net × Net)),
    (∀ n ∈ stack, n.Valid ∧ n.w = W) →
    (∀ kv ∈ d, kv.2.Valid ∧ kv.2.w = W ∧ kv.1 = kv.2.supernet) →
    merge_weight stack d < g →
    (∀ kv ∈ merge_loop_aux g stack d, kv.2.Valid ∧ kv.2.w = W ∧ kv.1 = kv.2.supernet)
    ∧ (∀ x, (∃ kv ∈ merge_loop_aux g stack d, kv.2.mem x)
        ↔ ((∃ n ∈ stack, n.mem x) ∨ (∃ kv ∈ d, kv.2.mem x))) := by
  intro g
  induction g with
  | zero =>
    intro stack d _ _ hgas
    omega
  | succ g ih =>
    intro stack d hstack hd hgas
    cases stack with
    | nil =>
      have hz : merge_loop_aux (g + 1) [] d = d := by
        simp only [merge_loop_aux]
      rw [hz]
      refine ⟨hd, ?_⟩
      intro x
      simp only [List.not_mem_nil, false_and, exists_false, false_or]
    | cons net rest =>
      obtain ⟨hnv, hnw⟩ := hstack net (List.mem_cons_self _ _)
      have hrest : ∀ n ∈ rest, n.Valid ∧ n.w = W :=
        fun n hn => hstack n (List.mem_cons_of_mem _ hn)
      have hwsum : merge_weight (net :: rest) d
          = 2 * net.plen + 2 + merge_weight rest d := by
        unfold merge_weight
        simp only [List.map_cons, List.sum_cons]
        omega
      cases hget : dict_get d net.supernet with
      | none =>
        have hstep : merge_loop_aux (g + 1) (net :: rest) d
            = merge_loop_aux g rest (dict_set d net.supernet net) := by
          simp only [merge_loop_aux]
          rw [hget]
        have hnewd : ∀ kv ∈ dict_set d net.supernet net,
            kv.2.Valid ∧ kv.2.w = W ∧ kv.1 = kv.2.supernet := by
          intro kv hkv
          unfold dict_set at hkv
          rcases List.mem_append.mp hkv with h | h
          · exact hd kv h
          · rw [List.mem_singleton] at h
            subst h
            exact ⟨hnv, hnw, rfl⟩
        have hwnew : merge_weight rest (dict_set d net.supernet net) < g := by
          unfold merge_weight dict_set at *
          simp only [List.map_append, List.sum_append, List.map_cons, List.map_nil,
            List.sum_cons, List.sum_nil] at *
          omega
        obtain ⟨ih1, ih2⟩ := ih rest (dict_set d net.supernet net) hrest hnewd hwnew
        rw [hstep]
        refine ⟨ih1, ?_⟩
        intro x
        rw [ih2 x]
        have hds : (∃ kv ∈ dict_set d net.supernet net, Net.mem kv.2 x)
            ↔ ((∃ kv ∈ d, Net.mem kv.2 x) ∨ net.mem x) := by
          unfold dict_set
          rw [exists_mem_append (fun kv : Net × Net => Net.mem kv.2 x)]
          simp only [List.mem_singleton, exists_eq_left]
        rw [hds, exists_mem_cons (fun n => Net.mem n x)]
        generalize (∃ n ∈ rest, Net.mem n x) = A
        generalize (∃ kv ∈ d, Net.mem kv.2 x) = B
        tauto
      | some existing =>
        have hperm := dict_get_perm hget
        have hpair : (net.supernet, existing) ∈ d :=
          hperm.mem_iff.mpr (List.mem_cons_self _ _)
        obtain ⟨hev, hew, hesup⟩ := hd _ hpair
        have hesup' : net.supernet = existing.supernet := hesup
        by_cases heq : existing = net
        · have hstep : merge_loop_aux (g + 1) (net :: rest) d
              = merge_loop_aux g rest d := by
            simp only [merge_loop_aux]
            rw [hget]
            dsimp only
            rw [if_pos heq]
          have hwnew : merge_weight rest d < g := by
            rw [hwsum] at hgas
            omega
          obtain ⟨ih1, ih2⟩ := ih rest d hrest hd hwnew
          rw [hstep]
          refine ⟨ih1, ?_⟩
          intro x
          rw [ih2 x, exists_mem_cons (fun n => Net.mem n x)]
          have hnetd : net.mem x → (∃ kv ∈ d, kv.2.mem x) := by
            intro hx
            refine ⟨(net.supernet, existing), hpair, ?_⟩
            rw [heq]
            exact hx
          generalize hB : (∃ kv ∈ d, Net.mem kv.2 x) = B
          rw [hB] at hnetd
          generalize (∃ n ∈ rest, Net.mem n x) = A
          tauto
        · have hstep : merge_loop_aux (g + 1) (net :: rest) d
              = merge_loop_aux g (net.supernet :: rest) (dict_del d net.supernet) := by
            simp only [merge_loop_aux]
            rw [hget]
            dsimp only
            rw [if_neg heq]
          have hnews : ∀ n ∈ net.supernet :: rest, n.Valid ∧ n.w = W := by
            intro n hn
            rcases List.mem_cons.mp hn with h | h
            · subst h
              exact ⟨supernet_valid hnv, by rw [supernet_w, hnw]⟩
            · exact hrest n h
          have hnewd : ∀ kv ∈ dict_del d net.supernet,
              kv.2.Valid ∧ kv.2.w = W ∧ kv.1 = kv.2.supernet := by
            intro kv hkv
            have : kv ∈ d := hperm.mem_iff.mpr (List.mem_cons_of_mem _ hkv)
            exact hd kv this
          have hwnew : merge_weight (net.supernet :: rest) (dict_del d net.supernet) < g := by
            have hsum := hperm.map (fun kv => 2 * kv.2.plen + 1) |>.sum_eq
            have hsple := supernet_plen_le net
            unfold merge_weight at *
            simp only [List.map_cons, List.sum_cons] at *
            omega
          obtain ⟨ih1, ih2⟩ := ih (net.supernet :: rest) (dict_del d net.supernet)
            hnews hnewd hwnew
          rw [hstep]
          refine ⟨ih1, ?_⟩
          intro x
          rw [ih2 x, exists_mem_cons (fun n => Net.mem n x),
            exists_mem_cons (fun n => Net.mem n x),
            exists_mem_perm (fun kv : Net × Net => Net.mem kv.2 x) hperm,
            exists_mem_cons (fun kv : Net × Net => Net.mem kv.2 x)]
          have hsib := siblings_union hnv hev (fun h => heq h.symm) hesup'
          have hs := hsib x
          generalize (∃ n ∈ rest, Net.mem n x) = A
          generalize (∃ kv ∈ dict_del d net.supernet, Net.mem kv.2 x) = B
          dsimp only at hs ⊢
          tauto

theorem merge_loop_spec (W : ℕ) (l : List Net) (hl : ∀ n ∈ l, n.Valid ∧ n.w = W) :
    (∀ kv ∈ merge_loop l, kv.2.Valid ∧ kv.2.w = W)
    ∧ (∀ x, (∃ kv ∈ merge_loop l, kv.2.mem x) ↔ (∃ n ∈ l, n.mem x)) := by
  unfold merge_loop
  have hrev : ∀ n ∈ l.reverse, n.Valid ∧ n.w = W :=
    fun n hn => hl n (List.mem_reverse.mp hn)
  obtain ⟨h1, h2⟩ := merge_loop_aux_spec W (merge_weight l.reverse [] + 1) l.reverse []
    hrev (by intro kv hkv; cases hkv) (by omega)
  refine ⟨fun kv hkv => ⟨(h1 kv hkv).1, (h1 kv hkv).2.1⟩, ?_⟩
  intro x
  rw [h2 x]
  simp only [List.not_mem_nil, false_and, exists_false, or_false]
  exact exists_mem_perm _ (List.reverse_perm l)

set_option maxHeartbeats 1000000 in
theorem skip_subsumed_cover :
    ∀ (l : List Net) (last : Option Net),
    (∀ n ∈ l, n.Valid) →
    List.Sorted NetLE l →
    (match last with
     | some lst => lst.Valid ∧ ∀ n ∈ l, NetLE lst n
     | none => True) →
    (∀ n ∈ skip_subsumed last l, n ∈ l)
    ∧ (∀ x, ((∃ n ∈ skip_subsumed last l, n.mem x)
          ∨ (match last with | some lst => lst.mem x | none => False))
        ↔ ((∃ n ∈ l, n.mem x)
          ∨ (match last with | some lst => lst.mem x | none => False))) := by
  intro l
  induction l with
  | nil =>
    intro last _ _ _
    constructor
    · intro n hn
      cases last <;> cases hn
    · intro x
      cases last <;> exact Iff.rfl
  | cons net rest ihl =>
    intro last hv hsort hlast
    have hnv := hv net (List.mem_cons_self _ _)
    have hrestv : ∀ n ∈ rest, n.Valid := fun n hn => hv n (List.mem_cons_of_mem _ hn)
    have hsort' : List.Sorted NetLE rest := hsort.of_cons
    have hhead : ∀ n ∈ rest, NetLE net n := (List.sorted_cons.mp hsort).1
    cases last with
    | none =>
      have hstep : skip_subsumed none (net :: rest) = net :: skip_subsumed (some net) rest := rfl
      obtain ⟨ihsub, ihcov⟩ := ihl (some net) hrestv hsort' ⟨hnv, hhead⟩
      constructor
      · intro n hn
        rw [hstep] at hn
        rcases List.mem_cons.mp hn with h | h
        · exact h ▸ List.mem_cons_self _ _
        · exact List.mem_cons_of_mem _ (ihsub n h)
      · intro x
        rw [hstep]
        have hic := ihcov x
        dsimp only at hic ⊢
        rw [exists_mem_cons (fun n => Net.mem n x), exists_mem_cons (fun n => Net.mem n x)]
        generalize hA : (∃ n ∈ skip_subsumed (some net) rest, Net.mem n x) = A
        rw [hA] at hic
        generalize hB : (∃ n ∈ rest, Net.mem n x) = B
        rw [hB] at hic
        tauto
    | some lst =>
      obtain ⟨hlv, hle⟩ := hlast
      have hlenet : NetLE lst net := hle net (List.mem_cons_self _ _)
      by_cases hbc : net.broadcast ≤ lst.broadcast
      · have hstep : skip_subsumed (some lst) (net :: rest) = skip_subsumed (some lst) rest := by
          simp only [skip_subsumed]
          rw [if_pos hbc]
        have hsub : ∀ y, net.mem y → lst.mem y := by
          intro y hy
          have haddr : lst.addr ≤ net.addr := by
            have := NetLE_iff.mp hlenet
            omega
          have hb1 := broadcast_eq hnv
          have hb2 := broadcast_eq hlv
          rw [mem_def] at hy ⊢
          unfold Net.size at hb1 hb2
          have hp1 : (0:ℕ) < 2 ^ (net.w - net.plen) := Nat.pos_pow_of_pos _ (by omega)
          have hp2 : (0:ℕ) < 2 ^ (lst.w - lst.plen) := Nat.pos_pow_of_pos _ (by omega)
          omega
        obtain ⟨ihsub, ihcov⟩ := ihl (some lst) hrestv hsort'
          ⟨hlv, fun n hn => hle n (List.mem_cons_of_mem _ hn)⟩
        constructor
        · intro n hn
          rw [hstep] at hn
          exact List.mem_cons_of_mem _ (ihsub n hn)
        · intro x
          rw [hstep]
          have hic := ihcov x
          dsimp only at hic ⊢
          rw [exists_mem_cons (fun n => Net.mem n x)]
          have hsx := hsub x
          generalize hA : (∃ n ∈ skip_subsumed (some lst) rest, Net.mem n x) = A
          rw [hA] at hic
          generalize hB : (∃ n ∈ rest, Net.mem n x) = B
          rw [hB] at hic
          tauto
      · have hstep : skip_subsumed (some lst) (net :: rest)
            = net :: skip_subsumed (some net) rest := by
          simp only [skip_subsumed]
          rw [if_neg hbc]
        obtain ⟨ihsub, ihcov⟩ := ihl (some net) hrestv hsort' ⟨hnv, hhead⟩
        constructor
        · intro n hn
          rw [hstep] at hn
          rcases List.mem_cons.mp hn with h | h
          · exact h ▸ List.mem_cons_self _ _
          · exact List.mem_cons_of_mem _ (ihsub n h)
        · intro x
          rw [hstep]
          have hic := ihcov x
          dsimp only at hic ⊢
          rw [exists_mem_cons (fun n => Net.mem n x), exists_mem_cons (fun n => Net.mem n x)]
          generalize hA : (∃ n ∈ skip_subsumed (some net) rest, Net.mem n x) = A
          rw [hA] at hic
          generalize hB : (∃ n ∈ rest, Net.mem n x) = B
          rw [hB] at hic
          tauto

theorem collapse_internal_spec (W : ℕ) (l : List Net)
    (hl : ∀ n ∈ l, n.Valid ∧ n.w = W) :
    (∀ n ∈ collapse_addresses_internal l, n.Valid ∧ n.w = W)
    ∧ (∀ x, (∃ n ∈ collapse_addresses_internal l, n.mem x) ↔ (∃ n ∈ l, n.mem x)) := by
  unfold collapse_addresses_internal
  obtain ⟨hm1, hm2⟩ := merge_loop_spec W l hl
  have hvv : ∀ n ∈ (merge_loop l).map (fun kv => kv.2), n.Valid ∧ n.w = W := by
    intro n hn
    rw [List.mem_map] at hn
    obtain ⟨kv, hkv, hkv2⟩ := hn
    exact hkv2 ▸ hm1 kv hkv
  have hvu : ∀ x, (∃ n ∈ (merge_loop l).map (fun kv => kv.2), n.mem x)
      ↔ (∃ n ∈ l, n.mem x) := by
    intro x
    rw [← hm2 x]
    constructor
    · rintro ⟨n, hn, hmem⟩
      rw [List.mem_map] at hn
      obtain ⟨kv, hkv, hkv2⟩ := hn
      exact ⟨kv, hkv, hkv2 ▸ hmem⟩
    · rintro ⟨kv, hkv, hmem⟩
      exact ⟨kv.2, by rw [List.mem_map]; exact ⟨kv, hkv, rfl⟩, hmem⟩
  have hsperm : (sortNets ((merge_loop l).map (fun kv => kv.2))).Perm
      ((merge_loop l).map (fun kv => kv.2)) := List.perm_insertionSort NetLE _
  have hsorted : List.Sorted NetLE (sortNets ((merge_loop l).map (fun kv => kv.2))) :=
    List.sorted_insertionSort NetLE _
  have hsv : ∀ n ∈ sortNets ((merge_loop l).map (fun kv => kv.2)), n.Valid :=
    fun n hn => (hvv n (hsperm.mem_iff.mp hn)).1
  obtain ⟨hssub, hscov⟩ := skip_subsumed_cover
    (sortNets ((merge_loop l).map (fun kv => kv.2))) none hsv hsorted trivial
  constructor
  · intro n hn
    exact hvv n (hsperm.mem_iff.mp (hssub n hn))
  · intro x
    have hc := hscov x
    dsimp only at hc
    have hsv2 : (∃ n ∈ sortNets ((merge_loop l).map (fun kv => kv.2)), Net.mem n x)
        ↔ (∃ n ∈ l, Net.mem n x) := (exists_mem_perm _ hsperm).trans (hvu x)
    rw [or_false, or_false] at hc
    exact hc.trans hsv2

theorem exists_mem_concatMap {α β : Type} (f : α → List β) (p : β → Prop) :
    ∀ (l : List α), (∃ b ∈ concatMap f l, p b) ↔ (∃ a ∈ l, ∃ b ∈ f a, p b) := by
  intro l
  induction l with
  | nil =>
    constructor
    · rintro ⟨b, hb, _⟩
      cases hb
    · rintro ⟨a, ha, _⟩
      cases ha
  | cons a rest ih =>
    show (∃ b ∈ f a ++ concatMap f rest, p b) ↔ _
    rw [exists_mem_append, ih, exists_mem_cons (fun a => ∃ b ∈ f a, p b)]

theorem mem_concatMap {α β : Type} (f : α → List β) (b : β) :
    ∀ (l : List α), b ∈ concatMap f l ↔ ∃ a ∈ l, b ∈ f a := by
  intro l
  induction l with
  | nil =>
    constructor
    · intro h
      cases h
    · rintro ⟨a, ha, _⟩
      cases ha
  | cons a rest ih =>
    show b ∈ f a ++ concatMap f rest ↔ _
    rw [List.mem_append, ih, exists_mem_cons (fun a => b ∈ f a)]

/-- `collapse_addresses` on a valid same-family list returns normally, its
output is valid, same-family, and covers exactly the input's address set. -/
theorem collapse_spec (W : ℕ) (l : List Net) (hl : ∀ n ∈ l, n.Valid ∧ n.w = W) :
    ∃ r, collapse_addresses l = .ok r
      ∧ (∀ n ∈ r, n.Valid ∧ n.w = W)
      ∧ (∀ x, (∃ n ∈ r, n.mem x) ↔ (∃ n ∈ l, n.mem x)) := by
  obtain ⟨⟨ips, nets⟩, hsplit, hips, hnets, hcov⟩ := split_ips_nets_spec W l [] [] hl
    (by intro a ha; cases ha) (by intro n hn; cases hn)
  have hipsS_mem : ∀ a : Addr, a ∈ sortAddrs (dedupKeepFirst ips) ↔ a ∈ ips := by
    intro a
    have hperm : (sortAddrs (dedupKeepFirst ips)).Perm (dedupKeepFirst ips) :=
      List.perm_insertionSort AddrLE _
    rw [hperm.mem_iff, mem_dedupKeepFirst]
  have hipsS_prop : ∀ a ∈ sortAddrs (dedupKeepFirst ips), a.w = W ∧ a.val < 2 ^ W :=
    fun a ha => hips a ((hipsS_mem a).mp ha)
  have haddrs :
      (∀ n ∈ concatMap (fun fl => summarize_address_range fl.1.w fl.1.val fl.2.val)
          (find_address_range (sortAddrs (dedupKeepFirst ips))), n.Valid ∧ n.w = W)
      ∧ (∀ x, (∃ n ∈ concatMap (fun fl => summarize_address_range fl.1.w fl.1.val fl.2.val)
          (find_address_range (sortAddrs (dedupKeepFirst ips))), n.mem x)
        ↔ (∃ a ∈ ips, a.val = x)) := by
    cases hc : sortAddrs (dedupKeepFirst ips) with
    | nil =>
      constructor
      · intro n hn
        cases hn
      · intro x
        rw [show find_address_range [] = ([] : List (Addr × Addr)) from rfl]
        constructor
        · rintro ⟨n, hn, _⟩
          cases hn
        · rintro ⟨a, ha, hv⟩
          exact absurd ((hipsS_mem a).mpr ha) (by rw [hc]; intro h; cases h)
    | cons a0 rest =>
      have ha0 : a0 ∈ sortAddrs (dedupKeepFirst ips) := by
        rw [hc]
        exact List.mem_cons_self _ _
      obtain ⟨ha0w, ha0v⟩ := hipsS_prop a0 ha0
      obtain ⟨hpr, hcover⟩ := find_range_go_spec W (fun x => ∃ a ∈ ips, a.val = x) rest a0 a0
        ha0w ha0w (le_refl _)
        (fun x h1 h2 => by
          have hx : x = a0.val := by omega
          exact ⟨a0, (hipsS_mem a0).mp ha0, by omega⟩)
        (fun a ha => ⟨(hipsS_prop a (by rw [hc]; exact List.mem_cons_of_mem _ ha)).1,
          ⟨a, (hipsS_mem a).mp (by rw [hc]; exact List.mem_cons_of_mem _ ha), rfl⟩⟩)
      have hfr : find_address_range (a0 :: rest) = find_range_go a0 a0 rest := rfl
      have hsum : ∀ pr ∈ find_range_go a0 a0 rest,
          (∀ n ∈ summarize_address_range pr.1.w pr.1.val pr.2.val, n.Valid ∧ n.w = W)
          ∧ (∀ x, (∃ n ∈ summarize_address_range pr.1.w pr.1.val pr.2.val, n.mem x)
              ↔ (pr.1.val ≤ x ∧ x ≤ pr.2.val)) := by
        intro pr hpr2
        obtain ⟨hw1, hw2, hle, hq⟩ := hpr pr hpr2
        have hlast : pr.2.val < 2 ^ W := by
          obtain ⟨a, ha, hav⟩ := hq pr.2.val hle (le_refl _)
          have := (hips a ha).2
          omega
        obtain ⟨hv, hcv⟩ := summarize_aux_spec (pr.2.val + 1 - pr.1.val) pr.1.w
          pr.1.val pr.2.val (by rw [hw1]; exact hlast) (le_refl _)
        unfold summarize_address_range
        refine ⟨?_, hcv⟩
        intro n hn
        obtain ⟨h1, h2⟩ := hv n hn
        exact ⟨h1, by rw [h2, hw1]⟩
      constructor
      · intro n hn
        rw [mem_concatMap] at hn
        obtain ⟨pr, hpr2, hm⟩ := hn
        rw [hfr] at hpr2
        exact (hsum pr hpr2).1 n hm
      · intro x
        rw [hfr, exists_mem_concatMap
          (fun fl : Addr × Addr => summarize_address_range fl.1.w fl.1.val fl.2.val)
          (fun n => Net.mem n x)]
        have hcx := hcover x
        constructor
        · rintro ⟨pr, hpr2, hm⟩
          rw [(hsum pr hpr2).2 x] at hm
          obtain ⟨a, ha, hav⟩ := (hpr pr hpr2).2.2.2 x hm.1 hm.2
          exact ⟨a, ha, hav⟩
        · intro hx
          have hx2 : (a0.val ≤ x ∧ x ≤ a0.val) ∨ (∃ a ∈ rest, a.val = x) := by
            obtain ⟨a, ha, hav⟩ := hx
            by_cases hmem2 : a ∈ sortAddrs (dedupKeepFirst ips)
            · rw [hc] at hmem2
              rcases List.mem_cons.mp hmem2 with h | h
              · subst h
                exact Or.inl ⟨by omega, by omega⟩
              · exact Or.inr ⟨a, h, hav⟩
            · exact absurd ((hipsS_mem a).mpr ha) hmem2
          obtain ⟨pr, hpr2, hin⟩ := (hcx.mpr hx2)
          refine ⟨pr, hpr2, ?_⟩
          rw [(hsum pr hpr2).2 x]
          exact hin
  obtain ⟨hav, hau⟩ := haddrs
  have hall : ∀ n ∈ concatMap (fun fl => summarize_address_range fl.1.w fl.1.val fl.2.val)
      (find_address_range (sortAddrs (dedupKeepFirst ips))) ++ nets, n.Valid ∧ n.w = W := by
    intro n hn
    rcases List.mem_append.mp hn with h | h
    · exact hav n h
    · exact hnets n h
  obtain ⟨hciv, hcic⟩ := collapse_internal_spec W _ hall
  refine ⟨collapse_addresses_internal
    (concatMap (fun fl => summarize_address_range fl.1.w fl.1.val fl.2.val)
      (find_address_range (sortAddrs (dedupKeepFirst ips))) ++ nets), ?_, hciv, ?_⟩
  · unfold collapse_addresses
    rw [hsplit, ok_bind]
  · intro x
    rw [hcic x, exists_mem_append (fun n => Net.mem n x), hau x]
    have hcx := hcov x
    simp only [List.not_mem_nil, false_and, exists_false, or_false] at hcx
    exact hcx

/-- The target-splitting loop of `exclude_addresses`: totality, membership and
coverage of the accumulated block list. -/
theorem exclude_fold_spec (T : Net) (hT : T.Valid) :
    ∀ (excl : List Net) (acc : List Net),
    (∀ a ∈ excl, a.Valid ∧ a.w = T.w) →
    (∀ n ∈ acc, n.Valid ∧ n.w = T.w) →
    ∃ r, (excl.foldlM (fun (acc : List Net) address => do
        let sub ← is_subnet_of address T
        if sub then do
          let blocks ← address_exclude T address
          pure (acc ++ blocks)
        else pure acc) acc) = .ok r
      ∧ (∀ n ∈ acc, n ∈ r)
      ∧ (∀ n ∈ r, n.Valid ∧ n.w = T.w)
      ∧ (∀ n ∈ r, n ∈ acc ∨ (∀ y, n.mem y → T.mem y))
      ∧ (∀ x, (∃ n ∈ r, n.mem x) ↔ ((∃ n ∈ acc, n.mem x)
          ∨ (∃ a ∈ excl, subnetOfBool a T = true ∧ T.mem x ∧ ¬ a.mem x)))
      ∧ (∀ a ∈ excl, subnetOfBool a T = true →
          ∀ x, T.mem x → ¬ a.mem x → ∃ c ∈ r, c.mem x ∧ (∀ y, c.mem y → ¬ a.mem y)) := by
  intro excl
  induction excl with
  | nil =>
    intro acc _ hacc
    refine ⟨acc, rfl, fun n hn => hn, hacc, fun n hn => Or.inl hn, ?_, ?_⟩
    · intro x
      simp only [List.not_mem_nil, false_and, exists_false, or_false]
    · intro a ha
      cases ha
  | cons a excl' ih =>
    intro acc hexcl hacc
    obtain ⟨hav, haw⟩ := hexcl a (List.mem_cons_self _ _)
    have hexcl' : ∀ b ∈ excl', b.Valid ∧ b.w = T.w :=
      fun b hb => hexcl b (List.mem_cons_of_mem _ hb)
    cases hsub : subnetOfBool a T with
    | false =>
      obtain ⟨r, heq, hmono, hval, hinT, hcov, hwit⟩ := ih acc hexcl' hacc
      refine ⟨r, ?_, hmono, hval, hinT, ?_, ?_⟩
      · rw [List.foldlM_cons, is_subnet_of_ok haw, ok_bind, hsub]
        rw [if_neg (show ¬(false = true) from by simp)]
        rw [show (pure acc : Except String (List Net)) = Except.ok acc from rfl, ok_bind]
        exact heq
      · intro x
        rw [hcov x, exists_mem_cons
          (fun a => subnetOfBool a T = true ∧ T.mem x ∧ ¬ a.mem x)]
        rw [hsub]
        simp only [Bool.false_eq_true, false_and, false_or]
      · intro b hb hbsub
        rcases List.mem_cons.mp hb with h | h
        · rw [h] at hbsub
          rw [hbsub] at hsub
          cases hsub
        · exact hwit b h hbsub
    | true =>
      obtain ⟨blocks, heqb, hbval, hbcov⟩ := address_exclude_spec hT hav haw hsub
      have hacc' : ∀ n ∈ acc ++ blocks, n.Valid ∧ n.w = T.w := by
        intro n hn
        rcases List.mem_append.mp hn with h | h
        · exact hacc n h
        · exact hbval n h
      obtain ⟨r, heq, hmono, hval, hinT, hcov, hwit⟩ := ih (acc ++ blocks) hexcl' hacc'
      have hbdisj : ∀ c ∈ blocks, ∀ y, c.mem y → T.mem y ∧ ¬ a.mem y := by
        intro c hc y hy
        exact (hbcov y).mp ⟨c, hc, hy⟩
      refine ⟨r, ?_, ?_, hval, ?_, ?_, ?_⟩
      · rw [List.foldlM_cons, is_subnet_of_ok haw, ok_bind, hsub]
        rw [if_pos rfl]
        rw [heqb, ok_bind]
        rw [show (pure (acc ++ blocks) : Except String (List Net))
          = Except.ok (acc ++ blocks) from rfl, ok_bind]
        exact heq
      · intro n hn
        exact hmono n (List.mem_append_left _ hn)
      · intro n hn
        rcases hinT n hn with h | h
        · rcases List.mem_append.mp h with h2 | h2
          · exact Or.inl h2
          · exact Or.inr (fun y hy => (hbdisj n h2 y hy).1)
        · exact Or.inr h
      · intro x
        rw [hcov x, exists_mem_append (fun n => Net.mem n x),
          exists_mem_cons (fun a => subnetOfBool a T = true ∧ T.mem x ∧ ¬ a.mem x)]
        have hbx := hbcov x
        rw [hsub]
        simp only [true_and]
        generalize (∃ n ∈ acc, Net.mem n x) = A
        generalize hB : (∃ n ∈ blocks, Net.mem n x) = B at hbx
        generalize (∃ a ∈ excl', subnetOfBool a T = true ∧ T.mem x ∧ ¬ Net.mem a x) = C
        tauto
      · intro b hb hbsub x hx1 hx2
        rcases List.mem_cons.mp hb with h | h
        · subst h
          obtain ⟨c, hc, hcx⟩ := (hbcov x).mpr ⟨hx1, hx2⟩
          refine ⟨c, hmono c (List.mem_append_right _ hc), hcx, ?_⟩
          intro y hy
          exact (hbdisj c hc y hy).2
        · exact hwit b h hbsub x hx1 hx2

theorem remove_inner_spec (W : ℕ) (network : Net) (hnw : network.w = W) :
    ∀ (excl : List Net) (acc : List Net), (∀ a ∈ excl, a.w = W) →
    ∃ r, (excl.foldlM (fun (acc2 : List Net) address => do
        let s1 ← is_subnet_of address network
        if s1 then pure (acc2 ++ [network])
        else do
          let s2 ← is_subnet_of network address
          if s2 then pure (acc2 ++ [network]) else pure acc2) acc) = .ok r
      ∧ (∀ m, m ∈ r ↔ (m ∈ acc ∨ (m = network ∧ ∃ a ∈ excl,
          subnetOfBool a network = true ∨ subnetOfBool network a = true))) := by
  intro excl
  induction excl with
  | nil =>
    intro acc _
    refine ⟨acc, rfl, ?_⟩
    intro m
    simp only [List.not_mem_nil, false_and, exists_false, and_false, or_false]
  | cons a excl' ih =>
    intro acc hexcl
    have haw : a.w = W := hexcl a (List.mem_cons_self _ _)
    have hexcl' : ∀ b ∈ excl', b.w = W := fun b hb => hexcl b (List.mem_cons_of_mem _ hb)
    have hw1 : a.w = network.w := by rw [haw, hnw]
    have hw2 : network.w = a.w := hw1.symm
    cases hs1 : subnetOfBool a network with
    | true =>
      obtain ⟨r, heq, hchar⟩ := ih (acc ++ [network]) hexcl'
      refine ⟨r, ?_, ?_⟩
      · rw [List.foldlM_cons, is_subnet_of_ok hw1, ok_bind, hs1, if_pos rfl]
        rw [show (pure (acc ++ [network]) : Except String (List Net))
          = Except.ok (acc ++ [network]) from rfl, ok_bind]
        exact heq
      · intro m
        rw [hchar m, exists_mem_cons
          (fun a => subnetOfBool a network = true ∨ subnetOfBool network a = true)]
        rw [List.mem_append, List.mem_singleton]
        constructor
        · rintro ((h | h) | ⟨h1, h2⟩)
          · exact Or.inl h
          · exact Or.inr ⟨h, Or.inl (Or.inl hs1)⟩
          · exact Or.inr ⟨h1, Or.inr h2⟩
        · rintro (h | ⟨h1, _⟩)
          · exact Or.inl (Or.inl h)
          · exact Or.inl (Or.inr h1)
    | false =>
      cases hs2 : subnetOfBool network a with
      | true =>
        obtain ⟨r, heq, hchar⟩ := ih (acc ++ [network]) hexcl'
        refine ⟨r, ?_, ?_⟩
        · rw [List.foldlM_cons, is_subnet_of_ok hw1, ok_bind, hs1]
          rw [if_neg (show ¬(false = true) from by simp)]
          rw [is_subnet_of_ok hw2, ok_bind, hs2, if_pos rfl]
          rw [show (pure (acc ++ [network]) : Except String (List Net))
            = Except.ok (acc ++ [network]) from rfl, ok_bind]
          exact heq
        · intro m
          rw [hchar m, exists_mem_cons
            (fun a => subnetOfBool a network = true ∨ subnetOfBool network a = true)]
          rw [List.mem_append, List.mem_singleton]
          constructor
          · rintro ((h | h) | ⟨h1, h2⟩)
            · exact Or.inl h
            · exact Or.inr ⟨h, Or.inl (Or.inr hs2)⟩
            · exact Or.inr ⟨h1, Or.inr h2⟩
          · rintro (h | ⟨h1, _⟩)
            · exact Or.inl (Or.inl h)
            · exact Or.inl (Or.inr h1)
      | false =>
        obtain ⟨r, heq, hchar⟩ := ih acc hexcl'
        refine ⟨r, ?_, ?_⟩
        · rw [List.foldlM_cons, is_subnet_of_ok hw1, ok_bind, hs1]
          rw [if_neg (show ¬(false = true) from by simp)]
          rw [is_subnet_of_ok hw2, ok_bind, hs2]
          rw [if_neg (show ¬(false = true) from by simp)]
          rw [show (pure acc : Except String (List Net)) = Except.ok acc from rfl, ok_bind]
          exact heq
        · intro m
          rw [hchar m, exists_mem_cons
            (fun a => subnetOfBool a network = true ∨ subnetOfBool network a = true)]
          rw [hs1, hs2]
          simp only [Bool.false_eq_true, or_self, false_or]

theorem remove_outer_spec (W : ℕ) (excl : List Net) (hexcl : ∀ a ∈ excl, a.w = W) :
    ∀ (nets : List Net) (acc : List Net), (∀ n ∈ nets, n.w = W) →
    ∃ r, (nets.foldlM (fun (acc : List Net) network =>
        excl.foldlM (fun (acc2 : List Net) address => do
          let s1 ← is_subnet_of address network
          if s1 then pure (acc2 ++ [network])
          else do
            let s2 ← is_subnet_of network address
            if s2 then pure (acc2 ++ [network]) else pure acc2) acc) acc) = .ok r
      ∧ (∀ m, m ∈ r ↔ (m ∈ acc ∨ (m ∈ nets ∧ ∃ a ∈ excl,
          subnetOfBool a m = true ∨ subnetOfBool m a = true))) := by
  intro nets
  induction nets with
  | nil =>
    intro acc _
    refine ⟨acc, rfl, ?_⟩
    intro m
    simp only [List.not_mem_nil, false_and, or_false]
  | cons network nets' ih =>
    intro acc hnets
    have hnw : network.w = W := hnets network (List.mem_cons_self _ _)
    have hnets' : ∀ n ∈ nets', n.w = W := fun n hn => hnets n (List.mem_cons_of_mem _ hn)
    obtain ⟨r1, heq1, hchar1⟩ := remove_inner_spec W network hnw excl acc hexcl
    obtain ⟨r, heq, hchar⟩ := ih r1 hnets'
    refine ⟨r, ?_, ?_⟩
    · rw [List.foldlM_cons, heq1, ok_bind]
      exact heq
    · intro m
      rw [hchar m, hchar1 m, List.mem_cons]
      constructor
      · rintro ((h | ⟨h1, h2⟩) | ⟨h1, h2⟩)
        · exact Or.inl h
        · subst h1
          exact Or.inr ⟨Or.inl rfl, h2⟩
        · exact Or.inr ⟨Or.inr h1, h2⟩
      · rintro (h | ⟨h1 | h1, h2⟩)
        · exact Or.inl (Or.inl h)
        · subst h1
          exact Or.inl (Or.inr ⟨rfl, h2⟩)
        · exact Or.inr ⟨h1, h2⟩

theorem erase_fold_spec : ∀ (rem : List Net) (nets : List Net), nets.Nodup →
    ((rem.foldl (fun (nets : List Net) network =>
        if network ∈ nets then nets.erase network else nets) nets).Nodup
    ∧ (∀ n, n ∈ rem.foldl (fun (nets : List Net) network =>
        if network ∈ nets then nets.erase network else nets) nets
      ↔ (n ∈ nets ∧ n ∉ rem))) := by
  intro rem
  induction rem with
  | nil =>
    intro nets hnd
    refine ⟨hnd, ?_⟩
    intro n
    simp only [List.foldl_nil, List.not_mem_nil, not_false_iff, and_true]
  | cons network rem' ih =>
    intro nets hnd
    rw [List.foldl_cons]
    by_cases hmem : network ∈ nets
    · rw [if_pos hmem]
      obtain ⟨ih1, ih2⟩ := ih (nets.erase network) (hnd.erase _)
      refine ⟨ih1, ?_⟩
      intro n
      rw [ih2 n, List.Nodup.mem_erase_iff hnd]
      simp only [List.mem_cons]
      constructor
      · rintro ⟨⟨h1, h2⟩, h3⟩
        exact ⟨h2, fun hc => hc.elim h1 h3⟩
      · rintro ⟨h1, h2⟩
        exact ⟨⟨fun he => h2 (Or.inl he), h1⟩, fun hc => h2 (Or.inr hc)⟩
    · rw [if_neg hmem]
      obtain ⟨ih1, ih2⟩ := ih nets hnd
      refine ⟨ih1, ?_⟩
      intro n
      rw [ih2 n]
      simp only [List.mem_cons]
      constructor
      · rintro ⟨h1, h2⟩
        exact ⟨h1, fun hc => hc.elim (fun he => hmem (he ▸ h1)) h2⟩
      · rintro ⟨h1, h2⟩
        exact ⟨h1, fun hc => h2 (Or.inr hc)⟩

theorem exists_max_plen (x : ℕ) : ∀ (L : List Net), (∃ n ∈ L, n.mem x) →
    ∃ b ∈ L, b.mem x ∧ ∀ c ∈ L, c.mem x → c.plen ≤ b.plen := by
  intro L
  induction L with
  | nil =>
    rintro ⟨n, hn, _⟩
    cases hn
  | cons h t ih =>
    intro hex
    by_cases hh : h.mem x
    · by_cases ht : ∃ n ∈ t, n.mem x
      · obtain ⟨b, hb, hbx, hmax⟩ := ih ht
        by_cases hcmp : b.plen ≤ h.plen
        · refine ⟨h, List.mem_cons_self _ _, hh, ?_⟩
          intro c hc hcx
          rcases List.mem_cons.mp hc with h1 | h1
          · subst h1
            exact le_refl _
          · exact le_trans (hmax c h1 hcx) hcmp
        · refine ⟨b, List.mem_cons_of_mem _ hb, hbx, ?_⟩
          intro c hc hcx
          rcases List.mem_cons.mp hc with h1 | h1
          · subst h1
            omega
          · exact hmax c h1 hcx
      · refine ⟨h, List.mem_cons_self _ _, hh, ?_⟩
        intro c hc hcx
        rcases List.mem_cons.mp hc with h1 | h1
        · subst h1
          exact le_refl _
        · exact absurd ⟨c, h1, hcx⟩ ht
    · obtain ⟨n, hn, hnx⟩ := hex
      have hnt : n ∈ t := by
        rcases List.mem_cons.mp hn with h1 | h1
        · subst h1
          exact absurd hnx hh
        · exact h1
      obtain ⟨b, hb, hbx, hmax⟩ := ih ⟨n, hnt, hnx⟩
      refine ⟨b, List.mem_cons_of_mem _ hb, hbx, ?_⟩
      intro c hc hcx
      rcases List.mem_cons.mp hc with h1 | h1
      · subst h1
        exact absurd hcx hh
      · exact hmax c h1 hcx

/-- Master specification of the engine: it returns normally on every valid
same-family input; its output lies inside the target and avoids every
exclusion; and when the exclusions are subnets of the target (and there is at
least one), the output together with the exclusions covers the target. -/
theorem exclude_addresses_spec (T : Net) (E : List Net) (hT : T.Valid)
    (hE : ∀ a ∈ E, a.Valid ∧ a.w = T.w) :
    ∃ r, exclude_addresses T E = .ok r
      ∧ (∀ n ∈ r, n.Valid ∧ n.w = T.w)
      ∧ (∀ x, (∃ n ∈ r, n.mem x) → (T.mem x ∧ ¬(∃ a ∈ E, a.mem x)))
      ∧ (E ≠ [] → (∀ a ∈ E, subnetOfBool a T = true) →
          ∀ x, T.mem x → (∃ a ∈ E, a.mem x) ∨ (∃ n ∈ r, n.mem x)) := by
  obtain ⟨collapsedE, hceq, hcval, hccov⟩ := collapse_spec T.w E hE
  have hsperm : (sortNets collapsedE).Perm collapsedE := List.perm_insertionSort NetLE _
  have hsval : ∀ a ∈ sortNets collapsedE, a.Valid ∧ a.w = T.w :=
    fun a ha => hcval a (hsperm.mem_iff.mp ha)
  obtain ⟨networks, hneq, hnmono, hnval, hninT, hncov, hnwit⟩ :=
    exclude_fold_spec T hT (sortNets collapsedE) [] hsval (by intro n hn; cases hn)
  have hn2perm : (sortNets (dedupKeepFirst networks)).Perm (dedupKeepFirst networks) :=
    List.perm_insertionSort NetLE _
  have hn2mem : ∀ n : Net, n ∈ sortNets (dedupKeepFirst networks) ↔ n ∈ networks := by
    intro n
    rw [hn2perm.mem_iff, mem_dedupKeepFirst]
  have hn2val : ∀ n ∈ sortNets (dedupKeepFirst networks), n.Valid ∧ n.w = T.w :=
    fun n hn => hnval n ((hn2mem n).mp hn)
  have hn2nodup : (sortNets (dedupKeepFirst networks)).Nodup :=
    hn2perm.nodup_iff.mpr (nodup_dedupKeepFirst _)
  obtain ⟨toRem, hrq, hrchar⟩ := remove_outer_spec T.w (sortNets collapsedE)
    (fun a ha => (hsval a ha).2) (sortNets (dedupKeepFirst networks)) []
    (fun n hn => (hn2val n hn).2)
  obtain ⟨hn3nodup, hn3mem⟩ := erase_fold_spec toRem (sortNets (dedupKeepFirst networks))
    hn2nodup
  have hn3val : ∀ n ∈ toRem.foldl (fun (nets : List Net) network =>
      if network ∈ nets then nets.erase network else nets)
      (sortNets (dedupKeepFirst networks)), n.Valid ∧ n.w = T.w :=
    fun n hn => hn2val n ((hn3mem n).mp hn).1
  obtain ⟨r, hreq, hrval, hrcov⟩ := collapse_spec T.w _ hn3val
  refine ⟨r, ?_, hrval, ?_, ?_⟩
  · unfold exclude_addresses
    rw [hceq, ok_bind]
    dsimp only
    rw [hneq, ok_bind]
    rw [hrq, ok_bind]
    exact hreq
  · intro x hx
    rw [hrcov x] at hx
    obtain ⟨n, hn3, hnx⟩ := hx
    have hn2 : n ∈ sortNets (dedupKeepFirst networks) := ((hn3mem n).mp hn3).1
    have hnrem : n ∉ toRem := ((hn3mem n).mp hn3).2
    have hnet : n ∈ networks := (hn2mem n).mp hn2
    have hT1 : T.mem x := by
      rcases hninT n hnet with h | h
      · cases h
      · exact h x hnx
    refine ⟨hT1, ?_⟩
    rintro ⟨a, haE, hax⟩
    obtain ⟨ac, hacE, hacx⟩ := (hccov x).mpr ⟨a, haE, hax⟩
    have hacS : ac ∈ sortNets collapsedE := hsperm.mem_iff.mpr hacE
    obtain ⟨hacv, hacw⟩ := hcval ac hacE
    obtain ⟨hnv, hnw⟩ := hnval n hnet
    rcases mem_comparable hnv hacv hnx hacx with hsub | hsup
    · apply hnrem
      rw [hrchar n]
      exact Or.inr ⟨hn2, ac, hacS, Or.inr ((subnetOfBool_iff hnv hacv).mpr hsub)⟩
    · apply hnrem
      rw [hrchar n]
      exact Or.inr ⟨hn2, ac, hacS, Or.inl ((subnetOfBool_iff hacv hnv).mpr hsup)⟩
  · intro hEne hstrict x hTx
    by_cases hex : ∃ a ∈ E, a.mem x
    · exact Or.inl hex
    · right
      have hncx : ∀ ac ∈ collapsedE, ¬ ac.mem x :=
        fun ac h1 h2 => hex ((hccov x).mp ⟨ac, h1, h2⟩)
      have hcsub : ∀ ac ∈ collapsedE, subnetOfBool ac T = true := by
        intro ac hac
        obtain ⟨hacv, hacw⟩ := hcval ac hac
        refine (subnetOfBool_iff hacv hT).mpr ?_
        intro y hy
        obtain ⟨a, haE, hay⟩ := (hccov y).mp ⟨ac, hac, hy⟩
        obtain ⟨hav, haw⟩ := hE a haE
        exact (subnetOfBool_iff hav hT).mp (hstrict a haE) y hay
      obtain ⟨a1, ha1⟩ : ∃ a1, a1 ∈ E := by
        cases E with
        | nil => exact absurd rfl hEne
        | cons a1 E' => exact ⟨a1, List.mem_cons_self _ _⟩
      obtain ⟨acw, hacwE, _⟩ := (hccov a1.addr).mpr ⟨a1, ha1, mem_addr a1⟩
      have hxnets : ∃ n ∈ networks, n.mem x := by
        rw [hncov x]
        refine Or.inr ⟨acw, hsperm.mem_iff.mpr hacwE, hcsub acw hacwE, hTx,
          hncx acw hacwE⟩
      obtain ⟨b, hb2, hbx, hbmax⟩ := exists_max_plen x (sortNets (dedupKeepFirst networks))
        (by obtain ⟨n, hn, hx2⟩ := hxnets; exact ⟨n, (hn2mem n).mpr hn, hx2⟩)
      obtain ⟨hbv, hbw⟩ := hn2val b hb2
      have hbsurv : b ∉ toRem := by
        intro hbrem
        rw [hrchar b] at hbrem
        rcases hbrem with h | ⟨_, ac, hacS, hcond⟩
        · cases h
        · obtain ⟨hacv, hacw⟩ := hsval ac hacS
          have hacmem : ac ∈ collapsedE := hsperm.mem_iff.mp hacS
          rcases hcond with hc1 | hc2
          · have hacb : ∀ y, ac.mem y → b.mem y := (subnetOfBool_iff hacv hbv).mp hc1
            obtain ⟨c, hcnet, hcx, hcdisj⟩ := hnwit ac hacS (hcsub ac hacmem) x hTx
              (hncx ac hacmem)
            have hc2' : c ∈ sortNets (dedupKeepFirst networks) := (hn2mem c).mpr hcnet
            have hcple : c.plen ≤ b.plen := hbmax c hc2' hcx
            obtain ⟨hcv, hcw⟩ := hn2val c hc2'
            have hbc : ∀ y, b.mem y → c.mem y := by
              rcases mem_comparable hbv hcv hbx hcx with h | h
              · exact h
              · have hple2 : b.plen ≤ c.plen :=
                  subset_plen_le hcv hbv (hcw.trans hbw.symm) h
                have hcb : c = b := subset_antisymm_net (hcw.trans hbw.symm) h (by omega)
                subst hcb
                exact fun y hy => hy
            exact hcdisj ac.addr (hbc ac.addr (hacb ac.addr (mem_addr ac))) (mem_addr ac)
          · have hbac : ∀ y, b.mem y → ac.mem y := (subnetOfBool_iff hbv hacv).mp hc2
            exact hncx ac hacmem (hbac x hbx)
      rw [hrcov x]
      exact ⟨b, (hn3mem b).mpr ⟨hb2, hbsurv⟩, hbx⟩

/-- C10: the engine is total — for every valid target and every finite list
of valid networks of the same address family (equal to, supernets of, or
disjoint from the target included), `exclude_addresses` returns normally:
exclusions that are not subnets of the target are silently skipped. -/
theorem c10_totality (T : Net) (E : List Net) (hT : T.Valid)
    (hE : ∀ a ∈ E, a.Valid ∧ a.w = T.w) :
    ∃ r, exclude_addresses T E = .ok r := by
  obtain ⟨r, heq, -, -, -⟩ := exclude_addresses_spec T E hT hE
  exact ⟨r, heq⟩

/-- C10 witness: the engine returns normally on a supernet (`0.0.0.0/0`), the
target itself (`192.168.0.0/24`) and a disjoint network (`10.0.0.0/8`). -/
theorem c10_witness : ∃ r, exclude_addresses T24 [⟨32, 0, 0⟩, T24, T8] = .ok r :=
  c10_totality T24 [⟨32, 0, 0⟩, T24, T8] (by decide) (by decide)

/-- C1 counterexample: with the empty exclusion set (vacuously a set of
strict subnets of the target) the engine returns the empty sequence, so the
address `192.168.0.0` of the target is covered neither by the result nor by
the exclusions — the claimed exact-partition property fails at `E = ∅`. -/
theorem c1_counterexample :
    exclude_addresses T24 [] = .ok []
    ∧ T24.mem 3232235520
    ∧ ¬((∃ n ∈ ([] : List Net), n.mem 3232235520)
        ∨ (∃ a ∈ ([] : List Net), a.mem 3232235520)) := by
  refine ⟨by decide, by decide, ?_⟩
  rintro (⟨n, hn, _⟩ | ⟨a, ha, _⟩)
  · cases hn
  · cases ha

/-- C1 (amended): for every valid target `T` and nonempty list of valid
same-family exclusions that are subnets of `T`, the engine succeeds and its
result partitions `T` exactly with the exclusions: every address of `T` is in
the result or in an exclusion, and the result overlaps no exclusion. -/
theorem c1_partition (T : Net) (E : List Net) (hT : T.Valid)
    (hE : ∀ a ∈ E, a.Valid ∧ a.w = T.w ∧ subnetOfBool a T = true) (hne : E ≠ []) :
    ∃ r, exclude_addresses T E = .ok r
      ∧ (∀ x, T.mem x ↔ ((∃ n ∈ r, n.mem x) ∨ (∃ a ∈ E, a.mem x)))
      ∧ (∀ x, ¬((∃ n ∈ r, n.mem x) ∧ (∃ a ∈ E, a.mem x))) := by
  obtain ⟨r, heq, hval, hdisj, hcover⟩ := exclude_addresses_spec T E hT
    (fun a ha => ⟨(hE a ha).1, (hE a ha).2.1⟩)
  refine ⟨r, heq, ?_, ?_⟩
  · intro x
    constructor
    · intro hx
      rcases hcover hne (fun a ha => (hE a ha).2.2) x hx with h | h
      · exact Or.inr h
      · exact Or.inl h
    · rintro (h | ⟨a, ha, hax⟩)
      · exact (hdisj x h).1
      · obtain ⟨hav, haw, hasub⟩ := hE a ha
        exact (subnetOfBool_iff hav hT).mp hasub x hax
  · rintro x ⟨h1, h2⟩
    exact (hdisj x h1).2 h2

/-- C1 witness: for `10.0.0.0/8` minus `10.1.0.0/16` the result and the
exclusion partition the target exactly. -/
theorem c1_witness : ∃ r, exclude_addresses T8 [E16] = .ok r
    ∧ (∀ x, T8.mem x ↔ ((∃ n ∈ r, n.mem x) ∨ (∃ a ∈ [E16], a.mem x)))
    ∧ (∀ x, ¬((∃ n ∈ r, n.mem x) ∧ (∃ a ∈ [E16], a.mem x))) :=
  c1_partition T8 [E16] (by decide) (by decide) (by decide)

/-! ## Canonical form of `_collapse_addresses_internal` output (claim C6) -/

theorem error_bind {α β : Type} (e : String) (f : α → Except String β) :
    (do
      let y ← Except.error e
      f y) = Except.error e := rfl

theorem merge_loop_aux_inv : ∀ (g : ℕ) (stack : List Net) (d : List (Net × Net)),
    (∀ kv ∈ d, kv.1 = kv.2.supernet) → ((d.map (fun kv => kv.1)).Nodup) →
    (∀ kv ∈ merge_loop_aux g stack d, kv.1 = kv.2.supernet)
    ∧ ((merge_loop_aux g stack d).map (fun kv => kv.1)).Nodup := by
  intro g
  induction g with
  | zero =>
    intro stack d h1 h2
    exact ⟨h1, h2⟩
  | succ g ih =>
    intro stack d h1 h2
    cases stack with
    | nil =>
      rw [show merge_loop_aux (g + 1) [] d = d from by simp only [merge_loop_aux]]
      exact ⟨h1, h2⟩
    | cons net rest =>
      cases hget : dict_get d net.supernet with
      | none =>
        have hstep : merge_loop_aux (g + 1) (net :: rest) d
            = merge_loop_aux g rest (dict_set d net.supernet net) := by
          simp only [merge_loop_aux]
          rw [hget]
        rw [hstep]
        have hnotin : ∀ kv ∈ d, kv.1 ≠ net.supernet := by
          intro kv hkv hcon
          have : d.find? (fun p => p.1 == net.supernet) = none := by
            unfold dict_get at hget
            cases hf : d.find? (fun p => p.1 == net.supernet) with
            | none => rfl
            | some kv2 => rw [hf] at hget; cases hget
          have := List.find?_eq_none.mp this kv hkv
          simp only [beq_iff_eq] at this
          exact this hcon
        refine ih rest (dict_set d net.supernet net) ?_ ?_
        · intro kv hkv
          unfold dict_set at hkv
          rcases List.mem_append.mp hkv with h | h
          · exact h1 kv h
          · rw [List.mem_singleton] at h
            subst h
            rfl
        · unfold dict_set
          rw [List.map_append]
          simp only [List.map_cons, List.map_nil]
          rw [List.nodup_append]
          refine ⟨h2, List.nodup_singleton _, ?_⟩
          intro k hk hcon
          rw [List.mem_singleton] at hcon
          rw [List.mem_map] at hk
          obtain ⟨kv, hkv, hkv1⟩ := hk
          exact hnotin kv hkv (by rw [hkv1, hcon])
      | some existing =>
        by_cases heq : existing = net
        · have hstep : merge_loop_aux (g + 1) (net :: rest) d = merge_loop_aux g rest d := by
            simp only [merge_loop_aux]
            rw [hget]
            dsimp only
            rw [if_pos heq]
          rw [hstep]
          exact ih rest d h1 h2
        · have hstep : merge_loop_aux (g + 1) (net :: rest) d
              = merge_loop_aux g (net.supernet :: rest) (dict_del d net.supernet) := by
            simp only [merge_loop_aux]
            rw [hget]
            dsimp only
            rw [if_neg heq]
          rw [hstep]
          have hsl : (dict_del d net.supernet).Sublist d := List.eraseP_sublist _
          refine ih (net.supernet :: rest) (dict_del d net.supernet) ?_ ?_
          · intro kv hkv
            exact h1 kv (hsl.mem hkv)
          · exact (hsl.map _).nodup h2

theorem skip_subsumed_sublist :
    ∀ (l : List Net) (last : Option Net), (skip_subsumed last l).Sublist l := by
  intro l
  induction l with
  | nil =>
    intro last
    cases last <;> exact List.Sublist.refl _
  | cons net rest ih =>
    intro last
    cases last with
    | none =>
      rw [show skip_subsumed none (net :: rest) = net :: skip_subsumed (some net) rest
        from rfl]
      exact List.Sublist.cons₂ _ (ih (some net))
    | some lst =>
      by_cases hbc : net.broadcast ≤ lst.broadcast
      · rw [show skip_subsumed (some lst) (net :: rest) = skip_subsumed (some lst) rest
          from by simp only [skip_subsumed]; rw [if_pos hbc]]
        exact List.Sublist.cons _ (ih (some lst))
      · rw [show skip_subsumed (some lst) (net :: rest)
            = net :: skip_subsumed (some net) rest
          from by simp only [skip_subsumed]; rw [if_neg hbc]]
        exact List.Sublist.cons₂ _ (ih (some net))

theorem skip_chain : ∀ (l : List Net) (lst : Net),
    List.Chain (fun a b => a.broadcast < b.broadcast) lst (skip_subsumed (some lst) l) := by
  intro l
  induction l with
  | nil =>
    intro lst
    exact List.Chain.nil
  | cons net rest ih =>
    intro lst
    by_cases hbc : net.broadcast ≤ lst.broadcast
    · rw [show skip_subsumed (some lst) (net :: rest) = skip_subsumed (some lst) rest
        from by simp only [skip_subsumed]; rw [if_pos hbc]]
      exact ih lst
    · rw [show skip_subsumed (some lst) (net :: rest)
          = net :: skip_subsumed (some net) rest
        from by simp only [skip_subsumed]; rw [if_neg hbc]]
      exact List.Chain.cons (by omega) (ih net)

theorem skip_chain_none (l : List Net) :
    List.Chain' (fun a b => a.broadcast < b.broadcast) (skip_subsumed none l) := by
  cases l with
  | nil => exact List.chain'_nil
  | cons net rest =>
    rw [show skip_subsumed none (net :: rest) = net :: skip_subsumed (some net) rest
      from rfl]
    exact skip_chain rest net

theorem skip_id_of_chain : ∀ (l : List Net) (lst : Net),
    List.Chain (fun a b => a.broadcast < b.broadcast) lst l →
    skip_subsumed (some lst) l = l := by
  intro l
  induction l with
  | nil =>
    intro lst _
    rfl
  | cons net rest ih =>
    intro lst hch
    cases hch with
    | cons h1 h2 =>
      have hbc : ¬(net.broadcast ≤ lst.broadcast) := by omega
      rw [show skip_subsumed (some lst) (net :: rest)
          = net :: skip_subsumed (some net) rest
        from by simp only [skip_subsumed]; rw [if_neg hbc]]
      rw [ih net h2]

theorem skip_id_of_chain_none (l : List Net)
    (h : List.Chain' (fun a b => a.broadcast < b.broadcast) l) :
    skip_subsumed none l = l := by
  cases l with
  | nil => rfl
  | cons net rest =>
    rw [show skip_subsumed none (net :: rest) = net :: skip_subsumed (some net) rest
      from rfl]
    rw [skip_id_of_chain rest net h]

theorem dedupKeepFirstAux_id {α : Type} [DecidableEq α] :
    ∀ (l : List α) (seen : List α), l.Nodup → (∀ a ∈ l, a ∉ seen) →
    dedupKeepFirstAux seen l = l := by
  intro l
  induction l with
  | nil =>
    intro seen _ _
    rfl
  | cons a rest ih =>
    intro seen hnd hns
    unfold dedupKeepFirstAux
    rw [if_neg (hns a (List.mem_cons_self _ _))]
    rw [ih (seen ++ [a]) hnd.of_cons]
    intro b hb
    rw [List.mem_append, List.mem_singleton]
    push_neg
    refine ⟨hns b (List.mem_cons_of_mem _ hb), ?_⟩
    intro hba
    subst hba
    exact (List.nodup_cons.mp hnd).1 hb

theorem dedupKeepFirst_id {α : Type} [DecidableEq α] (l : List α) (h : l.Nodup) :
    dedupKeepFirst l = l :=
  dedupKeepFirstAux_id l [] h (fun a _ => List.not_mem_nil a)

theorem collapse_internal_canonical (l : List Net) :
    List.Sorted NetLE (collapse_addresses_internal l)
    ∧ List.Chain' (fun a b => a.broadcast < b.broadcast) (collapse_addresses_internal l)
    ∧ List.Pairwise (fun a b => a.supernet ≠ b.supernet) (collapse_addresses_internal l) := by
  unfold collapse_addresses_internal
  have hsorted : List.Sorted NetLE
      (sortNets ((merge_loop l).map (fun kv => kv.2))) := List.sorted_insertionSort _ _
  have hsl := skip_subsumed_sublist (sortNets ((merge_loop l).map (fun kv => kv.2))) none
  refine ⟨hsorted.sublist hsl, skip_chain_none _, ?_⟩
  obtain ⟨hkey0, hnd0⟩ := merge_loop_aux_inv (merge_weight l.reverse [] + 1) l.reverse []
    (fun kv hkv => by cases hkv) List.nodup_nil
  have hml : merge_loop l = merge_loop_aux (merge_weight l.reverse [] + 1) l.reverse [] := rfl
  have hkey : ∀ kv ∈ merge_loop l, kv.1 = kv.2.supernet := by
    rw [hml]
    exact hkey0
  have hnd : ((merge_loop l).map (fun kv => kv.1)).Nodup := by
    rw [hml]
    exact hnd0
  have hp1 : (merge_loop l).Pairwise (fun kv1 kv2 => kv1.1 ≠ kv2.1) :=
    List.pairwise_map.mp hnd
  have hp2 : ((merge_loop l).map (fun kv => kv.2)).Pairwise
      (fun a b : Net => a.supernet ≠ b.supernet) := by
    rw [List.pairwise_map]
    refine hp1.imp_of_mem ?_
    intro a b ha hb hr
    rw [hkey a ha, hkey b hb] at hr
    exact hr
  have hperm := List.perm_insertionSort NetLE ((merge_loop l).map (fun kv => kv.2))
  have hp3 : (sortNets ((merge_loop l).map (fun kv => kv.2))).Pairwise
      (fun a b : Net => a.supernet ≠ b.supernet) :=
    (hperm.pairwise_iff (fun h => Ne.symm h)).mpr hp2
  exact List.Pairwise.sublist hsl hp3

theorem netLE_antisymm {a b : Net} (ha : a.Valid) (hb : b.Valid) (hw : a.w = b.w)
    (h1 : NetLE a b) (h2 : NetLE b a) : a = b := by
  rw [NetLE_iff] at h1 h2
  have haddr : a.addr = b.addr := by omega
  have hmask : a.netmaskInt = b.netmaskInt := by omega
  rw [netmaskInt_eq ha.1, netmaskInt_eq hb.1, hw] at hmask
  have hpw : 2 ^ (b.w - a.plen) = 2 ^ (b.w - b.plen) := by
    have h3 : (2:ℕ) ^ (b.w - a.plen) ≤ 2 ^ b.w := Nat.pow_le_pow_right (by omega) (by omega)
    have h4 : (2:ℕ) ^ (b.w - b.plen) ≤ 2 ^ b.w := Nat.pow_le_pow_right (by omega) (by omega)
    omega
  have hexp : b.w - a.plen = b.w - b.plen := Nat.pow_right_injective (by omega) hpw
  have hplen : a.plen = b.plen := by
    have := ha.1
    have := hb.1
    omega
  cases a
  cases b
  simp only [Net.mk.injEq] at *
  exact ⟨hw, haddr, hplen⟩

theorem sorted_perm_eq_nets (W : ℕ) : ∀ (l1 l2 : List Net), l1.Perm l2 →
    List.Sorted NetLE l1 → List.Sorted NetLE l2 →
    (∀ n ∈ l1, n.Valid ∧ n.w = W) → l1 = l2 := by
  intro l1
  induction l1 with
  | nil =>
    intro l2 hp _ _ _
    exact hp.nil_eq
  | cons a t1 ih =>
    intro l2 hp hs1 hs2 hv
    cases l2 with
    | nil =>
      have := hp.symm.nil_eq
      cases this
    | cons b t2 =>
      have hab : a = b := by
        have hainb : a ∈ b :: t2 := hp.mem_iff.mp (List.mem_cons_self _ _)
        have hbina : b ∈ a :: t1 := hp.mem_iff.mpr (List.mem_cons_self _ _)
        rcases List.mem_cons.mp hainb with h | h
        · exact h
        · rcases List.mem_cons.mp hbina with h2 | h2
          · exact h2.symm
          · have hle1 : NetLE a b := (List.sorted_cons.mp hs1).1 b h2
            have hle2 : NetLE b a := (List.sorted_cons.mp hs2).1 a h
            obtain ⟨hav, haw⟩ := hv a (List.mem_cons_self _ _)
            obtain ⟨hbv, hbw⟩ := hv b (List.mem_cons_of_mem _ h2)
            exact netLE_antisymm hav hbv (haw.trans hbw.symm) hle1 hle2
      subst hab
      have hpt : t1.Perm t2 := hp.cons_inv
      rw [ih t2 hpt (List.sorted_cons.mp hs1).2 (List.sorted_cons.mp hs2).2
        (fun n hn => hv n (List.mem_cons_of_mem _ hn))]

theorem collapse_ok_shape {l r : List Net} (h : collapse_addresses l = .ok r) :
    ∃ X, r = collapse_addresses_internal X := by
  unfold collapse_addresses at h
  cases hs : split_ips_nets l [] [] with
  | error e =>
    rw [hs, error_bind] at h
    cases h
  | ok p =>
    obtain ⟨ips, nets⟩ := p
    rw [hs, ok_bind] at h
    cases h
    exact ⟨_, rfl⟩

theorem split_ips_nets_exact (W : ℕ) :
    ∀ (l : List Net) (ips : List Addr) (nets : List Net),
    (∀ n ∈ l, n.w = W) → (∀ a ∈ ips, a.w = W) → (∀ n ∈ nets, n.w = W) →
    split_ips_nets l ips nets = .ok
      (ips.reverse ++ (l.filter (fun n => n.plen == n.w)).map (fun n => ⟨n.w, n.addr⟩),
       nets.reverse ++ l.filter (fun n => !(n.plen == n.w))) := by
  intro l
  induction l with
  | nil =>
    intro ips nets _ _ _
    simp only [List.filter_nil, List.map_nil, List.append_nil]
    rfl
  | cons ip rest ih =>
    intro ips nets hl hips hnets
    have hipw : ip.w = W := hl ip (List.mem_cons_self _ _)
    have hrest : ∀ n ∈ rest, n.w = W := fun n hn => hl n (List.mem_cons_of_mem _ hn)
    by_cases hfl : ip.plen = ip.w
    · have hfb : (ip.plen == ip.w) = true := beq_iff_eq.mpr hfl
      have hnew : ∀ a ∈ (⟨ip.w, ip.addr⟩ : Addr) :: ips, a.w = W := by
        intro a ha
        rcases List.mem_cons.mp ha with h | h
        · subst h
          exact hipw
        · exact hips a h
      have hstep : split_ips_nets (ip :: rest) ips nets
          = split_ips_nets rest (⟨ip.w, ip.addr⟩ :: ips) nets := by
        cases ips with
        | nil =>
          simp only [split_ips_nets]
          rw [if_pos hfl]
        | cons prev ipsRest =>
          have hprev : prev.w = W := hips prev (List.mem_cons_self _ _)
          simp only [split_ips_nets]
          rw [if_pos hfl]
          rw [if_neg (show ¬(prev.w ≠ ip.w) from by omega)]
      rw [hstep, ih (⟨ip.w, ip.addr⟩ :: ips) nets hrest hnew hnets]
      simp only [List.filter_cons, hfb, Bool.not_true, if_pos, List.map_cons,
        List.reverse_cons, List.append_assoc, if_false, Bool.false_eq_true,
        List.singleton_append]
    · have hfb : (ip.plen == ip.w) = false := by
        rw [beq_eq_false_iff_ne]
        exact hfl
      have hnew : ∀ n ∈ ip :: nets, n.w = W := by
        intro n hn
        rcases List.mem_cons.mp hn with h | h
        · subst h
          exact hipw
        · exact hnets n h
      have hstep : split_ips_nets (ip :: rest) ips nets
          = split_ips_nets rest ips (ip :: nets) := by
        cases nets with
        | nil =>
          simp only [split_ips_nets]
          rw [if_neg hfl]
        | cons prev netsRest =>
          have hprev : prev.w = W := hnets prev (List.mem_cons_self _ _)
          simp only [split_ips_nets]
          rw [if_neg hfl]
          rw [if_neg (show ¬(prev.w ≠ ip.w) from by omega)]
      rw [hstep, ih ips (ip :: nets) hrest hips hnew]
      simp only [List.filter_cons, hfb, Bool.not_false, if_pos, List.map_cons,
        List.reverse_cons, List.append_assoc, if_false, Bool.false_eq_true,
        List.singleton_append]

theorem count_righthand_zero_bits_odd {f bits : ℕ} (h : f % 2 = 1) :
    count_righthand_zero_bits f bits = 0 := by
  unfold count_righthand_zero_bits
  rw [if_neg (by omega)]
  obtain ⟨t, ht1, ht2⟩ := trailing_mask f (by omega)
  have ht0 : t = 0 := by
    rcases Nat.eq_zero_or_pos t with h0 | hpos
    · exact h0
    · exfalso
      obtain ⟨c, hc⟩ := ht2
      have h2d : 2 ∣ f := by
        refine ⟨2 ^ (t - 1) * c, ?_⟩
        rw [hc]
        rw [show (2:ℕ) ^ t = 2 * 2 ^ (t - 1) from by
          rw [← Nat.pow_succ']
          congr 1
          omega]
        ring
      omega
  rw [ht1, ht0]
  rw [show (2:ℕ) ^ 0 - 1 = 0 from rfl]
  rw [show bit_length 0 = 0 from by decide]
  exact Nat.min_zero _

theorem summarize_pair (W f : ℕ) (hodd : f % 2 = 1) (hlt : f + 1 < 2 ^ W) :
    summarize_address_range W f (f + 1) = [⟨W, f, W⟩, ⟨W, f + 1, W⟩] := by
  unfold summarize_address_range
  rw [show f + 1 + 1 - f = 1 + 1 from by omega]
  conv_lhs => rw [summarize_aux]
  rw [if_pos (show f ≤ f + 1 from by omega)]
  have hnb : min (count_righthand_zero_bits f W) (bit_length (f + 1 - f + 1) - 1) = 0 := by
    rw [count_righthand_zero_bits_odd hodd]
    simp
  rw [hnb]
  simp only [pow_zero, Nat.sub_zero, Nat.add_sub_cancel]
  rw [if_neg (show ¬(f = allOnes W) from by unfold allOnes; omega)]
  congr 1
  have hs := summarize_single W (f + 1)
  unfold summarize_address_range at hs
  rw [show f + 1 + 1 - (f + 1) = 1 from by omega] at hs
  exact hs

theorem find_range_exact (W : ℕ) :
    ∀ (rest : List Addr) (first last : Addr),
    first.w = W →
    (∀ a ∈ rest, a.w = W ∧ a.val < 2 ^ W) →
    last.val < 2 ^ W →
    (last.val = first.val ∨ (last.val = first.val + 1 ∧ first.val % 2 = 1)) →
    List.Chain (fun a b : Addr => a.val < b.val) last rest →
    (∀ u v : Addr, (u = last ∨ u ∈ rest) → (v = last ∨ v ∈ rest) →
      v.val = u.val + 1 → u.val % 2 = 0 → False) →
    concatMap (fun pr : Addr × Addr => summarize_address_range pr.1.w pr.1.val pr.2.val)
        (find_range_go first last rest)
      = (if last.val = first.val then [(⟨W, first.val, W⟩ : Net)]
         else [⟨W, first.val, W⟩, ⟨W, last.val, W⟩])
        ++ rest.map (fun a => (⟨W, a.val, W⟩ : Net)) := by
  intro rest
  induction rest with
  | nil =>
    intro first last hfw _ hlt hrun _ _
    rw [show find_range_go first last [] = [(first, last)] from rfl]
    show summarize_address_range first.w first.val last.val ++ concatMap _ [] = _
    rw [hfw]
    rcases hrun with h | ⟨h1, h2⟩
    · rw [h, summarize_single, if_pos rfl]
      rfl
    · rw [h1, summarize_pair W first.val h2 (by omega)]
      rw [if_neg (by omega)]
      rfl
  | cons ip rest2 ih =>
    intro first last hfw hrest hlt hrun hch hns
    obtain ⟨hipw, hipv⟩ := hrest ip (List.mem_cons_self _ _)
    have hrest2 : ∀ a ∈ rest2, a.w = W ∧ a.val < 2 ^ W :=
      fun a ha => hrest a (List.mem_cons_of_mem _ ha)
    cases hch with
    | cons h1 h2 =>
      by_cases hc : ip.val ≠ last.val + 1
      · have hg : find_range_go first last (ip :: rest2)
            = (first, last) :: find_range_go ip ip rest2 := by
          simp only [find_range_go]
          rw [if_pos hc]
        rw [hg]
        show summarize_address_range first.w first.val last.val ++ concatMap _ _ = _
        have hih := ih ip ip hipw hrest2 hipv (Or.inl rfl) h2 ?_
        · rw [hih, if_pos rfl]
          rw [hfw]
          rcases hrun with h | ⟨h3, h4⟩
          · rw [h, summarize_single, if_pos rfl]
            rfl
          · rw [h3, summarize_pair W first.val h4 (by omega)]
            rw [if_neg (by omega)]
            rfl
        · intro u v hu hv hsucc heven
          refine hns u v ?_ ?_ hsucc heven
          · rcases hu with h | h
            · exact Or.inr (h ▸ List.mem_cons_self _ _)
            · exact Or.inr (List.mem_cons_of_mem _ h)
          · rcases hv with h | h
            · exact Or.inr (h ▸ List.mem_cons_self _ _)
            · exact Or.inr (List.mem_cons_of_mem _ h)
      · push_neg at hc
        have hg : find_range_go first last (ip :: rest2) = find_range_go first ip rest2 := by
          simp only [find_range_go]
          rw [if_neg (by omega)]
        rcases hrun with hrun1 | ⟨hrun1, hrun2⟩
        · have hofirst : first.val % 2 = 1 := by
            by_contra hcon
            exact hns last ip (Or.inl rfl) (Or.inr (List.mem_cons_self _ _)) hc
              (by omega)
          have hih := ih first ip hfw hrest2 hipv
            (Or.inr ⟨by omega, hofirst⟩) h2 ?_
          · rw [hg, hih]
            rw [if_neg (by omega), if_pos hrun1]
            rfl
          · intro u v hu hv hsucc heven
            refine hns u v ?_ ?_ hsucc heven
            · rcases hu with h | h
              · exact Or.inr (h ▸ List.mem_cons_self _ _)
              · exact Or.inr (List.mem_cons_of_mem _ h)
            · rcases hv with h | h
              · exact Or.inr (h ▸ List.mem_cons_self _ _)
              · exact Or.inr (List.mem_cons_of_mem _ h)
        · exfalso
          exact hns last ip (Or.inl rfl) (Or.inr (List.mem_cons_self _ _)) hc
            (by omega)

theorem find_range_summarize_exact (W : ℕ) (l : List Addr)
    (hw : ∀ a ∈ l, a.w = W ∧ a.val < 2 ^ W)
    (hchain : List.Chain' (fun a b : Addr => a.val < b.val) l)
    (hnosib : ∀ u v : Addr, u ∈ l → v ∈ l → v.val = u.val + 1 → u.val % 2 = 0 → False) :
    concatMap (fun pr : Addr × Addr => summarize_address_range pr.1.w pr.1.val pr.2.val)
        (find_address_range l)
      = l.map (fun a => (⟨W, a.val, W⟩ : Net)) := by
  cases l with
  | nil => rfl
  | cons a0 rest =>
    obtain ⟨ha0w, ha0v⟩ := hw a0 (List.mem_cons_self _ _)
    have hres := find_range_exact W rest a0 a0 ha0w
      (fun a ha => hw a (List.mem_cons_of_mem _ ha)) ha0v (Or.inl rfl) hchain
      (fun u v hu hv hsucc heven => hnosib u v
        (hu.elim (fun h => h ▸ List.mem_cons_self _ _) (List.mem_cons_of_mem _))
        (hv.elim (fun h => h ▸ List.mem_cons_self _ _) (List.mem_cons_of_mem _))
        hsucc heven)
    rw [show find_address_range (a0 :: rest) = find_range_go a0 a0 rest from rfl]
    rw [hres, if_pos rfl]
    rfl

theorem dict_get_none {d : List (Net × Net)} {k : Net}
    (h : ∀ kv ∈ d, kv.1 ≠ k) : dict_get d k = none := by
  unfold dict_get
  cases hf : d.find? (fun p => p.1 == k) with
  | none => rfl
  | some kv =>
    exfalso
    have h1 := List.find?_some hf
    have h2 := List.mem_of_find?_eq_some hf
    rw [beq_iff_eq] at h1
    exact h kv h2 h1

theorem merge_loop_aux_perm : ∀ (g : ℕ) (stack : List Net) (d : List (Net × Net)),
    List.Pairwise (fun a b : Net => a.supernet ≠ b.supernet) stack →
    (∀ n ∈ stack, ∀ kv ∈ d, n.supernet ≠ kv.1) →
    merge_weight stack d < g →
    ((merge_loop_aux g stack d).map (fun kv => kv.2)).Perm
      (stack ++ d.map (fun kv => kv.2)) := by
  intro g
  induction g with
  | zero =>
    intro stack d _ _ hgas
    omega
  | succ g ih =>
    intro stack d hp hd hgas
    cases stack with
    | nil =>
      rw [show merge_loop_aux (g + 1) [] d = d from by simp only [merge_loop_aux]]
      rw [List.nil_append]
    | cons net rest =>
      have hget : dict_get d net.supernet = none :=
        dict_get_none (fun kv hkv => Ne.symm (hd net (List.mem_cons_self _ _) kv hkv))
      have hstep : merge_loop_aux (g + 1) (net :: rest) d
          = merge_loop_aux g rest (dict_set d net.supernet net) := by
        simp only [merge_loop_aux]
        rw [hget]
      rw [hstep]
      have hp' : List.Pairwise (fun a b : Net => a.supernet ≠ b.supernet) rest :=
        hp.of_cons
      have hd' : ∀ n ∈ rest, ∀ kv ∈ dict_set d net.supernet net, n.supernet ≠ kv.1 := by
        intro n hn kv hkv
        unfold dict_set at hkv
        rcases List.mem_append.mp hkv with h | h
        · exact hd n (List.mem_cons_of_mem _ hn) kv h
        · rw [List.mem_singleton] at h
          subst h
          exact Ne.symm ((List.pairwise_cons.mp hp).1 n hn)
      have hgas' : merge_weight rest (dict_set d net.supernet net) < g := by
        unfold merge_weight dict_set at *
        simp only [List.map_append, List.sum_append, List.map_cons, List.map_nil,
          List.sum_cons, List.sum_nil] at *
        omega
      have hih := ih rest (dict_set d net.supernet net) hp' hd' hgas'
      unfold dict_set at hih
      rw [List.map_append] at hih
      simp only [List.map_cons, List.map_nil] at hih
      refine hih.trans ?_
      rw [← List.append_assoc]
      refine (List.perm_append_comm).trans ?_
      rw [List.singleton_append]
      exact List.Perm.refl _

theorem merge_loop_perm (X : List Net)
    (hp : List.Pairwise (fun a b : Net => a.supernet ≠ b.supernet) X) :
    ((merge_loop X).map (fun kv => kv.2)).Perm X := by
  unfold merge_loop
  have hrev : List.Pairwise (fun a b : Net => a.supernet ≠ b.supernet) X.reverse := by
    rw [List.pairwise_reverse]
    exact hp.imp (fun h => Ne.symm h)
  have hperm := merge_loop_aux_perm (merge_weight X.reverse [] + 1) X.reverse []
    hrev (fun n _ kv hkv => by cases hkv) (by omega)
  simp only [List.map_nil, List.append_nil] at hperm
  exact hperm.trans (List.reverse_perm X)

theorem full_supernet_addr (W v : ℕ) (hW : 1 ≤ W) (hlt : v < 2 ^ W) :
    (⟨W, v, W⟩ : Net).supernet = ⟨W, v - v % 2, W - 1⟩ := by
  unfold Net.supernet
  rw [if_neg (show ¬((⟨W, v, W⟩ : Net).plen = 0) from by dsimp; omega)]
  have hmask : (⟨W, v, W⟩ : Net).netmaskInt = 2 ^ W - 1 := by
    unfold Net.netmaskInt
    dsimp
    exact ipIntFromPrefix_full W
  rw [hmask]
  have h2 : ((2:ℕ) ^ W - 1) * 2 = 2 ^ (W + 1) - 2 ^ 1 := by
    have : (2:ℕ) ^ (W + 1) = 2 ^ W * 2 := by rw [Nat.pow_succ]
    have hpos : (0:ℕ) < 2 ^ W := Nat.pos_pow_of_pos _ (by omega)
    omega
  rw [h2]
  rw [py_and_mask (show 1 ≤ W + 1 from by omega) (show v < 2 ^ (W + 1) from by
    have : (2:ℕ) ^ W ≤ 2 ^ (W + 1) := Nat.pow_le_pow_right (by omega) (by omega)
    omega)]
  rw [show (2:ℕ) ^ 1 = 2 from rfl]

theorem full_sibling_supernet (W v : ℕ) (hW : 1 ≤ W) (hv : v % 2 = 0)
    (hlt : v + 1 < 2 ^ W) :
    (⟨W, v, W⟩ : Net).supernet = (⟨W, v + 1, W⟩ : Net).supernet := by
  rw [full_supernet_addr W v hW (by omega), full_supernet_addr W (v + 1) hW hlt]
  have h1 : v - v % 2 = v := by omega
  have h2 : v + 1 - (v + 1) % 2 = v := by omega
  rw [h1, h2]

theorem sibling_supernet_general {W : ℕ} {a b : Net} (hb : b.Valid)
    (haw : a.w = W) (hbw : b.w = W) (hap : a.plen = a.w) (hbp : b.plen = b.w)
    (hsucc : b.addr = a.addr + 1) (heven : a.addr % 2 = 0) :
    a.supernet = b.supernet := by
  have hblt : b.addr < 2 ^ W := by
    have := hb.2.1
    rw [hbw] at this
    exact this
  have hW1 : 1 ≤ W := by
    rcases Nat.eq_zero_or_pos W with h0 | hpos
    · exfalso
      rw [h0, pow_zero] at hblt
      omega
    · exact hpos
  cases a with
  | mk w0 a0 p0 =>
    cases b with
    | mk w1 a1 p1 =>
      simp only at haw hbw hap hbp hsucc heven
      subst haw hbw hap hbp hsucc
      exact full_sibling_supernet _ a0 hW1 heven hblt

theorem collapse_canonical_id (W : ℕ) (r : List Net)
    (hv : ∀ n ∈ r, n.Valid ∧ n.w = W)
    (hsorted : List.Sorted NetLE r)
    (hchain : List.Chain' (fun a b : Net => a.broadcast < b.broadcast) r)
    (hsib : List.Pairwise (fun a b : Net => a.supernet ≠ b.supernet) r) :
    collapse_addresses r = .ok r := by
  have hfull_mem : ∀ n ∈ r.filter (fun n => n.plen == n.w), n ∈ r ∧ n.plen = n.w := by
    intro n hn
    rw [List.mem_filter] at hn
    exact ⟨hn.1, by simpa using hn.2⟩
  have hbc_full : ∀ n ∈ r.filter (fun n => n.plen == n.w), n.broadcast = n.addr := by
    intro n hn
    obtain ⟨hmem, hpl⟩ := hfull_mem n hn
    have hval := (hv n hmem).1
    rw [broadcast_eq hval]
    unfold Net.size
    rw [show n.w - n.plen = 0 from by omega, pow_zero]
    omega
  have hPbc : List.Pairwise (fun a b : Net => a.broadcast < b.broadcast) r := by
    haveI : IsTrans Net (fun a b : Net => a.broadcast < b.broadcast) :=
      ⟨fun a b c h1 h2 => by omega⟩
    exact List.chain'_iff_pairwise.mp hchain
  have hPf : List.Pairwise (fun a b : Net => a.addr < b.addr)
      (r.filter (fun n => n.plen == n.w)) := by
    refine (hPbc.filter _).imp_of_mem ?_
    intro a b ha hb hr
    rw [hbc_full a ha, hbc_full b hb] at hr
    exact hr
  have hPA : List.Pairwise (fun x y : Addr => x.val < y.val)
      ((r.filter (fun n => n.plen == n.w)).map (fun n => (⟨n.w, n.addr⟩ : Addr))) := by
    rw [List.pairwise_map]
    exact hPf
  have hNdA : ((r.filter (fun n => n.plen == n.w)).map
      (fun n => (⟨n.w, n.addr⟩ : Addr))).Nodup := by
    refine hPA.imp ?_
    intro a b h he
    rw [he] at h
    omega
  have hSA : List.Sorted AddrLE ((r.filter (fun n => n.plen == n.w)).map
      (fun n => (⟨n.w, n.addr⟩ : Addr))) := by
    refine hPA.imp ?_
    intro a b h
    unfold AddrLE
    omega
  have hCA : List.Chain' (fun x y : Addr => x.val < y.val)
      ((r.filter (fun n => n.plen == n.w)).map (fun n => (⟨n.w, n.addr⟩ : Addr))) := by
    haveI : IsTrans Addr (fun x y : Addr => x.val < y.val) :=
      ⟨fun a b c h1 h2 => by omega⟩
    exact List.chain'_iff_pairwise.mpr hPA
  have hwA : ∀ a ∈ (r.filter (fun n => n.plen == n.w)).map
      (fun n => (⟨n.w, n.addr⟩ : Addr)), a.w = W ∧ a.val < 2 ^ W := by
    intro a ha
    rw [List.mem_map] at ha
    obtain ⟨n, hn, hn2⟩ := ha
    obtain ⟨hmem, hpl⟩ := hfull_mem n hn
    obtain ⟨hval, hw⟩ := hv n hmem
    subst hn2
    refine ⟨hw, ?_⟩
    have := hval.2.1
    rw [hw] at this
    exact this
  have hnosib : ∀ u v : Addr,
      u ∈ (r.filter (fun n => n.plen == n.w)).map (fun n => (⟨n.w, n.addr⟩ : Addr)) →
      v ∈ (r.filter (fun n => n.plen == n.w)).map (fun n => (⟨n.w, n.addr⟩ : Addr)) →
      v.val = u.val + 1 → u.val % 2 = 0 → False := by
    intro u v hu hv2 hsucc heven
    rw [List.mem_map] at hu hv2
    obtain ⟨nu, hnu, hnu2⟩ := hu
    obtain ⟨nv, hnv, hnv2⟩ := hv2
    obtain ⟨hnum, hnup⟩ := hfull_mem nu hnu
    obtain ⟨hnvm, hnvp⟩ := hfull_mem nv hnv
    obtain ⟨hnuv, hnuw⟩ := hv nu hnum
    obtain ⟨hnvv, hnvw⟩ := hv nv hnvm
    subst hnu2
    subst hnv2
    simp only at hsucc heven
    have hne : nu ≠ nv := by
      intro he
      rw [he] at hsucc
      omega
    have hsup : nu.supernet ≠ nv.supernet := by
      have hsymm : Symmetric (fun a b : Net => a.supernet ≠ b.supernet) :=
        fun _ _ hab => Ne.symm hab
      exact List.Pairwise.forall hsymm hsib hnum hnvm hne
    exact hsup (sibling_supernet_general hnvv hnuw hnvw hnup hnvp hsucc heven)
  have hsplit := split_ips_nets_exact W r [] [] (fun n hn => (hv n hn).2)
    (fun a ha => by cases ha) (fun n hn => by cases hn)
  simp only [List.reverse_nil, List.nil_append] at hsplit
  unfold collapse_addresses
  rw [hsplit, ok_bind]
  dsimp only
  rw [show dedupKeepFirst ((r.filter (fun n => n.plen == n.w)).map
      (fun n => (⟨n.w, n.addr⟩ : Addr)))
    = (r.filter (fun n => n.plen == n.w)).map (fun n => (⟨n.w, n.addr⟩ : Addr))
    from dedupKeepFirst_id _ hNdA]
  rw [show sortAddrs ((r.filter (fun n => n.plen == n.w)).map
      (fun n => (⟨n.w, n.addr⟩ : Addr)))
    = (r.filter (fun n => n.plen == n.w)).map (fun n => (⟨n.w, n.addr⟩ : Addr))
    from List.Sorted.insertionSort_eq hSA]
  rw [find_range_summarize_exact W _ hwA hCA hnosib]
  have hmapid : ((r.filter (fun n => n.plen == n.w)).map
      (fun n => (⟨n.w, n.addr⟩ : Addr))).map (fun a => (⟨W, a.val, W⟩ : Net))
      = r.filter (fun n => n.plen == n.w) := by
    rw [List.map_map]
    have hcongr : ∀ n ∈ r.filter (fun n => n.plen == n.w),
        ((fun a : Addr => (⟨W, a.val, W⟩ : Net))
          ∘ (fun n : Net => (⟨n.w, n.addr⟩ : Addr))) n = id n := by
      intro n hn
      obtain ⟨hmem, hpl⟩ := hfull_mem n hn
      have hw := (hv n hmem).2
      cases n with
      | mk w0 a0 p0 =>
        dsimp only at hpl hw
        show (⟨W, a0, W⟩ : Net) = ⟨w0, a0, p0⟩
        rw [Net.mk.injEq]
        exact ⟨hw.symm, rfl, by omega⟩
    rw [List.map_congr_left hcongr, List.map_id]
  rw [hmapid]
  have hXperm : (r.filter (fun n => n.plen == n.w)
      ++ r.filter (fun n => !(n.plen == n.w))).Perm r := List.filter_append_perm _ r
  have hXsib : List.Pairwise (fun a b : Net => a.supernet ≠ b.supernet)
      (r.filter (fun n => n.plen == n.w) ++ r.filter (fun n => !(n.plen == n.w))) :=
    (hXperm.pairwise_iff (fun h => Ne.symm h)).mpr hsib
  unfold collapse_addresses_internal
  have hmlp := merge_loop_perm _ hXsib
  have hvalsperm := hmlp.trans hXperm
  have hsortperm : (sortNets ((merge_loop (r.filter (fun n => n.plen == n.w)
      ++ r.filter (fun n => !(n.plen == n.w)))).map (fun kv => kv.2))).Perm r :=
    (List.perm_insertionSort NetLE _).trans hvalsperm
  have hsorteq : sortNets ((merge_loop (r.filter (fun n => n.plen == n.w)
      ++ r.filter (fun n => !(n.plen == n.w)))).map (fun kv => kv.2)) = r := by
    refine sorted_perm_eq_nets W _ r hsortperm (List.sorted_insertionSort NetLE _)
      hsorted ?_
    intro n hn
    exact hv n (hsortperm.mem_iff.mp hn)
  rw [hsorteq]
  rw [skip_id_of_chain_none r hchain]

theorem exclude_eq_final_collapse (T : Net) (E : List Net) (hT : T.Valid)
    (hE : ∀ a ∈ E, a.Valid ∧ a.w = T.w) :
    ∃ m, (∀ n ∈ m, n.Valid ∧ n.w = T.w)
      ∧ exclude_addresses T E = collapse_addresses m := by
  obtain ⟨collapsedE, hceq, hcval, -⟩ := collapse_spec T.w E hE
  have hsperm : (sortNets collapsedE).Perm collapsedE := List.perm_insertionSort NetLE _
  have hsval : ∀ a ∈ sortNets collapsedE, a.Valid ∧ a.w = T.w :=
    fun a ha => hcval a (hsperm.mem_iff.mp ha)
  obtain ⟨networks, hneq, -, hnval, -, -, -⟩ :=
    exclude_fold_spec T hT (sortNets collapsedE) [] hsval (by intro n hn; cases hn)
  have hn2perm : (sortNets (dedupKeepFirst networks)).Perm (dedupKeepFirst networks) :=
    List.perm_insertionSort NetLE _
  have hn2mem : ∀ n : Net, n ∈ sortNets (dedupKeepFirst networks) ↔ n ∈ networks := by
    intro n
    rw [hn2perm.mem_iff, mem_dedupKeepFirst]
  have hn2val : ∀ n ∈ sortNets (dedupKeepFirst networks), n.Valid ∧ n.w = T.w :=
    fun n hn => hnval n ((hn2mem n).mp hn)
  obtain ⟨toRem, hrq, -⟩ := remove_outer_spec T.w (sortNets collapsedE)
    (fun a ha => (hsval a ha).2) (sortNets (dedupKeepFirst networks)) []
    (fun n hn => (hn2val n hn).2)
  obtain ⟨-, hn3mem⟩ := erase_fold_spec toRem (sortNets (dedupKeepFirst networks))
    (hn2perm.nodup_iff.mpr (nodup_dedupKeepFirst _))
  refine ⟨toRem.foldl (fun (nets : List Net) network =>
      if network ∈ nets then nets.erase network else nets)
      (sortNets (dedupKeepFirst networks)),
    fun n hn => hn2val n ((hn3mem n).mp hn).1, ?_⟩
  unfold exclude_addresses
  rw [hceq, ok_bind]
  dsimp only
  rw [hneq, ok_bind]
  rw [hrq, ok_bind]

/-- C6: the engine's result sequence is canonical — re-collapsing it yields
the same sequence (no two blocks are mergeable or nested), it contains no
duplicates, and it is ordered ascending by (base address, netmask), the order
`sorted` uses on networks. -/
theorem c6_canonical (T : Net) (E : List Net) (r : List Net) (hT : T.Valid)
    (hE : ∀ a ∈ E, a.Valid ∧ a.w = T.w)
    (heq : exclude_addresses T E = .ok r) :
    collapse_addresses r = .ok r ∧ List.Sorted NetLE r ∧ r.Nodup := by
  obtain ⟨m, hmval, hmeq⟩ := exclude_eq_final_collapse T E hT hE
  rw [hmeq] at heq
  obtain ⟨X, hX⟩ := collapse_ok_shape heq
  obtain ⟨hXS, hXC, hXP⟩ := collapse_internal_canonical X
  rw [← hX] at hXS hXC hXP
  obtain ⟨r', heq', hv', -⟩ := collapse_spec T.w m hmval
  rw [heq] at heq'
  cases heq'
  refine ⟨collapse_canonical_id T.w r hv' hXS hXC hXP, hXS, ?_⟩
  exact hXP.imp (fun h he => h (congrArg Net.supernet he))

/-- C6 witness: the result for `10.0.0.0/8` minus `10.1.0.0/16` re-collapses
to itself, is sorted ascending and duplicate-free. -/
theorem c6_witness :
    collapse_addresses engine_c5_list = .ok engine_c5_list
    ∧ List.Sorted NetLE engine_c5_list ∧ engine_c5_list.Nodup :=
  c6_canonical T8 [E16] engine_c5_list (by decide) (by decide) (by decide)
